import Mathlib

/-!
The pipeline of `main.go` of image-renamer.

A shallow embedding of `src/main.go`.  Go strings are lists of characters, Go
integers are unbounded (a year is at most a few hundred billion in absolute
value, far from the 64-bit limit), and the path separator is the Unix one.
The three goroutines are run one after the other, the scan to its end, then
`makeImages`, then `moveImages`; each stage is a function of what it receives,
and `log.Fatalln` is a result that stops the run.

The Go standard library (`fmt`, `path/filepath`, `strings`, `time`, `os`) and
the `goexif` package are not part of the repository; the functions `main.go`
calls are written out after their documented behaviour.  The operating system
is first a record of functions over any state, and then a file system without
symbolic links.
-/

namespace ImageRenamer

/-- Go strings, as sequences of characters. -/
abbrev Str := List Char

/-! ## `time.Time` -/

/-- What `main.go` reads from a `time.Time`: the results of `Date()` and
`Clock()`, which the library keeps in the calendar ranges below, and the
sub-second part, which `NewImage` never looks at. -/
structure Time where
  year : Int
  month : Nat
  day : Nat
  hour : Nat
  min : Nat
  sec : Nat
  nsec : Nat
  month_range : 1 ≤ month ∧ month ≤ 12
  day_range : 1 ≤ day ∧ day ≤ 31
  hour_range : hour ≤ 23
  min_range : min ≤ 59
  sec_range : sec ≤ 59
deriving DecidableEq

/-- The method `Time.Date`. -/
def Time.Date (t : Time) : Int × Nat × Nat := (t.year, t.month, t.day)

/-- The method `Time.Clock`. -/
def Time.Clock (t : Time) : Nat × Nat × Nat := (t.hour, t.min, t.sec)

/-! ## `fmt.Sprintf` with the verb `%02d` -/

/-- The byte `'0' + d` written for the decimal digit `d`. -/
def digitByte (d : Nat) : Char := Char.ofNat (48 + d)

/-- The digit loop of `fmtInteger`, base 10: digits are written right to left
in front of `buf` while `u >= 10`, then the last digit. -/
def fmtDigitsLoop : Nat → Nat → List Char → List Char
  | 0, u, buf => digitByte u :: buf
  | fuel + 1, u, buf =>
    if 10 ≤ u then fmtDigitsLoop fuel (u / 10) (digitByte (u - u / 10 * 10) :: buf)
    else digitByte u :: buf

/-- The decimal digits of `u` as `fmtInteger` produces them. -/
def fmtDigits (u : Nat) : List Char := fmtDigitsLoop u u []

/-- The formatting of one integer under `%0<wid>d`: the zero flag turns the
width into a precision, one less when a sign is printed; digits are filled
with zeros up to the precision, the sign is put in front, and what is still
narrower than the width is padded with blanks on the left. -/
def fmtInteger (wid : Nat) (v : Int) : Str :=
  let negative := decide (v < 0)
  let u := v.natAbs
  let prec := if negative then wid - 1 else wid
  let digits := fmtDigits u
  let filled := List.replicate (prec - digits.length) '0' ++ digits
  let signed := if negative then '-' :: filled else filled
  List.replicate (wid - signed.length) ' ' ++ signed

/-- The result of `fmt.Sprintf("%02d", v)`. -/
def Sprintf02d (v : Int) : Str := fmtInteger 2 v

/-! ## `path/filepath` and `strings` -/

/-- The elements of a string between the occurrences of `sep`. -/
def splitOn (sep : Char) : Str → List Str
  | [] => [[]]
  | c :: cs =>
    if c = sep then [] :: splitOn sep cs
    else (c :: (splitOn sep cs).headD []) :: (splitOn sep cs).tail

/-- The result of `strings.Join(elems, "/")`. -/
def joinSlash : List Str → Str
  | [] => []
  | [e] => e
  | e :: e2 :: es => e ++ '/' :: joinSlash (e2 :: es)

/-- A path element that names an entry: not empty, without a separator, and
neither `.` nor `..`. -/
def PlainName (e : Str) : Prop :=
  e ≠ [] ∧ '/' ∉ e ∧ e ≠ ['.'] ∧ e ≠ ['.', '.']

instance (e : Str) : Decidable (PlainName e) := by
  unfold PlainName
  exact inferInstance

/-- The state of `filepath.Clean` while it reads a path: how many `..`
elements open the result, and the elements kept after them, last first. -/
structure CleanState where
  dotdot : Nat
  out : List Str
deriving DecidableEq

/-- One path element read by `filepath.Clean`: an empty element and `.` are
dropped; `..` removes the element before it, or is kept when there is none and
the path is not rooted; any other element is kept. -/
def cleanStep (rooted : Bool) (s : CleanState) (e : Str) : CleanState :=
  if e = [] ∨ e = ['.'] then s
  else if e = ['.', '.'] then
    match s.out with
    | _ :: rest => ⟨s.dotdot, rest⟩
    | [] => if rooted then s else ⟨s.dotdot + 1, []⟩
  else ⟨s.dotdot, e :: s.out⟩

/-- All the elements of a path read by `filepath.Clean`. -/
def cleanElems (rooted : Bool) (start : CleanState) (elems : List Str) : CleanState :=
  elems.foldl (cleanStep rooted) start

/-- The elements `filepath.Clean` has kept, in order. -/
def CleanState.elems (s : CleanState) : List Str :=
  List.replicate s.dotdot ['.', '.'] ++ s.out.reverse

/-- Whether a path begins at the root. -/
def isRooted (path : Str) : Bool := decide (path.head? = some '/')

/-- What `filepath.Clean` has kept when it has read the whole path. -/
def pathState (path : Str) : CleanState :=
  cleanElems (isRooted path) ⟨0, []⟩ (splitOn '/' path)

/-- The path `filepath.Clean` writes from what it has kept: the elements
joined by the separator, behind a separator when the path is rooted, and `.`
when nothing is left of a path that is not. -/
def CleanState.render (rooted : Bool) (s : CleanState) : Str :=
  if rooted then '/' :: joinSlash s.elems
  else if s.elems = [] then ['.']
  else joinSlash s.elems

/-- What `filepath.Clean` keeps of any path: plain names, behind `..` elements
only when the path is not rooted. -/
def CleanState.Canonical (rooted : Bool) (s : CleanState) : Prop :=
  (rooted = true → s.dotdot = 0) ∧ ∀ e ∈ s.out, PlainName e

/-- The function `filepath.Clean` on Unix. -/
def Clean (path : Str) : Str :=
  if path = [] then ['.'] else (pathState path).render (isRooted path)

/-- The function `filepath.Join`: empty elements in front are ignored, the
rest is joined with the separator and cleaned; no element left gives the
empty string. -/
def Join (elem : List Str) : Str :=
  match elem.dropWhile (fun e => decide (e = [])) with
  | [] => []
  | rest => Clean (joinSlash rest)

/-- The string `path[:i+1]`, `i` the index of the last separator of `path`. -/
def dirPart (path : Str) : Str :=
  (path.reverse.dropWhile (fun c => decide (c ≠ '/'))).reverse

/-- The function `filepath.Dir` on Unix. -/
def Dir (path : Str) : Str := Clean (dirPart path)

/-- The loop of `filepath.Ext`, from the last byte backwards: `suffix` is what
has been passed so far. -/
def extLoop : List Char → List Char → Str
  | [], _ => []
  | c :: before, suffix =>
    if c = '/' then []
    else if c = '.' then '.' :: suffix
    else extLoop before (c :: suffix)

/-- The function `filepath.Ext`: the suffix from the last dot of the last
element of the path, empty when that element has no dot. -/
def Ext (path : Str) : Str := extLoop path.reverse []

/-- The case table of `unicode.ToLower`, which is not written out here: on
ASCII it lowers the letters A to Z and nothing else, and no character outside
ASCII is mapped to a dot or to a separator. -/
structure CaseTable where
  lower : Char → Char
  ascii : ∀ c : Char, c.toNat < 128 → lower c = c.toLower
  other : ∀ c : Char, 128 ≤ c.toNat → lower c ≠ '.' ∧ lower c ≠ '/'

/-- The function `strings.ToLower`. -/
def ToLower (tbl : CaseTable) (s : Str) : Str := s.map tbl.lower

/-! ## The data model -/

/-- The struct `Image`. -/
structure Image where
  FromPath : Str
  ToPath : Str
  Extension : Str
  CreatedAt : Time
deriving DecidableEq

/-- The result of `fmt.Sprintf("%02d.%02d.%02d_%02d.%02d.%02d", ...)` on six
integers. -/
def SprintfStamp (year month day hour min sec : Int) : Str :=
  Sprintf02d year ++ ('.' :: (Sprintf02d month ++ ('.' :: (Sprintf02d day ++ ('_' ::
    (Sprintf02d hour ++ ('.' :: (Sprintf02d min ++ ('.' :: Sprintf02d sec)))))))))

/-- The function `NewImage`. -/
def NewImage (path extension : Str) (createdAt : Time) : Image :=
  let (year, month, day) := createdAt.Date
  let (hour, min, sec) := createdAt.Clock
  let dir := Sprintf02d year
  let file := SprintfStamp year month day hour min sec ++ extension
  { FromPath := path, Extension := extension, CreatedAt := createdAt, ToPath := Join [dir, file] }

/-! ## The operating system as the pipeline sees it -/

/-- The error numbers the calls of `main.go` can meet. -/
inductive Errno
  | ENOENT
  | ENOTDIR
  | EISDIR
  | EEXIST
  | ENOTEMPTY
  | EACCES
  | EINVAL
  | EMFILE
deriving DecidableEq

deriving instance DecidableEq for Except

/-- The function `os.IsNotExist`. -/
def IsNotExist (e : Errno) : Bool := decide (e = Errno.ENOENT)

/-- The function `os.IsExist`. -/
def IsExist (e : Errno) : Bool := decide (e = Errno.EEXIST ∨ e = Errno.ENOTEMPTY)

/-- What `main.go` reads from an `os.FileInfo`. -/
structure FileInfo where
  isDir : Bool
deriving DecidableEq

/-- A decoded tag set of `goexif`, seen through its only method in use:
`DateTime()` gives a timestamp or fails. -/
structure Exif where
  dateTime : Option Time
deriving DecidableEq

/-- The bytes of a file, seen through `exif.Decode`: a tag set or a failure. -/
structure FileContent where
  exif : Option Exif
deriving DecidableEq

/-- An open `os.File`: the name it was opened under and what can be read. -/
structure File where
  name : Str
  content : FileContent
deriving DecidableEq

/-- One call `filepath.Walk` makes to its callback. -/
structure WalkEntry where
  path : Str
  isDir : Bool
  err : Option Errno
deriving DecidableEq

/-- The operating system over a state `σ`: `walk` lists the calls
`filepath.Walk` makes to a callback that never stops it; `readFile` is what
`os.Open` finds; `mkdirAll` and `rename` change the state. -/
structure OS (σ : Type) where
  stat : σ → Str → Except Errno FileInfo
  walk : σ → Str → List WalkEntry
  readFile : σ → Str → Except Errno FileContent
  mkdirAll : σ → Str → σ × Option Errno
  rename : σ → Str → Str → σ × Option Errno

/-- The function `os.Open`: the handle keeps the name it was given. -/
def osOpen (readFile : Str → Except Errno FileContent) (name : Str) : Except Errno File :=
  match readFile name with
  | .error e => .error e
  | .ok c => .ok ⟨name, c⟩

/-! ## The pipeline -/

/-- The errors `validate` returns: its three messages and the error of
`os.Stat`. -/
inductive MoveError
  | sourceNotGiven
  | destinationNotGiven
  | sourceNotDirectory
  | stat (e : Errno)
deriving DecidableEq

/-- The fields of `ImageMover` that are set from outside; the channels and
counters are the results of the stages below. -/
structure ImageMover where
  sourceDirectory : Str
  destinationDirectory : Str
deriving DecidableEq

/-- The function `NewImageMover`. -/
def NewImageMover (sourceDirectory destinationDirectory : Str) : ImageMover :=
  ⟨sourceDirectory, destinationDirectory⟩

/-- What a stage that sends on a channel has done when it stops: the values
sent, its counter, the error of `log.Fatalln` if it halted the process, and
the count of its summary line if it printed one. -/
structure Stage (α : Type) where
  sent : List α
  count : Nat
  fatal : Option Errno
  summary : Option Nat
deriving DecidableEq

/-- One more value sent before the rest of a stage. -/
def Stage.send {α : Type} (a : α) (r : Stage α) : Stage α :=
  ⟨a :: r.sent, r.count, r.fatal, r.summary⟩

/-- The method `validate`. -/
def ImageMover.validate {σ : Type} (os : OS σ) (s : σ) (m : ImageMover) : Option MoveError :=
  if m.sourceDirectory.length = 0 then some MoveError.sourceNotGiven
  else if m.destinationDirectory.length = 0 then some MoveError.destinationNotGiven
  else
    match os.stat s m.sourceDirectory with
    | .error err => some (MoveError.stat err)
    | .ok stat =>
      if !stat.isDir then some MoveError.sourceNotDirectory
      else
        match os.stat s m.destinationDirectory with
        | .error err => if !IsNotExist err then some (MoveError.stat err) else none
        | .ok _ => none

/-- The callback of `scan` over the calls of `filepath.Walk`, `filesCount`
being the counter so far: an error stops the walk and is fatal, a directory is
passed over, any other path is sent and counted. -/
def scanLoop (filesCount : Nat) : List WalkEntry → Stage Str
  | [] => ⟨[], filesCount, none, some filesCount⟩
  | w :: rest =>
    match w.err with
    | some err => ⟨[], filesCount, some err, none⟩
    | none =>
      if w.isDir then scanLoop filesCount rest
      else (scanLoop (filesCount + 1) rest).send w.path

/-- The method `scan`. -/
def ImageMover.scan {σ : Type} (os : OS σ) (s : σ) (m : ImageMover) : Stage Str :=
  scanLoop 0 (os.walk s m.sourceDirectory)

/-- The loop of `makeImages` over the paths received, `imagesCount` being the
counter so far. -/
def makeImagesLoop (tbl : CaseTable) (readFile : Str → Except Errno FileContent)
    (imagesCount : Nat) : List Str → Stage Image
  | [] => ⟨[], imagesCount, none, some imagesCount⟩
  | path :: rest =>
    match osOpen readFile path with
    | .error err => ⟨[], imagesCount, some err, none⟩
    | .ok f =>
      match f.content.exif with
      | none => makeImagesLoop tbl readFile imagesCount rest
      | some decodeInfo =>
        match decodeInfo.dateTime with
        | none => makeImagesLoop tbl readFile imagesCount rest
        | some dateTime =>
          let ext := Ext (ToLower tbl f.name)
          if ext = ['.', 'j', 'p', 'g'] ∨ ext = ['.', 'j', 'p', 'e', 'g'] then
            (makeImagesLoop tbl readFile (imagesCount + 1) rest).send (NewImage path ext dateTime)
          else makeImagesLoop tbl readFile imagesCount rest

/-- The method `makeImages`, on the paths it receives from `files`. -/
def ImageMover.makeImages (tbl : CaseTable) (readFile : Str → Except Errno FileContent)
    (files : List Str) : Stage Image :=
  makeImagesLoop tbl readFile 0 files

/-- A call of `moveImages` to the operating system. -/
inductive Call
  | mkdirAll (dir : Str)
  | rename (oldpath newpath : Str)
deriving DecidableEq

/-- What `moveImages` has done when it stops: the state it leaves, its calls
in order, its counter, the error of `log.Fatalln` if it halted the process,
and the count of its summary line if it printed one. -/
structure Moved (σ : Type) where
  state : σ
  calls : List Call
  count : Nat
  fatal : Option Errno
  summary : Option Nat

/-- Calls made before the rest of `moveImages`. -/
def Moved.after {σ : Type} (cs : List Call) (r : Moved σ) : Moved σ :=
  ⟨r.state, cs ++ r.calls, r.count, r.fatal, r.summary⟩

/-- The loop of `moveImages` over the images received, `movedCount` being the
counter so far. -/
def moveImagesLoop {σ : Type} (os : OS σ) (destinationDirectory : Str) (movedCount : Nat) :
    σ → List Image → Moved σ
  | s, [] => ⟨s, [], movedCount, none, some movedCount⟩
  | s, image :: rest =>
    let destination := Join [destinationDirectory, image.ToPath]
    let dir := Dir destination
    let made := os.mkdirAll s dir
    match made.2.filter (fun err => !IsExist err) with
    | some err => ⟨made.1, [Call.mkdirAll dir], movedCount, some err, none⟩
    | none =>
      let renamed := os.rename made.1 image.FromPath destination
      match renamed.2 with
      | some err =>
        ⟨renamed.1, [Call.mkdirAll dir, Call.rename image.FromPath destination], movedCount,
          some err, none⟩
      | none =>
        (moveImagesLoop os destinationDirectory (movedCount + 1) renamed.1 rest).after
          [Call.mkdirAll dir, Call.rename image.FromPath destination]

/-- The method `moveImages`, on the images it receives from `images`. -/
def ImageMover.moveImages {σ : Type} (os : OS σ) (s : σ) (m : ImageMover)
    (images : List Image) : Moved σ :=
  moveImagesLoop os m.destinationDirectory 0 s images

/-- How a run of `Move` ends: it returns, with an error or without, or the
process is halted by `log.Fatalln`. -/
inductive Exit
  | returned (err : Option MoveError)
  | halted (err : Errno)
deriving DecidableEq

/-- Whether a run ended without a fatal error. -/
def Exit.completed : Exit → Bool
  | Exit.returned _ => true
  | Exit.halted _ => false

/-- A run of `Move`: how it ended, the state it left, and what each stage
did, `none` for a stage that was never started. -/
structure Run (σ : Type) where
  exit : Exit
  state : σ
  scanned : Option (Stage Str)
  classified : Option (Stage Image)
  moved : Option (Moved σ)

/-- The method `Move`, its three stages run one after the other: the scan to
its end, then `makeImages` on all the paths sent, then `moveImages` on all the
images sent. -/
def ImageMover.Move {σ : Type} (os : OS σ) (tbl : CaseTable) (s : σ) (m : ImageMover) : Run σ :=
  match m.validate os s with
  | some err => ⟨Exit.returned (some err), s, none, none, none⟩
  | none =>
    let sc := m.scan os s
    match sc.fatal with
    | some err => ⟨Exit.halted err, s, some sc, none, none⟩
    | none =>
      let cl := ImageMover.makeImages tbl (os.readFile s) sc.sent
      match cl.fatal with
      | some err => ⟨Exit.halted err, s, some sc, some cl, none⟩
      | none =>
        let mv := m.moveImages os s cl.sent
        match mv.fatal with
        | some err => ⟨Exit.halted err, mv.state, some sc, some cl, some mv⟩
        | none => ⟨Exit.returned none, mv.state, some sc, some cl, some mv⟩

/-! ## Reading a path back, and the paths the specification describes -/

/-- The value of a decimal digit character. -/
def digitValue (c : Char) : Nat := c.toNat - 48

/-- The number a string of decimal digits stands for. -/
def parseDecimal (s : Str) : Nat := s.foldl (fun acc c => acc * 10 + digitValue c) 0

/-- The directory segment of a relative path: what stands before the first
separator. -/
def dirSegment (p : Str) : Str := p.takeWhile (fun c => decide (c ≠ '/'))

/-- The file name of a two-level relative path: what stands after the first
separator. -/
def fileSegment (p : Str) : Str := (p.dropWhile (fun c => decide (c ≠ '/'))).drop 1

/-- The fields of a file name: the pieces between its dots and underscores. -/
def nameFields : Str → List Str
  | [] => [[]]
  | c :: cs =>
    if c = '.' ∨ c = '_' then [] :: nameFields cs
    else (c :: (nameFields cs).headD []) :: (nameFields cs).tail

/-- A number rendered in decimal. -/
def decimal (n : Nat) : Str := Nat.toDigits 10 n

/-- A number rendered in decimal and zero-padded to at least `w` digits. -/
def zeroPadded (w n : Nat) : Str :=
  List.replicate (w - (decimal n).length) '0' ++ decimal n

/-- The year as the format renders it: zero-padded to at least two digits
when it is not negative, and the sign followed by the plain decimal digits
when it is. -/
def renderedYear (y : Int) : Str :=
  if y < 0 then '-' :: decimal y.natAbs else zeroPadded 2 y.toNat

/-- The name `Y.MM.DD_hh.mm.ss` for a given rendering `Y` of the year, the
other five numbers zero-padded to at least two digits. -/
def datedName (Y : Str) (t : Time) : Str :=
  Y ++ ('.' :: (zeroPadded 2 t.month ++ ('.' :: (zeroPadded 2 t.day ++ ('_' ::
    (zeroPadded 2 t.hour ++ ('.' :: (zeroPadded 2 t.min ++ ('.' :: zeroPadded 2 t.sec)))))))))

/-- The relative path `Y/Y.MM.DD_hh.mm.ss` followed by the extension. -/
def datedPath (Y : Str) (t : Time) (e : Str) : Str :=
  Y ++ ('/' :: (datedName Y t ++ e))

/-- What `makeImages` makes of an opened file: the image it sends, or nothing
when it goes on to the next path. -/
def recognize (tbl : CaseTable) (path : Str) (c : FileContent) : Option Image :=
  match c.exif with
  | none => none
  | some decodeInfo =>
    match decodeInfo.dateTime with
    | none => none
    | some dateTime =>
      if Ext (ToLower tbl path) = ['.', 'j', 'p', 'g'] ∨
          Ext (ToLower tbl path) = ['.', 'j', 'p', 'e', 'g'] then
        some (NewImage path (Ext (ToLower tbl path)) dateTime)
      else none

/-- The state one call of `moveImages` leaves. -/
def Call.perform {σ : Type} (os : OS σ) (s : σ) : Call → σ
  | Call.mkdirAll dir => (os.mkdirAll s dir).1
  | Call.rename oldpath newpath => (os.rename s oldpath newpath).1

/-- The calls `moveImages` makes for one image. -/
def callsFor (destinationDirectory : Str) (image : Image) : List Call :=
  [Call.mkdirAll (Dir (Join [destinationDirectory, image.ToPath])),
    Call.rename image.FromPath (Join [destinationDirectory, image.ToPath])]

/-- Whether no call of `moveImages` fails on these images from this state: each
`MkdirAll` gives no error or one that `os.IsExist` accepts, and each `Rename`
gives no error. -/
def noMoveFails {σ : Type} (os : OS σ) (destinationDirectory : Str) : σ → List Image → Bool
  | _, [] => true
  | s, image :: rest =>
    (os.mkdirAll s (Dir (Join [destinationDirectory, image.ToPath]))).2.all IsExist &&
      (os.rename (os.mkdirAll s (Dir (Join [destinationDirectory, image.ToPath]))).1
        image.FromPath (Join [destinationDirectory, image.ToPath])).2.isNone &&
      noMoveFails os destinationDirectory
        (os.rename (os.mkdirAll s (Dir (Join [destinationDirectory, image.ToPath]))).1
          image.FromPath (Join [destinationDirectory, image.ToPath])).1 rest

/-! ## A file system

A tree of directories and files without symbolic links, kept as the list of
its entries by resolved path.  Paths are resolved lexically against the
working directory, which is how the system resolves a path that
`filepath.Clean` has cleaned, as are all the paths `main.go` hands to
`os.Open`, `os.MkdirAll` and `os.Rename`.  A file may be unreadable; no other
permission is modelled, and `os.ModePerm` plays no part. -/

/-- An entry of the tree: a directory, or a file that can be opened or not,
with its content. -/
inductive Node
  | dir
  | file (readable : Bool) (content : FileContent)
deriving DecidableEq

/-- Whether an entry is a directory. -/
def Node.isDir : Node → Bool
  | Node.dir => true
  | Node.file _ _ => false

/-- A file system: the working directory of the process and every entry but
the root directory, each under the names that lead to it from the root, in the
order in which `filepath.Walk` visits them. -/
structure FS where
  cwd : List Str
  entries : List (List Str × Node)
deriving DecidableEq

/-- The names that lead from the root to what a path names. -/
def FS.resolve (fs : FS) (path : Str) : List Str :=
  (cleanElems true ⟨0, if isRooted path then [] else fs.cwd.reverse⟩
    (splitOn '/' path)).out.reverse

/-- Whether an entry is a file. -/
def Node.isFile : Node → Bool
  | Node.dir => false
  | Node.file _ _ => true

/-- Where a cleaned path leads: from the root when it is rooted, and
otherwise from the working directory, one level up for each `..` element as
long as there is one. -/
def FS.place (fs : FS) (rooted : Bool) (s : CleanState) : List Str :=
  if rooted then s.out.reverse else (s.out ++ fs.cwd.reverse.drop s.dotdot).reverse

/-- The entry under the given names, the root being a directory. -/
def FS.node (fs : FS) (k : List Str) : Option Node :=
  if k = [] then some Node.dir
  else (fs.entries.find? (fun e => decide (e.1 = k))).map (fun e => e.2)

/-- Whether `k` lies strictly below `r` in the tree. -/
def below (r k : List Str) : Bool := decide (k.take r.length = r ∧ r.length < k.length)

/-- Whether a file stands where a directory is needed on the way to `k`. -/
def FS.blocked (fs : FS) (k : List Str) : Bool :=
  fs.entries.any (fun e => !e.2.isDir && below e.1 k)

/-- The error for a path that names nothing. -/
def FS.missing (fs : FS) (k : List Str) : Errno :=
  if fs.blocked k then Errno.ENOTDIR else Errno.ENOENT

/-- The functions `os.Stat` and `os.Lstat`. -/
def FS.stat (fs : FS) (path : Str) : Except Errno FileInfo :=
  if path = [] then .error Errno.ENOENT
  else
    match fs.node (fs.resolve path) with
    | some n => .ok ⟨n.isDir⟩
    | none => .error (fs.missing (fs.resolve path))

/-- What `os.Open` finds and `exif.Decode` can read: a directory opens but
cannot be read, so that it decodes to nothing. -/
def FS.readFile (fs : FS) (path : Str) : Except Errno FileContent :=
  if path = [] then .error Errno.ENOENT
  else
    match fs.node (fs.resolve path) with
    | some Node.dir => .ok ⟨none⟩
    | some (Node.file readable content) => if readable then .ok content else .error Errno.EACCES
    | none => .error (fs.missing (fs.resolve path))

/-- The path `filepath.Walk` passes to its callback for the entry that lies
under the names `rel` below the root of the walk. -/
def walkPath (root : Str) (rel : List Str) : Str :=
  rel.foldl (fun p name => Join [p, name]) root

/-- The calls of `filepath.Walk` to a callback that never stops it. -/
def FS.walk (fs : FS) (root : Str) : List WalkEntry :=
  match fs.stat root with
  | .error e => [⟨root, false, some e⟩]
  | .ok info =>
    if !info.isDir then [⟨root, false, none⟩]
    else
      ⟨root, true, none⟩ ::
        (fs.entries.filter (fun e => below (fs.resolve root) e.1)).map
          (fun e => ⟨walkPath root (e.1.drop (fs.resolve root).length), e.2.isDir, none⟩)

/-- An entry put at its place in the order of the walk. -/
def insertEntry (e : List Str × Node) : List (List Str × Node) → List (List Str × Node)
  | [] => [e]
  | x :: xs => if e.1 < x.1 then e :: x :: xs else x :: insertEntry e xs

/-- The entries without the one under `k`. -/
def removeKey (k : List Str) (entries : List (List Str × Node)) : List (List Str × Node) :=
  entries.filter (fun e => decide (e.1 ≠ k))

/-- A directory made under `k` unless something is there. -/
def FS.mkdir (fs : FS) (k : List Str) : FS :=
  match fs.node k with
  | some _ => fs
  | none => ⟨fs.cwd, insertEntry (k, Node.dir) fs.entries⟩

/-- The directories on the way to `k`, the nearest to the root first, `k`
itself last. -/
def ancestors (k : List Str) : List (List Str) := k.inits.tail

/-- The function `os.MkdirAll`: a file on the way is an error and nothing is
made; otherwise every directory that is missing on the way is made. -/
def FS.mkdirAll (fs : FS) (path : Str) : FS × Option Errno :=
  if path = [] then (fs, some Errno.ENOENT)
  else if (ancestors (fs.resolve path)).any (fun k => (fs.node k).any Node.isFile) then
    (fs, some Errno.ENOTDIR)
  else ((ancestors (fs.resolve path)).foldl FS.mkdir fs, none)

/-- A directory and all that lies below it, moved from under `ka` to under
`kb`. -/
def FS.moveTree (fs : FS) (ka kb : List Str) : FS :=
  ⟨fs.cwd,
    (fs.entries.filter (fun e => decide (e.1 = ka) || below ka e.1)).foldl
      (fun acc e => insertEntry (kb ++ e.1.drop ka.length, e.2) acc)
      (fs.entries.filter (fun e => !(decide (e.1 = ka) || below ka e.1)))⟩

/-- The function `os.Rename`: the old path must name something and the new
one must lie in a directory; a file takes the place of the file the new path
names, if there is one, and a directory is no place for it; renaming to the
same entry changes nothing; a directory moves with all that lies below it, to
a path that names nothing and does not lie below it. -/
def FS.rename (fs : FS) (oldpath newpath : Str) : FS × Option Errno :=
  if oldpath = [] ∨ newpath = [] then (fs, some Errno.ENOENT)
  else
    match fs.node (fs.resolve oldpath) with
    | none => (fs, some (fs.missing (fs.resolve oldpath)))
    | some n =>
      match fs.node (fs.resolve newpath).dropLast with
      | none => (fs, some (fs.missing (fs.resolve newpath).dropLast))
      | some (Node.file _ _) => (fs, some Errno.ENOTDIR)
      | some Node.dir =>
        match n, fs.node (fs.resolve newpath) with
        | Node.file _ _, some Node.dir => (fs, some Errno.EEXIST)
        | Node.file _ _, _ =>
          if fs.resolve oldpath = fs.resolve newpath then (fs, none)
          else
            (⟨fs.cwd, insertEntry (fs.resolve newpath, n)
              (removeKey (fs.resolve newpath) (removeKey (fs.resolve oldpath) fs.entries))⟩,
              none)
        | Node.dir, some Node.dir =>
          if oldpath ≠ newpath ∧ fs.resolve oldpath = fs.resolve newpath then (fs, none)
          else (fs, some Errno.EEXIST)
        | Node.dir, some (Node.file _ _) => (fs, some Errno.ENOTDIR)
        | Node.dir, none =>
          if below (fs.resolve oldpath) (fs.resolve newpath) then (fs, some Errno.EINVAL)
          else (fs.moveTree (fs.resolve oldpath) (fs.resolve newpath), none)

/-- The operating system over a file system. -/
def unix : OS FS where
  stat := FS.stat
  walk := FS.walk
  readFile := FS.readFile
  mkdirAll := FS.mkdirAll
  rename := FS.rename

/-- A file system as the operating system keeps it: the names in it are plain
names, no two entries have the same path, every entry lies in a directory,
and the entries stand in the order of the walk. -/
def FS.WellFormed (fs : FS) : Prop :=
  (∀ name ∈ fs.cwd, PlainName name) ∧
    (∀ e ∈ fs.entries, e.1 ≠ [] ∧ ∀ name ∈ e.1, PlainName name) ∧
    (fs.entries.map Prod.fst).Nodup ∧
    (∀ e ∈ fs.entries, fs.node e.1.dropLast = some Node.dir) ∧
    (fs.entries.map Prod.fst).Pairwise (fun a b => a < b)

instance (fs : FS) : Decidable fs.WellFormed := by
  unfold FS.WellFormed
  exact inferInstance

/-- Neither of two directories lies in the other or is the other. -/
def FS.Apart (fs : FS) (a b : Str) : Prop :=
  ¬ (fs.resolve b).take (fs.resolve a).length = fs.resolve a ∧
    ¬ (fs.resolve a).take (fs.resolve b).length = fs.resolve b

instance (fs : FS) (a b : Str) : Decidable (fs.Apart a b) := by
  unfold FS.Apart
  exact inferInstance

/-- What a later state `cur` has kept of a file system `fs` while files were
moved out of the directory `r`: the working directory, every directory, and
below `r` the entries of `fs` but those under the paths in `gone`. -/
def FS.Kept (r : List Str) (gone : List (List Str)) (fs cur : FS) : Prop :=
  cur.cwd = fs.cwd ∧
    cur.entries.filter (fun e => below r e.1) =
      (fs.entries.filter (fun e => below r e.1)).filter (fun e => decide (e.1 ∉ gone)) ∧
    ∀ k, fs.node k = some Node.dir → cur.node k = some Node.dir

/-- An image that `moveImages` can take from its place: it was made by
`NewImage` with an extension that holds no separator, for a path that leads
to a file below `r`. -/
def FS.Movable (fs : FS) (r : List Str) (im : Image) : Prop :=
  ∃ e t rdb c, im = NewImage im.FromPath e t ∧ '/' ∉ e ∧
    below r (fs.resolve im.FromPath) = true ∧
    fs.node (fs.resolve im.FromPath) = some (Node.file rdb c)

/-! ## Sample values -/

/-- The capture time 2023-03-05 14:07:09. -/
def capture2023 : Time :=
  ⟨2023, 3, 5, 14, 7, 9, 0, by decide, by decide, by decide, by decide, by decide⟩

/-- The capture time 0005-03-05 14:07:09, as read from the tag
`0005:03:05 14:07:09`. -/
def captureYear5 : Time :=
  ⟨5, 3, 5, 14, 7, 9, 0, by decide, by decide, by decide, by decide, by decide⟩

/-- The capture time 2023-03-05 14:07:09 and half a second. -/
def capture2023Late : Time :=
  ⟨2023, 3, 5, 14, 7, 9, 500000000, by decide, by decide, by decide, by decide, by decide⟩

/-- A case table that lowers the ASCII letters and leaves the rest. -/
def asciiTable : CaseTable where
  lower := Char.toLower
  ascii := fun _ _ => rfl
  other := by
    intro c h
    have e : c.toLower = c := by
      unfold Char.toLower
      simp only
      rw [if_neg]
      omega
    rw [e]
    constructor <;> (intro hc; rw [hc] at h; exact absurd h (by decide))

/-- A source directory as `os.Open` finds it: a photo with a capture time, a
text file, a picture in another format with a capture time, a photo without a
capture time, and a photo that cannot be opened. -/
def sampleRead (path : Str) : Except Errno FileContent :=
  if path = "in/photo.JPG".toList then .ok ⟨some ⟨some capture2023⟩⟩
  else if path = "in/note.txt".toList then .ok ⟨none⟩
  else if path = "in/scan.png".toList then .ok ⟨some ⟨some capture2023⟩⟩
  else if path = "in/blank.jpg".toList then .ok ⟨some ⟨none⟩⟩
  else if path = "in/locked.jpg".toList then .error Errno.EACCES
  else if path = "in/z.jpeg".toList then .ok ⟨some ⟨some captureYear5⟩⟩
  else .error Errno.ENOENT

/-- An operating system that only keeps the calls made to it: the directory
`in` holds a photo, a text file and a photo that cannot be opened, `out` does
not exist yet, and `MkdirAll` answers that the directory `out/0005` exists
already. -/
def sampleOS : OS (List Call) where
  stat := fun _ path =>
    if path = "in".toList then .ok ⟨true⟩
    else if path = "in/photo.JPG".toList then .ok ⟨false⟩
    else if path = "sealed".toList then .error Errno.EACCES
    else .error Errno.ENOENT
  walk := fun _ root =>
    if root = "in".toList then
      [⟨"in".toList, true, none⟩, ⟨"in/note.txt".toList, false, none⟩,
        ⟨"in/photo.JPG".toList, false, none⟩, ⟨"in/z.jpeg".toList, false, none⟩]
    else [⟨root, false, some Errno.ENOENT⟩]
  readFile := fun _ path => sampleRead path
  mkdirAll := fun s dir =>
    (s ++ [Call.mkdirAll dir], if dir = "out/05".toList then some Errno.EEXIST else none)
  rename := fun s oldpath newpath => (s ++ [Call.rename oldpath newpath], none)

/-- A home directory with a folder `in` that holds `photo.JPG`, taken
2023-03-05 14:07:09. -/
def photoFS : FS :=
  ⟨["home".toList],
    [(["home".toList], Node.dir),
      (["home".toList, "in".toList], Node.dir),
      (["home".toList, "in".toList, "photo.JPG".toList],
        Node.file true ⟨some ⟨some capture2023⟩⟩)]⟩

/-- A home directory with a folder `in` that holds a text file and a photo. -/
def mixedFS : FS :=
  ⟨["home".toList],
    [(["home".toList], Node.dir),
      (["home".toList, "in".toList], Node.dir),
      (["home".toList, "in".toList, "note.txt".toList], Node.file true ⟨none⟩),
      (["home".toList, "in".toList, "photo.JPG".toList],
        Node.file true ⟨some ⟨some capture2023⟩⟩)]⟩

/-- A folder `all` that is source and destination at once: it holds a photo
`1.jpg` taken 2023-03-05 14:07:09 and, at the place where that photo belongs,
a photo taken 0005-03-05 14:07:09. -/
def nestedFS : FS :=
  ⟨["home".toList],
    [(["home".toList], Node.dir),
      (["home".toList, "all".toList], Node.dir),
      (["home".toList, "all".toList, "1.jpg".toList],
        Node.file true ⟨some ⟨some capture2023⟩⟩),
      (["home".toList, "all".toList, "2023".toList], Node.dir),
      (["home".toList, "all".toList, "2023".toList, "2023.03.05_14.07.09.jpg".toList],
        Node.file true ⟨some ⟨some captureYear5⟩⟩)]⟩

/-- A folder `all` that is source and destination at once and holds one photo,
taken 2023-03-05 14:07:09, at the place where it belongs. -/
def placedFS : FS :=
  ⟨["home".toList],
    [(["home".toList], Node.dir),
      (["home".toList, "all".toList], Node.dir),
      (["home".toList, "all".toList, "2023".toList], Node.dir),
      (["home".toList, "all".toList, "2023".toList, "2023.03.05_14.07.09.jpg".toList],
        Node.file true ⟨some ⟨some capture2023⟩⟩)]⟩

/-! # Theorems -/

theorem digitByte_eq_digitChar (d : Nat) (h : d < 10) : digitByte d = Nat.digitChar d := by
  interval_cases d <;> rfl

theorem digitByte_toNat (d : Nat) (h : d < 10) : (digitByte d).toNat = 48 + d := by
  interval_cases d <;> rfl

theorem digitByte_isDigit (d : Nat) (h : d < 10) : (digitByte d).isDigit = true := by
  interval_cases d <;> rfl

theorem digitByte_inj (a b : Nat) (ha : a < 10) (hb : b < 10)
    (h : digitByte a = digitByte b) : a = b := by
  have h1 := digitByte_toNat a ha
  have h2 := digitByte_toNat b hb
  rw [h] at h1
  omega

theorem fmtDigitsLoop_eq (u : Nat) :
    ∀ fuel buf, u ≤ fuel → fmtDigitsLoop fuel u buf = fmtDigits u ++ buf := by
  induction u using Nat.strong_induction_on with
  | _ u ih =>
    intro fuel buf hle
    cases fuel with
    | zero =>
      have hu : u = 0 := by omega
      subst hu
      rfl
    | succ fuel =>
      by_cases h10 : 10 ≤ u
      · obtain ⟨v, rfl⟩ : ∃ v, u = v + 1 := ⟨u - 1, by omega⟩
        have hlt : (v + 1) / 10 < v + 1 := Nat.div_lt_self (by omega) (by omega)
        simp only [fmtDigits, fmtDigitsLoop, h10, if_true]
        have e1 := ih ((v + 1) / 10) hlt fuel
          (digitByte (v + 1 - (v + 1) / 10 * 10) :: buf) (by omega)
        have e2 := ih ((v + 1) / 10) hlt v [digitByte (v + 1 - (v + 1) / 10 * 10)] (by omega)
        rw [e1, e2]
        simp
      · have hu : u < 10 := by omega
        have e1 : fmtDigitsLoop (fuel + 1) u buf = digitByte u :: buf := by
          simp [fmtDigitsLoop, h10]
        have e2 : fmtDigits u = [digitByte u] := by
          unfold fmtDigits
          cases u with
          | zero => rfl
          | succ v => simp [fmtDigitsLoop, h10]
        rw [e1, e2]
        rfl

theorem fmtDigits_of_lt (u : Nat) (h : u < 10) : fmtDigits u = [digitByte u] := by
  unfold fmtDigits
  cases u with
  | zero => rfl
  | succ v => simp [fmtDigitsLoop]; omega

theorem fmtDigits_of_ge (u : Nat) (h : 10 ≤ u) :
    fmtDigits u = fmtDigits (u / 10) ++ [digitByte (u % 10)] := by
  obtain ⟨v, rfl⟩ : ∃ v, u = v + 1 := ⟨u - 1, by omega⟩
  have hlt : (v + 1) / 10 < v + 1 := Nat.div_lt_self (by omega) (by omega)
  have hmod : v + 1 - (v + 1) / 10 * 10 = (v + 1) % 10 := by omega
  show fmtDigitsLoop (v + 1) (v + 1) [] = _
  simp only [fmtDigitsLoop, h, if_true]
  rw [fmtDigitsLoop_eq _ _ _ (by omega), hmod]

/-- The digit loop of `fmtInteger` writes the decimal digits of Lean's own
`Nat.toDigits`. -/
theorem fmtDigits_eq_toDigits (u : Nat) : fmtDigits u = Nat.toDigits 10 u := by
  have key : ∀ fuel n ds, n < fuel → Nat.toDigitsCore 10 fuel n ds = fmtDigits n ++ ds := by
    intro fuel
    induction fuel with
    | zero => intro n ds h; omega
    | succ fuel ih =>
      intro n ds h
      by_cases h10 : 10 ≤ n
      · have hne : n / 10 ≠ 0 := by omega
        simp only [Nat.toDigitsCore, hne, if_false]
        rw [ih _ _ (by omega), fmtDigits_of_ge n h10, digitByte_eq_digitChar _ (Nat.mod_lt _ (by omega))]
        simp
      · have hz : n / 10 = 0 := by omega
        simp only [Nat.toDigitsCore, hz, if_true]
        rw [fmtDigits_of_lt n (by omega), Nat.mod_eq_of_lt (by omega),
          digitByte_eq_digitChar _ (by omega)]
        rfl
  unfold Nat.toDigits
  rw [key _ _ _ (Nat.lt_succ_self u)]
  simp

theorem fmtDigits_chars (u : Nat) : ∀ c ∈ fmtDigits u, ∃ d, d < 10 ∧ c = digitByte d := by
  induction u using Nat.strong_induction_on with
  | _ u ih =>
    intro c hc
    by_cases h10 : 10 ≤ u
    · rw [fmtDigits_of_ge u h10] at hc
      rcases List.mem_append.1 hc with h | h
      · exact ih (u / 10) (Nat.div_lt_self (by omega) (by omega)) c h
      · exact ⟨u % 10, Nat.mod_lt _ (by omega), by simpa using h⟩
    · rw [fmtDigits_of_lt u (by omega)] at hc
      exact ⟨u, by omega, by simpa using hc⟩

theorem fmtDigits_length_pos (u : Nat) : 1 ≤ (fmtDigits u).length := by
  by_cases h10 : 10 ≤ u
  · rw [fmtDigits_of_ge u h10]; simp
  · rw [fmtDigits_of_lt u (by omega)]; simp

theorem fmtDigits_length_ge_two (u : Nat) (h : 10 ≤ u) : 2 ≤ (fmtDigits u).length := by
  rw [fmtDigits_of_ge u h]
  have := fmtDigits_length_pos (u / 10)
  simp
  omega

theorem digitValue_digitByte (d : Nat) (h : d < 10) : digitValue (digitByte d) = d := by
  unfold digitValue
  rw [digitByte_toNat d h]
  omega

theorem parseDecimal_append_singleton (s : Str) (c : Char) :
    parseDecimal (s ++ [c]) = parseDecimal s * 10 + digitValue c := by
  simp [parseDecimal, List.foldl_append]

theorem parseDecimal_fmtDigits (u : Nat) : parseDecimal (fmtDigits u) = u := by
  induction u using Nat.strong_induction_on with
  | _ u ih =>
    by_cases h10 : 10 ≤ u
    · rw [fmtDigits_of_ge u h10, parseDecimal_append_singleton,
        ih (u / 10) (Nat.div_lt_self (by omega) (by omega)),
        digitValue_digitByte _ (Nat.mod_lt _ (by omega))]
      omega
    · rw [fmtDigits_of_lt u (by omega)]
      simp [parseDecimal, digitValue_digitByte u (by omega)]

theorem parseDecimal_zeros (k : Nat) (s : Str) :
    parseDecimal (List.replicate k '0' ++ s) = parseDecimal s := by
  induction k with
  | zero => rfl
  | succ k ih =>
    have h0 : digitValue '0' = 0 := rfl
    simp only [parseDecimal, List.replicate_succ, List.cons_append, List.foldl_cons, h0] at ih ⊢
    exact ih

theorem Sprintf02d_ofNat (n : Nat) :
    Sprintf02d (n : Int) = List.replicate (2 - (fmtDigits n).length) '0' ++ fmtDigits n := by
  have hneg : ¬ ((n : Int) < 0) := by omega
  simp only [Sprintf02d, fmtInteger, hneg, decide_False, Int.natAbs_ofNat]
  have hlen : 2 - (List.replicate (2 - (fmtDigits n).length) '0' ++ fmtDigits n).length = 0 := by
    simp; omega
  simp only [Bool.false_eq_true, if_false, hlen, List.replicate_zero, List.nil_append]

theorem Sprintf02d_neg (v : Int) (h : v < 0) : Sprintf02d v = '-' :: fmtDigits v.natAbs := by
  have hp := fmtDigits_length_pos v.natAbs
  have h1 : 2 - 1 - (fmtDigits v.natAbs).length = 0 := by omega
  simp [Sprintf02d, fmtInteger, h, h1]

theorem Sprintf02d_eq_zeroPadded (n : Nat) : Sprintf02d (n : Int) = zeroPadded 2 n := by
  rw [Sprintf02d_ofNat, zeroPadded, decimal, fmtDigits_eq_toDigits]

theorem Sprintf02d_eq_renderedYear (y : Int) : Sprintf02d y = renderedYear y := by
  unfold renderedYear
  by_cases h : y < 0
  · rw [if_pos h, Sprintf02d_neg y h, decimal, fmtDigits_eq_toDigits]
  · rw [if_neg h, ← Sprintf02d_eq_zeroPadded]
    congr 1
    omega

theorem Sprintf02d_two (n : Nat) (h : n < 100) :
    Sprintf02d (n : Int) = [digitByte (n / 10), digitByte (n % 10)] := by
  rw [Sprintf02d_ofNat]
  by_cases h10 : 10 ≤ n
  · rw [fmtDigits_of_ge n h10, fmtDigits_of_lt (n / 10) (by omega)]
    rfl
  · rw [fmtDigits_of_lt n (by omega)]
    have e1 : n / 10 = 0 := by omega
    have e2 : n % 10 = n := by omega
    rw [e1, e2]
    rfl

theorem Sprintf02d_chars (v : Int) : ∀ c ∈ Sprintf02d v, c.isDigit = true ∨ c = '-' := by
  intro c hc
  by_cases h : v < 0
  · rw [Sprintf02d_neg v h] at hc
    rcases List.mem_cons.1 hc with h1 | h1
    · exact Or.inr h1
    · obtain ⟨d, hd, rfl⟩ := fmtDigits_chars _ c h1
      exact Or.inl (digitByte_isDigit d hd)
  · obtain ⟨n, rfl⟩ : ∃ n : Nat, v = n := ⟨v.toNat, by omega⟩
    rw [Sprintf02d_ofNat] at hc
    rcases List.mem_append.1 hc with h1 | h1
    · rw [List.mem_replicate] at h1
      exact Or.inl (by rw [h1.2]; rfl)
    · obtain ⟨d, hd, rfl⟩ := fmtDigits_chars _ c h1
      exact Or.inl (digitByte_isDigit d hd)

theorem Sprintf02d_length (v : Int) : 2 ≤ (Sprintf02d v).length := by
  by_cases h : v < 0
  · rw [Sprintf02d_neg v h]
    have := fmtDigits_length_pos v.natAbs
    simp
    omega
  · obtain ⟨n, rfl⟩ : ∃ n : Nat, v = n := ⟨v.toNat, by omega⟩
    rw [Sprintf02d_ofNat]
    simp
    omega

theorem Sprintf02d_injective (v w : Int) (h : Sprintf02d v = Sprintf02d w) : v = w := by
  have digitHead : ∀ n : Nat, ∀ s : Str, Sprintf02d (n : Int) ≠ '-' :: s := by
    intro n s hs
    have hm : '-' ∈ Sprintf02d (n : Int) := by rw [hs]; simp
    rw [Sprintf02d_ofNat] at hm
    rcases List.mem_append.1 hm with h1 | h1
    · rw [List.mem_replicate] at h1
      exact absurd h1.2 (by decide)
    · obtain ⟨d, hd, he⟩ := fmtDigits_chars _ _ h1
      have := digitByte_isDigit d hd
      rw [← he] at this
      exact absurd this (by decide)
  by_cases hv : v < 0 <;> by_cases hw : w < 0
  · rw [Sprintf02d_neg v hv, Sprintf02d_neg w hw] at h
    have h2 := congrArg parseDecimal (List.cons.inj h).2
    rw [parseDecimal_fmtDigits, parseDecimal_fmtDigits] at h2
    omega
  · obtain ⟨n, rfl⟩ : ∃ n : Nat, w = n := ⟨w.toNat, by omega⟩
    rw [Sprintf02d_neg v hv] at h
    exact absurd h.symm (digitHead n _)
  · obtain ⟨n, rfl⟩ : ∃ n : Nat, v = n := ⟨v.toNat, by omega⟩
    rw [Sprintf02d_neg w hw] at h
    exact absurd h (digitHead n _)
  · obtain ⟨n, rfl⟩ : ∃ n : Nat, v = n := ⟨v.toNat, by omega⟩
    obtain ⟨m, rfl⟩ : ∃ m : Nat, w = m := ⟨w.toNat, by omega⟩
    have h2 := congrArg parseDecimal h
    rw [Sprintf02d_ofNat, Sprintf02d_ofNat, parseDecimal_zeros, parseDecimal_zeros,
      parseDecimal_fmtDigits, parseDecimal_fmtDigits] at h2
    omega

/-! ## Paths -/

theorem splitOn_ne_nil (sep : Char) (a : Str) : splitOn sep a ≠ [] := by
  cases a with
  | nil => simp [splitOn]
  | cons c cs =>
    unfold splitOn
    split <;> simp

theorem splitOn_of_not_mem (sep : Char) (a : Str) (h : sep ∉ a) : splitOn sep a = [a] := by
  induction a with
  | nil => rfl
  | cons c cs ih =>
    have hc : c ≠ sep := fun e => h (by simp [e])
    have hcs : sep ∉ cs := fun e => h (by simp [e])
    simp [splitOn, hc, ih hcs]

theorem splitOn_append (sep : Char) (a b : Str) :
    splitOn sep (a ++ sep :: b) = splitOn sep a ++ splitOn sep b := by
  induction a with
  | nil => simp [splitOn]
  | cons c cs ih =>
    by_cases hc : c = sep
    · simp [splitOn, hc, ih]
    · obtain ⟨h, t, ht⟩ := List.exists_cons_of_ne_nil (splitOn_ne_nil sep cs)
      simp [splitOn, hc, ih, ht]

theorem cleanStep_plain (rooted : Bool) (s : CleanState) (e : Str) (h : PlainName e) :
    cleanStep rooted s e = ⟨s.dotdot, e :: s.out⟩ := by
  obtain ⟨h1, _, h3, h4⟩ := h
  simp [cleanStep, h1, h3, h4]

theorem cleanElems_append (rooted : Bool) (s : CleanState) (xs ys : List Str) :
    cleanElems rooted s (xs ++ ys) = cleanElems rooted (cleanElems rooted s xs) ys := by
  simp [cleanElems, List.foldl_append]

theorem cleanElems_plain (rooted : Bool) (s : CleanState) (xs : List Str)
    (h : ∀ e ∈ xs, PlainName e) :
    cleanElems rooted s xs = ⟨s.dotdot, xs.reverse ++ s.out⟩ := by
  induction xs generalizing s with
  | nil => rfl
  | cons x xs ih =>
    have hx := h x (by simp)
    have hxs : ∀ e ∈ xs, PlainName e := fun e he => h e (by simp [he])
    show cleanElems rooted (cleanStep rooted s x) xs = _
    rw [cleanStep_plain rooted s x hx, ih _ hxs]
    simp

theorem PlainName.head_ne_slash {e : Str} (h : PlainName e) (r : Str) :
    (e ++ r).head? ≠ some '/' := by
  obtain ⟨h1, h2, _, _⟩ := h
  cases e with
  | nil => exact absurd rfl h1
  | cons c cs =>
    intro hc
    simp at hc
    exact h2 (by simp [hc])

theorem Join_plain_pair (a b : Str) (ha : PlainName a) (hb : PlainName b) :
    Join [a, b] = a ++ '/' :: b := by
  have hne : a ≠ [] := ha.1
  have hj : joinSlash [a, b] = a ++ '/' :: b := rfl
  have hsplit : splitOn '/' (a ++ '/' :: b) = [a, b] := by
    rw [splitOn_append, splitOn_of_not_mem _ a ha.2.1, splitOn_of_not_mem _ b hb.2.1]
    rfl
  have hroot : isRooted (a ++ '/' :: b) = false := by
    simpa [isRooted] using ha.head_ne_slash ('/' :: b)
  have hclean : cleanElems false ⟨0, []⟩ [a, b] = ⟨0, [b, a]⟩ := by
    rw [cleanElems_plain false _ [a, b] (by
      intro e he
      rcases List.mem_cons.1 he with h | h
      · exact h ▸ ha
      · rw [List.mem_singleton] at h; exact h ▸ hb)]
    rfl
  have hnil : a ++ '/' :: b ≠ [] := by simp
  simp only [Join, List.dropWhile, hne, decide_False, hj, Clean, hnil, if_false, pathState,
    hroot, hsplit, hclean, CleanState.render, CleanState.elems]
  simp [joinSlash]

theorem Sprintf02d_plain (v : Int) : PlainName (Sprintf02d v) := by
  have hlen := Sprintf02d_length v
  have hch := Sprintf02d_chars v
  refine ⟨?_, ?_, ?_, ?_⟩
  · intro h; rw [h] at hlen; simp at hlen
  · intro h; rcases hch _ h with h1 | h1 <;> exact absurd h1 (by decide)
  · intro h; rw [h] at hlen; simp at hlen
  · intro h
    have : '.' ∈ Sprintf02d v := by rw [h]; simp
    rcases hch _ this with h1 | h1 <;> exact absurd h1 (by decide)

theorem SprintfStamp_tail_no_slash (m d h mi sc : Int) :
    '/' ∉ Sprintf02d m ++ ('.' :: (Sprintf02d d ++ ('_' ::
      (Sprintf02d h ++ ('.' :: (Sprintf02d mi ++ ('.' :: Sprintf02d sc))))))) := by
  have hm := (Sprintf02d_plain m).2.1
  have hd := (Sprintf02d_plain d).2.1
  have hh := (Sprintf02d_plain h).2.1
  have hmi := (Sprintf02d_plain mi).2.1
  have hs := (Sprintf02d_plain sc).2.1
  simp only [List.mem_append, List.mem_cons, not_or]
  exact ⟨hm, by decide, hd, by decide, hh, by decide, hmi, by decide, hs⟩

/-- The file name `NewImage` formats before it joins it to the directory. -/
theorem fileName_plain (y m d h mi sc : Int) (e : Str) (he : '/' ∉ e) :
    PlainName (SprintfStamp y m d h mi sc ++ e) := by
  have hp := Sprintf02d_plain y
  have hch := Sprintf02d_chars y
  have ht := SprintfStamp_tail_no_slash m d h mi sc
  obtain ⟨c, cs, hcs⟩ := List.exists_cons_of_ne_nil hp.1
  have hc : c ≠ '.' := by
    intro e
    have : c ∈ Sprintf02d y := by rw [hcs]; simp
    rcases hch _ this with h1 | h1
    · rw [e] at h1; exact absurd h1 (by decide)
    · rw [e] at h1; exact absurd h1 (by decide)
  unfold SprintfStamp
  refine ⟨by simp, ?_, ?_, ?_⟩
  · intro hm
    rcases List.mem_append.1 hm with h1 | h1
    · rcases List.mem_append.1 h1 with h2 | h2
      · exact hp.2.1 h2
      · rcases List.mem_cons.1 h2 with h3 | h3
        · exact absurd h3 (by decide)
        · exact ht h3
    · exact he h1
  · rw [hcs]; intro e; simp at e
  · rw [hcs]; intro e
    simp at e
    exact hc e.1

theorem NewImage_ToPath (p e : Str) (t : Time) (h : '/' ∉ e) :
    (NewImage p e t).ToPath =
      Sprintf02d t.year ++ ('/' ::
        (SprintfStamp t.year t.month t.day t.hour t.min t.sec ++ e)) := by
  simp only [NewImage, Time.Date, Time.Clock]
  exact Join_plain_pair _ _ (Sprintf02d_plain _) (fileName_plain _ _ _ _ _ _ _ h)

/-! ## The destination path of an image -/

theorem takeWhile_ne_slash (a rest : Str) (h : '/' ∉ a) :
    (a ++ '/' :: rest).takeWhile (fun c => decide (c ≠ '/')) = a := by
  induction a with
  | nil => simp
  | cons c cs ih =>
    have hc : c ≠ '/' := fun e => h (by simp [e])
    have hcs : '/' ∉ cs := fun e => h (by simp [e])
    simpa [List.takeWhile, hc] using ih hcs

theorem dropWhile_ne_slash (a rest : Str) (h : '/' ∉ a) :
    (a ++ '/' :: rest).dropWhile (fun c => decide (c ≠ '/')) = '/' :: rest := by
  induction a with
  | nil => simp
  | cons c cs ih =>
    have hc : c ≠ '/' := fun e => h (by simp [e])
    have hcs : '/' ∉ cs := fun e => h (by simp [e])
    simpa [List.dropWhile, hc] using ih hcs

theorem nameFields_ne_nil (a : Str) : nameFields a ≠ [] := by
  cases a with
  | nil => simp [nameFields]
  | cons c cs =>
    unfold nameFields
    split <;> simp

theorem nameFields_field (a rest : Str) (sep : Char) (hsep : sep = '.' ∨ sep = '_')
    (h : ∀ c ∈ a, c ≠ '.' ∧ c ≠ '_') :
    nameFields (a ++ sep :: rest) = a :: nameFields rest := by
  induction a with
  | nil => simp [nameFields, hsep]
  | cons c cs ih =>
    have hc := h c (by simp)
    have hcs : ∀ c ∈ cs, c ≠ '.' ∧ c ≠ '_' := fun d hd => h d (by simp [hd])
    simp [nameFields, hc.1, hc.2, ih hcs]

theorem nameFields_last (a : Str) (h : ∀ c ∈ a, c ≠ '.' ∧ c ≠ '_') : nameFields a = [a] := by
  induction a with
  | nil => rfl
  | cons c cs ih =>
    have hc := h c (by simp)
    have hcs : ∀ c ∈ cs, c ≠ '.' ∧ c ≠ '_' := fun d hd => h d (by simp [hd])
    simp [nameFields, hc.1, hc.2, ih hcs]

theorem Sprintf02d_no_separator (v : Int) : ∀ c ∈ Sprintf02d v, c ≠ '.' ∧ c ≠ '_' := by
  intro c hc
  rcases Sprintf02d_chars v c hc with h | h
  · constructor <;> (intro e; rw [e] at h; exact absurd h (by decide))
  · constructor <;> (intro e; rw [e] at h; exact absurd h (by decide))

theorem fmtDigits_length_le (k : Nat) : ∀ n, (fmtDigits n).length ≤ k + 1 ↔ n < 10 ^ (k + 1) := by
  induction k with
  | zero =>
    intro n
    by_cases h10 : 10 ≤ n
    · have := fmtDigits_length_ge_two n h10
      constructor <;> intro h <;> omega
    · rw [fmtDigits_of_lt n (by omega)]
      simp
      omega
  | succ k ih =>
    intro n
    by_cases h10 : 10 ≤ n
    · rw [fmtDigits_of_ge n h10]
      simp only [List.length_append, List.length_singleton, Nat.add_le_add_iff_right]
      rw [ih (n / 10), Nat.div_lt_iff_lt_mul (by omega), ← Nat.pow_succ]
    · rw [fmtDigits_of_lt n (by omega)]
      have : 10 ≤ 10 ^ (k + 1 + 1) := by
        calc 10 = 10 ^ 1 := by norm_num
          _ ≤ 10 ^ (k + 1 + 1) := Nat.pow_le_pow_right (by omega) (by omega)
      simp
      omega

theorem Sprintf02d_four_digits (y : Int) :
    ((Sprintf02d y).length = 4 ∧ ∀ c ∈ Sprintf02d y, c.isDigit = true) ↔
      1000 ≤ y ∧ y ≤ 9999 := by
  by_cases hneg : y < 0
  · rw [Sprintf02d_neg y hneg]
    constructor
    · intro h
      have := h.2 '-' (by simp)
      exact absurd this (by decide)
    · intro h; omega
  · obtain ⟨n, rfl⟩ : ∃ n : Nat, y = n := ⟨y.toNat, by omega⟩
    have h3 := fmtDigits_length_le 2 n
    have h4 := fmtDigits_length_le 3 n
    have hpos := fmtDigits_length_pos n
    have hch : ∀ c ∈ Sprintf02d (n : Int), c.isDigit = true := by
      intro c hc
      rcases Sprintf02d_chars _ c hc with h | h
      · exact h
      · exfalso
        rw [Sprintf02d_ofNat] at hc
        rcases List.mem_append.1 hc with h1 | h1
        · rw [List.mem_replicate] at h1
          rw [h] at h1
          exact absurd h1.2 (by decide)
        · obtain ⟨d, hd, he⟩ := fmtDigits_chars _ _ h1
          have := digitByte_isDigit d hd
          rw [← he, h] at this
          exact absurd this (by decide)
    have hlen : (Sprintf02d (n : Int)).length = 4 ↔ (fmtDigits n).length = 4 := by
      rw [Sprintf02d_ofNat]
      simp only [List.length_append, List.length_replicate]
      omega
    norm_num at h3 h4
    constructor
    · intro h
      have := hlen.1 h.1
      omega
    · intro h
      refine ⟨hlen.2 ?_, hch⟩
      omega

theorem NewImage_ToPath_datedPath (p e : Str) (t : Time) (h : '/' ∉ e) :
    (NewImage p e t).ToPath = datedPath (renderedYear t.year) t e := by
  rw [NewImage_ToPath p e t h]
  unfold datedPath datedName SprintfStamp
  simp only [Sprintf02d_eq_renderedYear t.year, Sprintf02d_eq_zeroPadded]

theorem extLoop_no_slash (l suffix : List Char) (h : '/' ∉ suffix) :
    '/' ∉ extLoop l suffix := by
  induction l generalizing suffix with
  | nil => simp [extLoop]
  | cons c before ih =>
    unfold extLoop
    by_cases h1 : c = '/'
    · simp [h1]
    · by_cases h2 : c = '.'
      · rw [if_neg h1, if_pos h2]
        intro hm
        rcases List.mem_cons.1 hm with h3 | h3
        · exact absurd h3 (by decide)
        · exact h h3
      · rw [if_neg h1, if_neg h2]
        apply ih
        intro hm
        rcases List.mem_cons.1 hm with h3 | h3
        · exact h1 h3.symm
        · exact h h3

/-- No extension that `filepath.Ext` returns holds a path separator. -/
theorem Ext_no_slash (path : Str) : '/' ∉ Ext path :=
  extLoop_no_slash path.reverse [] (by simp)

theorem renderedYear_of_nonneg (y : Int) (h : 0 ≤ y) :
    renderedYear y = zeroPadded 2 y.toNat := by
  unfold renderedYear
  rw [if_neg (by omega)]

/-- C1: for every source path `p`, every extension `e` of a file name, which
holds no path separator, and every capture timestamp `t`, whose year is not
negative, `NewImage(p, e, t).ToPath` is the string `Y/Y.MM.DD_hh.mm.ss` followed
by `e`, the year, month, day, hour, minute and second in decimal zero-padded to
at least two digits; so it is the same for every other source path `q`. -/
theorem NewImage_ToPath_dated (p q e : Str) (t : Time) (he : '/' ∉ e) (hy : 0 ≤ t.year) :
    (NewImage p e t).ToPath = datedPath (zeroPadded 2 t.year.toNat) t e ∧
      (NewImage p e t).ToPath = (NewImage q e t).ToPath := by
  refine ⟨?_, rfl⟩
  rw [NewImage_ToPath_datedPath p e t he, renderedYear_of_nonneg t.year hy]

/-- C1 at `photo.JPG` taken 2023-03-05 14:07:09, with the extension of the
lowered name. -/
theorem NewImage_ToPath_dated_witness :
    Ext (ToLower asciiTable "in/photo.JPG".toList) = ".jpg".toList ∧
      (NewImage "in/photo.JPG".toList (Ext (ToLower asciiTable "in/photo.JPG".toList))
        capture2023).ToPath = "2023/2023.03.05_14.07.09.jpg".toList ∧
      (NewImage "in/photo.JPG".toList (Ext (ToLower asciiTable "in/photo.JPG".toList))
        capture2023).ToPath =
        (NewImage "elsewhere/b.jpg".toList (Ext (ToLower asciiTable "in/photo.JPG".toList))
          capture2023).ToPath :=
  ⟨by decide,
    ((NewImage_ToPath_dated "in/photo.JPG".toList "elsewhere/b.jpg".toList
      (Ext (ToLower asciiTable "in/photo.JPG".toList)) capture2023 (Ext_no_slash _)
      (by decide)).1).trans (by decide),
    (NewImage_ToPath_dated "in/photo.JPG".toList "elsewhere/b.jpg".toList
      (Ext (ToLower asciiTable "in/photo.JPG".toList)) capture2023 (Ext_no_slash _)
      (by decide)).2⟩

theorem zeroPadded_two_shape (n : Nat) (h : n < 100) :
    (zeroPadded 2 n).length = 2 ∧ ∀ c ∈ zeroPadded 2 n, c.isDigit = true := by
  rw [← Sprintf02d_eq_zeroPadded, Sprintf02d_two n h]
  refine ⟨rfl, ?_⟩
  intro c hc
  simp only [List.mem_cons, List.mem_singleton, List.not_mem_nil, or_false] at hc
  rcases hc with rfl | rfl
  · exact digitByte_isDigit _ (by omega)
  · exact digitByte_isDigit _ (Nat.mod_lt _ (by omega))

theorem zeroPadded_no_separator (n : Nat) : ∀ c ∈ zeroPadded 2 n, c ≠ '.' ∧ c ≠ '_' := by
  rw [← Sprintf02d_eq_zeroPadded]
  exact Sprintf02d_no_separator _

theorem nameFields_dated (Y : Str) (t : Time) (e : Str) (hY : ∀ c ∈ Y, c ≠ '.' ∧ c ≠ '_')
    (hdot : e = [] ∨ e.head? = some '.') :
    (nameFields (datedName Y t ++ e)).take 6 =
      [Y, zeroPadded 2 t.month, zeroPadded 2 t.day, zeroPadded 2 t.hour, zeroPadded 2 t.min,
        zeroPadded 2 t.sec] := by
  unfold datedName
  simp only [List.append_assoc, List.cons_append]
  rw [nameFields_field _ _ '.' (Or.inl rfl) hY,
    nameFields_field _ _ '.' (Or.inl rfl) (zeroPadded_no_separator _),
    nameFields_field _ _ '_' (Or.inr rfl) (zeroPadded_no_separator _),
    nameFields_field _ _ '.' (Or.inl rfl) (zeroPadded_no_separator _),
    nameFields_field _ _ '.' (Or.inl rfl) (zeroPadded_no_separator _)]
  rcases hdot with rfl | hdot
  · rw [List.append_nil, nameFields_last _ (zeroPadded_no_separator _)]
    rfl
  · obtain ⟨r, rfl⟩ : ∃ r, e = '.' :: r := by
      cases e with
      | nil => simp at hdot
      | cons c r => simp at hdot; exact ⟨r, by rw [hdot]⟩
    rw [nameFields_field _ _ '.' (Or.inl rfl) (zeroPadded_no_separator _)]
    rfl

/-- C2, amended: for every timestamp `t` and every extension `e` without a
path separator that is empty or begins with a dot, in `NewImage(_, e, t).ToPath`
the month, day, hour, minute and second fields are the zero-padded decimal
numbers, each exactly two characters wide and made of decimal digits, and the
directory segment is the year zero-padded to at least two digits (behind its
sign when negative); it is four digits wide exactly when the year lies in
1000..9999. -/
theorem NewImage_ToPath_fields (p e : Str) (t : Time) (hsep : '/' ∉ e)
    (hdot : e = [] ∨ e.head? = some '.') :
    dirSegment (NewImage p e t).ToPath = renderedYear t.year ∧
      (((dirSegment (NewImage p e t).ToPath).length = 4 ∧
          ∀ c ∈ dirSegment (NewImage p e t).ToPath, c.isDigit = true) ↔
        1000 ≤ t.year ∧ t.year ≤ 9999) ∧
      (nameFields (fileSegment (NewImage p e t).ToPath)).take 6 =
        [renderedYear t.year, zeroPadded 2 t.month, zeroPadded 2 t.day, zeroPadded 2 t.hour,
          zeroPadded 2 t.min, zeroPadded 2 t.sec] ∧
      ∀ f ∈ ((nameFields (fileSegment (NewImage p e t).ToPath)).take 6).drop 1,
        f.length = 2 ∧ ∀ c ∈ f, c.isDigit = true := by
  have hY := (Sprintf02d_plain t.year).2.1
  have hsepY := Sprintf02d_no_separator t.year
  have hfour := Sprintf02d_four_digits t.year
  have hm := t.month_range
  have hd := t.day_range
  have hh := t.hour_range
  have hmi := t.min_range
  have hs := t.sec_range
  rw [Sprintf02d_eq_renderedYear] at hY hsepY hfour
  have hdir : dirSegment (NewImage p e t).ToPath = renderedYear t.year := by
    rw [NewImage_ToPath_datedPath p e t hsep]
    exact takeWhile_ne_slash _ _ hY
  have hfile : fileSegment (NewImage p e t).ToPath = datedName (renderedYear t.year) t ++ e := by
    rw [NewImage_ToPath_datedPath p e t hsep]
    unfold fileSegment datedPath
    rw [dropWhile_ne_slash _ _ hY]
    rfl
  rw [hdir, hfile, nameFields_dated _ t e hsepY hdot]
  refine ⟨rfl, hfour, rfl, ?_⟩
  intro f hf
  simp only [List.drop_succ_cons, List.drop_zero, List.mem_cons, List.mem_singleton,
    List.not_mem_nil, or_false] at hf
  rcases hf with rfl | rfl | rfl | rfl | rfl
  · exact zeroPadded_two_shape _ (by omega)
  · exact zeroPadded_two_shape _ (by omega)
  · exact zeroPadded_two_shape _ (by omega)
  · exact zeroPadded_two_shape _ (by omega)
  · exact zeroPadded_two_shape _ (by omega)

/-- C2, amended, at 2023-03-05 14:07:09 with the extension `.jpg`: the month 3
is the field `03`. -/
theorem NewImage_ToPath_fields_witness :
    dirSegment (NewImage [] ".jpg".toList capture2023).ToPath = "2023".toList ∧
      (nameFields (fileSegment (NewImage [] ".jpg".toList capture2023).ToPath)).take 6 =
        ["2023".toList, "03".toList, "05".toList, "14".toList, "07".toList, "09".toList] := by
  have h := NewImage_ToPath_fields [] ".jpg".toList capture2023 (by decide) (by decide)
  exact ⟨h.1.trans (by decide), h.2.2.1.trans (by decide)⟩

/-- C2 as stated fails: in the year 5 the directory segment is `05`, two
characters and not the four-digit `0005`; and with the extension `/..` the
path has no file name and no month field at all. -/
theorem NewImage_ToPath_year_not_four_digits :
    dirSegment (NewImage "in/photo.jpg".toList ".jpg".toList captureYear5).ToPath =
        "05".toList ∧
      dirSegment (NewImage "in/photo.jpg".toList ".jpg".toList captureYear5).ToPath ≠
        zeroPadded 4 5 ∧
      (NewImage "in/photo.jpg".toList ".jpg".toList captureYear5).ToPath =
        "05/05.03.05_14.07.09.jpg".toList ∧
      nameFields (fileSegment (NewImage "in/photo.jpg".toList "/..".toList capture2023).ToPath) =
        [[]] := by
  decide

theorem two_digits_inj (a b : Nat) (ha : a < 100) (hb : b < 100)
    (h1 : digitByte (a / 10) = digitByte (b / 10))
    (h2 : digitByte (a % 10) = digitByte (b % 10)) : a = b := by
  have e1 := digitByte_inj _ _ (by omega) (by omega) h1
  have e2 := digitByte_inj _ _ (Nat.mod_lt _ (by omega)) (Nat.mod_lt _ (by omega)) h2
  omega

theorem NewImage_ToPath_injective (p1 p2 e1 e2 : Str) (t1 t2 : Time) (h1 : '/' ∉ e1)
    (h2 : '/' ∉ e2) (h : (NewImage p1 e1 t1).ToPath = (NewImage p2 e2 t2).ToPath) :
    e1 = e2 ∧ t1.year = t2.year ∧ t1.month = t2.month ∧ t1.day = t2.day ∧
      t1.hour = t2.hour ∧ t1.min = t2.min ∧ t1.sec = t2.sec := by
  rw [NewImage_ToPath p1 e1 t1 h1, NewImage_ToPath p2 e2 t2 h2] at h
  have hY1 := (Sprintf02d_plain t1.year).2.1
  have hY2 := (Sprintf02d_plain t2.year).2.1
  have hy : Sprintf02d t1.year = Sprintf02d t2.year := by
    have := congrArg (List.takeWhile (fun c => decide (c ≠ '/'))) h
    rwa [takeWhile_ne_slash _ _ hY1, takeWhile_ne_slash _ _ hY2] at this
  have hyear := Sprintf02d_injective _ _ hy
  have hm1 := t1.month_range
  have hd1 := t1.day_range
  have hh1 := t1.hour_range
  have hmi1 := t1.min_range
  have hs1 := t1.sec_range
  have hm2 := t2.month_range
  have hd2 := t2.day_range
  have hh2 := t2.hour_range
  have hmi2 := t2.min_range
  have hs2 := t2.sec_range
  unfold SprintfStamp at h
  rw [hy] at h
  simp only [List.append_assoc, List.cons_append] at h
  have h3 := List.cons.inj (List.append_cancel_left h)
  have h4 := List.cons.inj (List.append_cancel_left h3.2)
  have h5 := h4.2
  rw [Sprintf02d_two t1.month (by omega), Sprintf02d_two t1.day (by omega),
    Sprintf02d_two t1.hour (by omega), Sprintf02d_two t1.min (by omega),
    Sprintf02d_two t1.sec (by omega), Sprintf02d_two t2.month (by omega),
    Sprintf02d_two t2.day (by omega), Sprintf02d_two t2.hour (by omega),
    Sprintf02d_two t2.min (by omega), Sprintf02d_two t2.sec (by omega)] at h5
  simp only [List.cons_append, List.nil_append, List.cons.injEq] at h5
  obtain ⟨a1, a2, -, b1, b2, -, c1, c2, -, d1, d2, -, f1, f2, he⟩ := h5
  exact ⟨he, hyear, two_digits_inj _ _ (by omega) (by omega) a1 a2,
    two_digits_inj _ _ (by omega) (by omega) b1 b2,
    two_digits_inj _ _ (by omega) (by omega) c1 c2,
    two_digits_inj _ _ (by omega) (by omega) d1 d2,
    two_digits_inj _ _ (by omega) (by omega) f1 f2⟩

/-- C10: for extensions `e1`, `e2` among `.jpg` and `.jpeg`, images with the
same `ToPath` have the same extension and capture times with the same year,
month, day, hour, minute and second. -/
theorem NewImage_ToPath_collision (p1 p2 e1 e2 : Str) (t1 t2 : Time)
    (h1 : e1 = ".jpg".toList ∨ e1 = ".jpeg".toList)
    (h2 : e2 = ".jpg".toList ∨ e2 = ".jpeg".toList)
    (h : (NewImage p1 e1 t1).ToPath = (NewImage p2 e2 t2).ToPath) :
    e1 = e2 ∧ t1.year = t2.year ∧ t1.month = t2.month ∧ t1.day = t2.day ∧
      t1.hour = t2.hour ∧ t1.min = t2.min ∧ t1.sec = t2.sec := by
  have s1 : '/' ∉ e1 := by rcases h1 with rfl | rfl <;> decide
  have s2 : '/' ∉ e2 := by rcases h2 with rfl | rfl <;> decide
  exact NewImage_ToPath_injective p1 p2 e1 e2 t1 t2 s1 s2 h

/-- C10 at two files taken in the same second, half a second apart: their
paths collide, and the six fields agree. -/
theorem NewImage_ToPath_collision_witness :
    (NewImage "in/a.jpg".toList ".jpg".toList capture2023).ToPath =
        (NewImage "in/b.JPG".toList ".jpg".toList capture2023Late).ToPath ∧
      capture2023 ≠ capture2023Late ∧
      capture2023.sec = capture2023Late.sec :=
  ⟨by decide, by decide,
    (NewImage_ToPath_collision "in/a.jpg".toList "in/b.JPG".toList ".jpg".toList
      ".jpg".toList capture2023 capture2023Late (Or.inl rfl) (Or.inl rfl) (by decide)).2.2.2.2.2.2⟩

/-! ## The Classifier -/

theorem toLower_of_not_upper (c : Char) (h : c.toNat < 65 ∨ 90 < c.toNat) : c.toLower = c := by
  unfold Char.toLower
  simp only
  rw [if_neg]
  omega

theorem toLower_toNat_of_upper (c : Char) (h : 65 ≤ c.toNat ∧ c.toNat ≤ 90) :
    c.toLower.toNat = c.toNat + 32 := by
  unfold Char.toLower
  simp only
  rw [if_pos (by exact h)]
  generalize c.toNat = n at h
  obtain ⟨h1, h2⟩ := h
  interval_cases n <;> rfl

theorem toLower_eq_iff (c d : Char)
    (hd : d.toNat < 65 ∨ (90 < d.toNat ∧ d.toNat < 97) ∨ 122 < d.toNat) :
    c.toLower = d ↔ c = d := by
  by_cases hu : 65 ≤ c.toNat ∧ c.toNat ≤ 90
  · have := toLower_toNat_of_upper c hu
    constructor
    · intro h; rw [h] at this; omega
    · intro h; rw [h] at hu; omega
  · rw [toLower_of_not_upper c (by omega)]

theorem CaseTable.lower_eq_dot (tbl : CaseTable) (c : Char) : tbl.lower c = '.' ↔ c = '.' := by
  by_cases h : c.toNat < 128
  · rw [tbl.ascii c h]
    exact toLower_eq_iff c '.' (Or.inl (by decide))
  · have := (tbl.other c (by omega)).1
    constructor
    · intro e; exact absurd e this
    · intro e; rw [e] at h; exact absurd h (by decide)

theorem CaseTable.lower_eq_slash (tbl : CaseTable) (c : Char) : tbl.lower c = '/' ↔ c = '/' := by
  by_cases h : c.toNat < 128
  · rw [tbl.ascii c h]
    exact toLower_eq_iff c '/' (Or.inl (by decide))
  · have := (tbl.other c (by omega)).2
    constructor
    · intro e; exact absurd e this
    · intro e; rw [e] at h; exact absurd h (by decide)

theorem extLoop_map (tbl : CaseTable) (l suffix : List Char) :
    extLoop (l.map tbl.lower) (suffix.map tbl.lower) = (extLoop l suffix).map tbl.lower := by
  induction l generalizing suffix with
  | nil => rfl
  | cons c before ih =>
    have hdot : tbl.lower '.' = '.' := (tbl.lower_eq_dot '.').2 rfl
    by_cases h1 : c = '/'
    · simp [extLoop, h1, (tbl.lower_eq_slash '/').2 rfl]
    · have h1l : tbl.lower c ≠ '/' := fun e => h1 ((tbl.lower_eq_slash c).1 e)
      by_cases h2 : c = '.'
      · subst h2
        simp [extLoop, hdot]
      · have h2l : tbl.lower c ≠ '.' := fun e => h2 ((tbl.lower_eq_dot c).1 e)
        have := ih (c :: suffix)
        simpa [extLoop, h1, h2, h1l, h2l] using this

/-- Lowering a name and taking its extension is taking its extension and
lowering it. -/
theorem Ext_ToLower (tbl : CaseTable) (path : Str) :
    Ext (ToLower tbl path) = ToLower tbl (Ext path) := by
  unfold Ext ToLower
  rw [← List.map_reverse]
  exact extLoop_map tbl path.reverse []

theorem makeImagesLoop_error (tbl : CaseTable) (readFile : Str → Except Errno FileContent)
    (n : Nat) (path : Str) (rest : List Str) (e : Errno) (h : readFile path = .error e) :
    makeImagesLoop tbl readFile n (path :: rest) = ⟨[], n, some e, none⟩ := by
  simp [makeImagesLoop, osOpen, h]

theorem makeImagesLoop_skip (tbl : CaseTable) (readFile : Str → Except Errno FileContent)
    (n : Nat) (path : Str) (rest : List Str) (c : FileContent) (h : readFile path = .ok c)
    (hr : recognize tbl path c = none) :
    makeImagesLoop tbl readFile n (path :: rest) = makeImagesLoop tbl readFile n rest := by
  unfold recognize at hr
  rw [makeImagesLoop]
  simp only [osOpen, h]
  rcases c with ⟨_ | ⟨_ | t⟩⟩
  · rfl
  · rfl
  · simp only at hr ⊢
    split at hr
    · simp at hr
    · rename_i hext
      rw [if_neg hext]

theorem makeImagesLoop_send (tbl : CaseTable) (readFile : Str → Except Errno FileContent)
    (n : Nat) (path : Str) (rest : List Str) (c : FileContent) (im : Image)
    (h : readFile path = .ok c) (hr : recognize tbl path c = some im) :
    makeImagesLoop tbl readFile n (path :: rest) =
      (makeImagesLoop tbl readFile (n + 1) rest).send im := by
  unfold recognize at hr
  rw [makeImagesLoop]
  simp only [osOpen, h]
  rcases c with ⟨_ | ⟨_ | t⟩⟩
  · simp at hr
  · simp at hr
  · simp only at hr ⊢
    split at hr
    · rename_i hext
      simp only [Option.some.injEq] at hr
      rw [if_pos hext, hr]
    · simp at hr

theorem recognize_some (tbl : CaseTable) (path : Str) (c : FileContent) (im : Image)
    (h : recognize tbl path c = some im) :
    (∃ t, c.exif = some ⟨some t⟩ ∧ im = NewImage path (Ext (ToLower tbl path)) t) ∧
      (Ext (ToLower tbl path) = ".jpg".toList ∨ Ext (ToLower tbl path) = ".jpeg".toList) := by
  unfold recognize at h
  rcases c with ⟨_ | ⟨_ | t⟩⟩
  · simp at h
  · simp at h
  · simp only at h
    split at h
    · rename_i hext
      simp only [Option.some.injEq] at h
      exact ⟨⟨t, rfl, h.symm⟩, hext⟩
    · simp at h

theorem recognize_none_of_undated (tbl : CaseTable) (path : Str) (c : FileContent)
    (h : c.exif = none ∨ ∃ x, c.exif = some x ∧ x.dateTime = none) :
    recognize tbl path c = none := by
  unfold recognize
  rcases h with h | ⟨x, hx, ht⟩
  · rw [h]
  · rw [hx]
    simp only [ht]

/-- What the loop of `makeImages` does with the first path it receives. -/
theorem makeImagesLoop_cons (tbl : CaseTable) (readFile : Str → Except Errno FileContent)
    (n : Nat) (path : Str) (rest : List Str) :
    (∃ e, readFile path = .error e ∧
        makeImagesLoop tbl readFile n (path :: rest) = ⟨[], n, some e, none⟩) ∨
      (∃ c, readFile path = .ok c ∧ recognize tbl path c = none ∧
        makeImagesLoop tbl readFile n (path :: rest) = makeImagesLoop tbl readFile n rest) ∨
      (∃ c im, readFile path = .ok c ∧ recognize tbl path c = some im ∧
        makeImagesLoop tbl readFile n (path :: rest) =
          (makeImagesLoop tbl readFile (n + 1) rest).send im) := by
  cases h : readFile path with
  | error e => exact Or.inl ⟨e, rfl, makeImagesLoop_error tbl readFile n path rest e h⟩
  | ok c =>
    cases hr : recognize tbl path c with
    | none => exact Or.inr (Or.inl ⟨c, rfl, hr, makeImagesLoop_skip tbl readFile n path rest c h hr⟩)
    | some im =>
      exact Or.inr (Or.inr ⟨c, im, rfl, hr,
        makeImagesLoop_send tbl readFile n path rest c im h hr⟩)

theorem makeImagesLoop_sent (tbl : CaseTable) (readFile : Str → Except Errno FileContent)
    (files : List Str) : ∀ n, ∀ im ∈ (makeImagesLoop tbl readFile n files).sent,
      ∃ p c, p ∈ files ∧ readFile p = .ok c ∧ recognize tbl p c = some im := by
  induction files with
  | nil => intro n im h; simp [makeImagesLoop] at h
  | cons path rest ih =>
    intro n im h
    rcases makeImagesLoop_cons tbl readFile n path rest with
      ⟨e, _, heq⟩ | ⟨c, _, _, heq⟩ | ⟨c, im2, hc, hr, heq⟩
    · rw [heq] at h; simp at h
    · rw [heq] at h
      obtain ⟨p, c2, hp, h2⟩ := ih n im h
      exact ⟨p, c2, List.mem_cons_of_mem _ hp, h2⟩
    · rw [heq] at h
      rcases List.mem_cons.1 h with h1 | h1
      · exact ⟨path, c, List.mem_cons_self _ _, hc, h1 ▸ hr⟩
      · obtain ⟨p, c2, hp, h2⟩ := ih (n + 1) im h1
        exact ⟨p, c2, List.mem_cons_of_mem _ hp, h2⟩

theorem makeImagesLoop_count (tbl : CaseTable) (readFile : Str → Except Errno FileContent)
    (files : List Str) : ∀ n, (makeImagesLoop tbl readFile n files).count =
      n + (makeImagesLoop tbl readFile n files).sent.length := by
  induction files with
  | nil => intro n; rfl
  | cons path rest ih =>
    intro n
    rcases makeImagesLoop_cons tbl readFile n path rest with
      ⟨e, _, heq⟩ | ⟨c, _, _, heq⟩ | ⟨c, im2, hc, hr, heq⟩
    · rw [heq]; rfl
    · rw [heq]; exact ih n
    · rw [heq]
      have := ih (n + 1)
      simp only [Stage.send, List.length_cons]
      omega

theorem makeImagesLoop_summary (tbl : CaseTable) (readFile : Str → Except Errno FileContent)
    (files : List Str) : ∀ n, (makeImagesLoop tbl readFile n files).summary =
      if (makeImagesLoop tbl readFile n files).fatal = none then
        some (makeImagesLoop tbl readFile n files).count
      else none := by
  induction files with
  | nil => intro n; rfl
  | cons path rest ih =>
    intro n
    rcases makeImagesLoop_cons tbl readFile n path rest with
      ⟨e, _, heq⟩ | ⟨c, _, _, heq⟩ | ⟨c, im2, hc, hr, heq⟩
    · rw [heq]; rfl
    · rw [heq]; exact ih n
    · rw [heq]; exact ih (n + 1)

theorem makeImagesLoop_fatal (tbl : CaseTable) (readFile : Str → Except Errno FileContent)
    (files : List Str) : ∀ n, (makeImagesLoop tbl readFile n files).fatal ≠ none ↔
      ∃ p ∈ files, ∃ e, readFile p = .error e := by
  induction files with
  | nil => intro n; simp [makeImagesLoop]
  | cons path rest ih =>
    intro n
    rcases makeImagesLoop_cons tbl readFile n path rest with
      ⟨e, he, heq⟩ | ⟨c, hc, _, heq⟩ | ⟨c, im2, hc, hr, heq⟩
    · rw [heq]
      simp only [ne_eq, reduceCtorEq, not_false_eq_true, true_iff]
      exact ⟨path, List.mem_cons_self _ _, e, he⟩
    · rw [heq, ih n]
      constructor
      · rintro ⟨p, hp, h⟩
        exact ⟨p, List.mem_cons_of_mem _ hp, h⟩
      · rintro ⟨p, hp, e, h⟩
        rcases List.mem_cons.1 hp with h1 | h1
        · rw [h1, hc] at h; cases h
        · exact ⟨p, h1, e, h⟩
    · rw [heq]
      show (makeImagesLoop tbl readFile (n + 1) rest).fatal ≠ none ↔ _
      rw [ih (n + 1)]
      constructor
      · rintro ⟨p, hp, h⟩
        exact ⟨p, List.mem_cons_of_mem _ hp, h⟩
      · rintro ⟨p, hp, e, h⟩
        rcases List.mem_cons.1 hp with h1 | h1
        · rw [h1, hc] at h; cases h
        · exact ⟨p, h1, e, h⟩

theorem makeImagesLoop_halt (tbl : CaseTable) (readFile : Str → Except Errno FileContent)
    (pre : List Str) (p : Str) (post : List Str) (e : Errno)
    (hpre : ∀ q ∈ pre, ∃ c, readFile q = .ok c) (hp : readFile p = .error e) :
    ∀ n, makeImagesLoop tbl readFile n (pre ++ p :: post) =
      ⟨(makeImagesLoop tbl readFile n pre).sent, (makeImagesLoop tbl readFile n pre).count,
        some e, none⟩ := by
  induction pre with
  | nil =>
    intro n
    rw [List.nil_append, makeImagesLoop_error tbl readFile n p post e hp]
    rfl
  | cons path rest ih =>
    intro n
    have hrest : ∀ q ∈ rest, ∃ c, readFile q = .ok c :=
      fun q hq => hpre q (List.mem_cons_of_mem _ hq)
    obtain ⟨c0, hc0⟩ := hpre path (List.mem_cons_self _ _)
    rw [List.cons_append]
    rcases makeImagesLoop_cons tbl readFile n path (rest ++ p :: post) with
      ⟨e1, he1, _⟩ | ⟨c, hc, hr, heq⟩ | ⟨c, im, hc, hr, heq⟩
    · rw [hc0] at he1; cases he1
    · rw [heq, makeImagesLoop_skip tbl readFile n path rest c hc hr]
      exact ih hrest n
    · rw [heq, makeImagesLoop_send tbl readFile n path rest c im hc hr, ih hrest (n + 1)]
      rfl

theorem makeImagesLoop_drop (tbl : CaseTable) (readFile : Str → Except Errno FileContent)
    (pre : List Str) (p : Str) (rest : List Str) (c : FileContent)
    (hp : readFile p = .ok c) (hr : recognize tbl p c = none) :
    ∀ n, makeImagesLoop tbl readFile n (pre ++ p :: rest) =
      makeImagesLoop tbl readFile n (pre ++ rest) := by
  induction pre with
  | nil =>
    intro n
    exact makeImagesLoop_skip tbl readFile n p rest c hp hr
  | cons path pre ih =>
    intro n
    rw [List.cons_append, List.cons_append]
    rcases makeImagesLoop_cons tbl readFile n path (pre ++ p :: rest) with
      ⟨e1, he1, heq⟩ | ⟨c1, hc1, hr1, heq⟩ | ⟨c1, im, hc1, hr1, heq⟩
    · rw [heq, makeImagesLoop_error tbl readFile n path _ e1 he1]
    · rw [heq, makeImagesLoop_skip tbl readFile n path _ c1 hc1 hr1]
      exact ih n
    · rw [heq, makeImagesLoop_send tbl readFile n path _ c1 im hc1 hr1, ih (n + 1)]

/-- C4: every Image `makeImages` sends comes from one of the paths it
received, has as `Extension` the lower-cased extension of that path, and that
extension is `.jpg` or `.jpeg`; so a path whose lower-cased extension is
neither is never sent, whatever its metadata. -/
theorem makeImages_extension (tbl : CaseTable) (readFile : Str → Except Errno FileContent)
    (files : List Str) :
    (∀ im ∈ (ImageMover.makeImages tbl readFile files).sent,
        im.FromPath ∈ files ∧ im.Extension = ToLower tbl (Ext im.FromPath) ∧
          (im.Extension = ".jpg".toList ∨ im.Extension = ".jpeg".toList)) ∧
      ∀ p, ToLower tbl (Ext p) ≠ ".jpg".toList → ToLower tbl (Ext p) ≠ ".jpeg".toList →
        ∀ im ∈ (ImageMover.makeImages tbl readFile files).sent, im.FromPath ≠ p := by
  have key : ∀ im ∈ (ImageMover.makeImages tbl readFile files).sent,
      im.FromPath ∈ files ∧ im.Extension = ToLower tbl (Ext im.FromPath) ∧
        (im.Extension = ".jpg".toList ∨ im.Extension = ".jpeg".toList) := by
    intro im him
    obtain ⟨p, c, hp, _, hr⟩ := makeImagesLoop_sent tbl readFile files 0 im him
    obtain ⟨⟨t, _, rfl⟩, hext⟩ := recognize_some tbl p c im hr
    exact ⟨hp, Ext_ToLower tbl p, hext⟩
  refine ⟨key, ?_⟩
  intro p h1 h2 im him hfrom
  obtain ⟨_, he, hext⟩ := key im him
  rw [hfrom] at he
  rw [he] at hext
  rcases hext with h | h
  · exact h1 h
  · exact h2 h

/-- C4 on a sample directory: the photo `photo.JPG` and `z.jpeg` are sent with
the extensions `.jpg` and `.jpeg`; `scan.png`, which carries a capture time, is
not. -/
theorem makeImages_extension_witness :
    (ImageMover.makeImages asciiTable sampleRead
        ["in/photo.JPG".toList, "in/note.txt".toList, "in/scan.png".toList,
          "in/blank.jpg".toList, "in/z.jpeg".toList]).sent =
        [NewImage "in/photo.JPG".toList ".jpg".toList capture2023,
          NewImage "in/z.jpeg".toList ".jpeg".toList captureYear5] ∧
      sampleRead "in/scan.png".toList = .ok ⟨some ⟨some capture2023⟩⟩ ∧
      ∀ im ∈ (ImageMover.makeImages asciiTable sampleRead
        ["in/photo.JPG".toList, "in/note.txt".toList, "in/scan.png".toList,
          "in/blank.jpg".toList, "in/z.jpeg".toList]).sent, im.FromPath ≠ "in/scan.png".toList :=
  ⟨by decide, by decide,
    (makeImages_extension asciiTable sampleRead _).2 "in/scan.png".toList (by decide)
      (by decide)⟩

/-- C5: a path that opens but whose metadata does not decode, or decodes
without a capture time, is skipped: `makeImages` does on the whole sequence
what it does on the sequence without that path, sends no Image for it
whatever the sequence, and counts exactly the Images it sends. -/
theorem makeImages_skips_undated (tbl : CaseTable) (readFile : Str → Except Errno FileContent)
    (pre : List Str) (p : Str) (rest : List Str) (c : FileContent)
    (hopen : readFile p = .ok c)
    (hmeta : c.exif = none ∨ ∃ x, c.exif = some x ∧ x.dateTime = none) :
    ImageMover.makeImages tbl readFile (pre ++ p :: rest) =
        ImageMover.makeImages tbl readFile (pre ++ rest) ∧
      (∀ files, ∀ im ∈ (ImageMover.makeImages tbl readFile files).sent, im.FromPath ≠ p) ∧
      ∀ files, (ImageMover.makeImages tbl readFile files).count =
        (ImageMover.makeImages tbl readFile files).sent.length := by
  have hr := recognize_none_of_undated tbl p c hmeta
  refine ⟨makeImagesLoop_drop tbl readFile pre p rest c hopen hr 0, ?_, ?_⟩
  · intro files im him hfrom
    obtain ⟨q, c2, _, hq, hr2⟩ := makeImagesLoop_sent tbl readFile files 0 im him
    obtain ⟨⟨t, _, rfl⟩, _⟩ := recognize_some tbl q c2 _ hr2
    have hqp : q = p := hfrom
    rw [hqp, hopen] at hq
    cases hq
    rw [hqp, hr] at hr2
    cases hr2
  · intro files
    have := makeImagesLoop_count tbl readFile files 0
    simpa [ImageMover.makeImages] using this

/-- C5 on a sample directory, at the photo `blank.jpg` that decodes without a
capture time. -/
theorem makeImages_skips_undated_witness :
    sampleRead "in/blank.jpg".toList = .ok ⟨some ⟨none⟩⟩ ∧
      ImageMover.makeImages asciiTable sampleRead
          (["in/photo.JPG".toList] ++ "in/blank.jpg".toList :: ["in/z.jpeg".toList]) =
        ImageMover.makeImages asciiTable sampleRead
          (["in/photo.JPG".toList] ++ ["in/z.jpeg".toList]) ∧
      (ImageMover.makeImages asciiTable sampleRead
          (["in/photo.JPG".toList] ++ "in/blank.jpg".toList :: ["in/z.jpeg".toList])).count = 2 :=
  ⟨by decide,
    (makeImages_skips_undated asciiTable sampleRead ["in/photo.JPG".toList]
      "in/blank.jpg".toList ["in/z.jpeg".toList] ⟨some ⟨none⟩⟩ (by decide)
      (Or.inr ⟨⟨none⟩, rfl, rfl⟩)).1,
    by decide⟩

/-- C6: `makeImages` ends in a fatal halt exactly when opening one of its
paths fails; it halts at the first such path, having sent what it sends for
the paths before it and nothing more, with the error of that open and without
its summary line; and when every path opens it does not halt and prints its
summary, whatever the metadata and the extensions. -/
theorem makeImages_fatal_iff (tbl : CaseTable) (readFile : Str → Except Errno FileContent)
    (files : List Str) :
    ((ImageMover.makeImages tbl readFile files).fatal ≠ none ↔
        ∃ p ∈ files, ∃ e, readFile p = .error e) ∧
      (∀ pre p post e, files = pre ++ p :: post → (∀ q ∈ pre, ∃ c, readFile q = .ok c) →
        readFile p = .error e →
        ImageMover.makeImages tbl readFile files =
            ⟨(ImageMover.makeImages tbl readFile pre).sent,
              (ImageMover.makeImages tbl readFile pre).count, some e, none⟩ ∧
          (ImageMover.makeImages tbl readFile pre).fatal = none) ∧
      ((∀ p ∈ files, ∃ c, readFile p = .ok c) →
        (ImageMover.makeImages tbl readFile files).fatal = none ∧
          (ImageMover.makeImages tbl readFile files).summary =
            some (ImageMover.makeImages tbl readFile files).sent.length) := by
  have hnone : ∀ fs : List Str, (∀ p ∈ fs, ∃ c, readFile p = .ok c) →
      (makeImagesLoop tbl readFile 0 fs).fatal = none := by
    intro fs hall
    by_contra hne
    obtain ⟨p, hp, e, he⟩ := (makeImagesLoop_fatal tbl readFile fs 0).1 hne
    obtain ⟨c, hc⟩ := hall p hp
    rw [hc] at he
    cases he
  refine ⟨makeImagesLoop_fatal tbl readFile files 0, ?_, ?_⟩
  · intro pre p post e hfiles hpre hp
    subst hfiles
    exact ⟨makeImagesLoop_halt tbl readFile pre p post e hpre hp 0, hnone pre hpre⟩
  · intro hall
    have hf := hnone files hall
    refine ⟨hf, ?_⟩
    have hs := makeImagesLoop_summary tbl readFile files 0
    have hc := makeImagesLoop_count tbl readFile files 0
    show (makeImagesLoop tbl readFile 0 files).summary = _
    rw [hs, if_pos hf, hc]
    simp [ImageMover.makeImages]

/-- C6 on a sample directory: the photo before `locked.jpg` is sent, the path
after it is not, and the run halts with the error of the open. -/
theorem makeImages_fatal_iff_witness :
    ImageMover.makeImages asciiTable sampleRead
        ["in/photo.JPG".toList, "in/note.txt".toList, "in/locked.jpg".toList,
          "in/z.jpeg".toList] =
      ⟨[NewImage "in/photo.JPG".toList ".jpg".toList capture2023], 1, some Errno.EACCES,
        none⟩ ∧
      (ImageMover.makeImages asciiTable sampleRead
        ["in/photo.JPG".toList, "in/note.txt".toList, "in/scan.png".toList,
          "in/blank.jpg".toList]).fatal = none :=
  ⟨(((makeImages_fatal_iff asciiTable sampleRead _).2.1
      ["in/photo.JPG".toList, "in/note.txt".toList] "in/locked.jpg".toList
      ["in/z.jpeg".toList] Errno.EACCES rfl
      (by
        intro q hq
        simp only [List.mem_cons, List.mem_singleton, List.not_mem_nil, or_false] at hq
        rcases hq with rfl | rfl <;> exact ⟨_, rfl⟩)
      (by decide)).1).trans (by decide),
    ((makeImages_fatal_iff asciiTable sampleRead _).2.2
      (by
        intro q hq
        simp only [List.mem_cons, List.mem_singleton, List.not_mem_nil, or_false] at hq
        rcases hq with rfl | rfl | rfl | rfl <;> exact ⟨_, rfl⟩)).1⟩

/-! ## Validation -/

/-- C8: `validate` returns an error exactly when the source path is empty, or
the destination path is empty, or `os.Stat` of the source fails, or the source
is not a directory, or `os.Stat` of the destination fails with an error other
than "does not exist"; a destination that does not exist is accepted; and when
`validate` returns an error, `Move` returns that error, leaves the state as it
was and starts none of its stages. -/
theorem validate_error_iff {σ : Type} (os : OS σ) (tbl : CaseTable) (s : σ) (m : ImageMover) :
    (m.validate os s ≠ none ↔
        m.sourceDirectory = [] ∨ m.destinationDirectory = [] ∨
          (∃ e, os.stat s m.sourceDirectory = .error e) ∨
          (∃ info, os.stat s m.sourceDirectory = .ok info ∧ info.isDir = false) ∨
          ∃ e, os.stat s m.destinationDirectory = .error e ∧ IsNotExist e = false) ∧
      (m.sourceDirectory ≠ [] → m.destinationDirectory ≠ [] →
        os.stat s m.sourceDirectory = .ok ⟨true⟩ →
        os.stat s m.destinationDirectory = .error Errno.ENOENT → m.validate os s = none) ∧
      ∀ err, m.validate os s = some err →
        (m.Move os tbl s).exit = Exit.returned (some err) ∧ (m.Move os tbl s).state = s ∧
          (m.Move os tbl s).scanned = none ∧ (m.Move os tbl s).classified = none ∧
          (m.Move os tbl s).moved.isNone = true := by
  refine ⟨?_, ?_, ?_⟩
  · unfold ImageMover.validate
    by_cases h1 : m.sourceDirectory = []
    · simp [h1]
    · have h1l : ¬ m.sourceDirectory.length = 0 := by simpa using h1
      by_cases h2 : m.destinationDirectory = []
      · simp [h1, h2]
      · have h2l : ¬ m.destinationDirectory.length = 0 := by simpa using h2
        simp only [h1l, h2l, if_false, h1, h2, false_or]
        cases hs : os.stat s m.sourceDirectory with
        | error e => simp
        | ok info =>
          cases hd : info.isDir with
          | false => simp [hd]
          | true =>
            cases hdst : os.stat s m.destinationDirectory with
            | error e =>
              cases hn : IsNotExist e <;> simp [hd, hn]
            | ok info2 => simp [hd]
  · intro h1 h2 hs hd
    have h1l : ¬ m.sourceDirectory.length = 0 := by simpa using h1
    have h2l : ¬ m.destinationDirectory.length = 0 := by simpa using h2
    unfold ImageMover.validate
    simp only [h1l, h2l, if_false, hs, hd]
    rfl
  · intro err h
    have hrun : m.Move os tbl s = ⟨Exit.returned (some err), s, none, none, none⟩ := by
      unfold ImageMover.Move
      simp only [h]
    rw [hrun]
    exact ⟨rfl, rfl, rfl, rfl, rfl⟩

/-- C8 on a sample system: a destination that cannot be examined is an error
that `Move` returns without a call; a destination that does not exist is
accepted. -/
theorem validate_error_iff_witness :
    (NewImageMover "in".toList "sealed".toList).validate sampleOS [] =
        some (MoveError.stat Errno.EACCES) ∧
      ((NewImageMover "in".toList "sealed".toList).Move sampleOS asciiTable []).exit =
        Exit.returned (some (MoveError.stat Errno.EACCES)) ∧
      ((NewImageMover "in".toList "sealed".toList).Move sampleOS asciiTable []).state = [] ∧
      (NewImageMover "in".toList "out".toList).validate sampleOS [] = none ∧
      (NewImageMover "in/photo.JPG".toList "out".toList).validate sampleOS [] =
        some MoveError.sourceNotDirectory ∧
      (NewImageMover [] "out".toList).validate sampleOS [] = some MoveError.sourceNotGiven ∧
      (NewImageMover "in".toList []).validate sampleOS [] =
        some MoveError.destinationNotGiven := by
  have h := (validate_error_iff sampleOS asciiTable []
    (NewImageMover "in".toList "sealed".toList)).2.2 (MoveError.stat Errno.EACCES) (by decide)
  have h2 := (validate_error_iff sampleOS asciiTable []
    (NewImageMover "in".toList "out".toList)).2.1 (by decide) (by decide) (by decide) (by decide)
  exact ⟨by decide, h.1, h.2.1, h2, by decide, by decide, by decide⟩

/-! ## Cleaned paths and where they lead -/

theorem splitOn_no_sep (sep : Char) (a : Str) : ∀ e ∈ splitOn sep a, sep ∉ e := by
  induction a with
  | nil => intro e he; simp [splitOn] at he; simp [he]
  | cons c cs ih =>
    intro e he
    obtain ⟨h, t, ht⟩ := List.exists_cons_of_ne_nil (splitOn_ne_nil sep cs)
    by_cases hc : c = sep
    · simp only [splitOn, hc, if_true, List.mem_cons] at he
      rcases he with rfl | he
      · simp
      · exact ih e he
    · simp only [splitOn, hc, if_false, ht, List.headD_cons, List.tail_cons, List.mem_cons] at he
      rcases he with rfl | he
      · intro hm
        rcases List.mem_cons.1 hm with h1 | h1
        · exact hc h1.symm
        · exact ih h (by rw [ht]; simp) h1
      · exact ih e (by rw [ht]; simp [he])

theorem joinSlash_cons (e : Str) (L : List Str) (h : L ≠ []) :
    joinSlash (e :: L) = e ++ '/' :: joinSlash L := by
  obtain ⟨x, xs, rfl⟩ := List.exists_cons_of_ne_nil h
  rfl

theorem joinSlash_append_singleton (L : List Str) (e : Str) (h : L ≠ []) :
    joinSlash (L ++ [e]) = joinSlash L ++ '/' :: e := by
  induction L with
  | nil => exact absurd rfl h
  | cons x xs ih =>
    by_cases hxs : xs = []
    · subst hxs; rfl
    · rw [List.cons_append, joinSlash_cons x _ (by simp), joinSlash_cons x xs hxs, ih hxs]
      simp

theorem splitOn_joinSlash (L : List Str) (h : L ≠ []) (hL : ∀ e ∈ L, '/' ∉ e) :
    splitOn '/' (joinSlash L) = L := by
  induction L with
  | nil => exact absurd rfl h
  | cons x xs ih =>
    have hx := hL x (by simp)
    by_cases hxs : xs = []
    · subst hxs
      exact splitOn_of_not_mem _ x hx
    · rw [joinSlash_cons x xs hxs, splitOn_append, splitOn_of_not_mem _ x hx,
        ih hxs (fun e he => hL e (by simp [he]))]
      rfl

theorem cleanStep_canonical (rooted : Bool) (s : CleanState) (e : Str)
    (hs : s.Canonical rooted) (he : '/' ∉ e) : (cleanStep rooted s e).Canonical rooted := by
  obtain ⟨h1, h2⟩ := hs
  unfold cleanStep
  by_cases hskip : e = [] ∨ e = ['.']
  · rw [if_pos hskip]; exact ⟨h1, h2⟩
  · rw [if_neg hskip]
    by_cases hdd : e = ['.', '.']
    · rw [if_pos hdd]
      cases hout : s.out with
      | nil =>
        cases rooted with
        | true => simpa using ⟨h1, h2⟩
        | false => simp [CleanState.Canonical]
      | cons x rest =>
        refine ⟨h1, fun e he => h2 e ?_⟩
        rw [hout]; exact List.mem_cons_of_mem _ he
    · rw [if_neg hdd]
      refine ⟨h1, ?_⟩
      intro x hx
      rcases List.mem_cons.1 hx with rfl | hx
      · exact ⟨fun h => hskip (Or.inl h), he, fun h => hskip (Or.inr h), hdd⟩
      · exact h2 x hx

theorem cleanElems_canonical (rooted : Bool) (X : List Str) (hX : ∀ e ∈ X, '/' ∉ e) :
    ∀ s : CleanState, s.Canonical rooted → (cleanElems rooted s X).Canonical rooted := by
  induction X with
  | nil => intro s hs; exact hs
  | cons x xs ih =>
    intro s hs
    exact ih (fun e he => hX e (by simp [he])) _
      (cleanStep_canonical rooted s x hs (hX x (by simp)))

theorem pathState_canonical (p : Str) : (pathState p).Canonical (isRooted p) :=
  cleanElems_canonical _ _ (splitOn_no_sep '/' p) _ ⟨fun _ => rfl, by simp⟩

theorem cleanElems_dotdots (k : Nat) (n : Nat) :
    cleanElems false ⟨n, []⟩ (List.replicate k ['.', '.']) = ⟨n + k, []⟩ := by
  induction k generalizing n with
  | zero => rfl
  | succ k ih =>
    show cleanElems false (cleanStep false ⟨n, []⟩ ['.', '.']) (List.replicate k ['.', '.']) = _
    have : cleanStep false ⟨n, []⟩ ['.', '.'] = ⟨n + 1, []⟩ := by simp [cleanStep]
    rw [this, ih]
    congr 1
    omega

/-- Reading again what `filepath.Clean` has kept keeps the same. -/
theorem cleanElems_elems (rooted : Bool) (s : CleanState) (hs : s.Canonical rooted) :
    cleanElems rooted ⟨0, []⟩ s.elems = s := by
  obtain ⟨h1, h2⟩ := hs
  have hplain : ∀ e ∈ s.out.reverse, PlainName e := fun e he => h2 e (List.mem_reverse.1 he)
  unfold CleanState.elems
  rw [cleanElems_append]
  cases rooted with
  | true =>
    have hz := h1 rfl
    rw [hz]
    show cleanElems true ⟨0, []⟩ s.out.reverse = s
    rw [cleanElems_plain true _ _ hplain]
    cases s
    simp at hz ⊢
    exact hz.symm
  | false =>
    rw [cleanElems_dotdots, cleanElems_plain false _ _ hplain]
    cases s
    simp

theorem elems_no_slash (rooted : Bool) (s : CleanState) (hs : s.Canonical rooted) :
    ∀ e ∈ s.elems, '/' ∉ e := by
  intro e he
  rcases List.mem_append.1 he with h | h
  · rw [(List.mem_replicate.1 h).2]; decide
  · exact (hs.2 e (List.mem_reverse.1 h)).2.1

theorem elems_head_ne_slash (rooted : Bool) (s : CleanState) (hs : s.Canonical rooted)
    (hne : s.elems ≠ []) : isRooted (joinSlash s.elems) = false := by
  obtain ⟨x, xs, hx⟩ := List.exists_cons_of_ne_nil hne
  have hmem : x ∈ s.elems := by rw [hx]; simp
  have hns := elems_no_slash rooted s hs x hmem
  have hxne : x ≠ [] := by
    rcases List.mem_append.1 hmem with h | h
    · rw [(List.mem_replicate.1 h).2]; simp
    · exact (hs.2 x (List.mem_reverse.1 h)).1
  obtain ⟨c, cs, rfl⟩ := List.exists_cons_of_ne_nil hxne
  have hc : c ≠ '/' := fun e => hns (by simp [e])
  rw [hx]
  cases xs with
  | nil => simp [joinSlash, isRooted, hc]
  | cons y ys => simp [joinSlash, isRooted, hc]

/-- A cleaned path reads as what it was written from. -/
theorem pathState_render (rooted : Bool) (s : CleanState) (hs : s.Canonical rooted) :
    isRooted (s.render rooted) = rooted ∧ pathState (s.render rooted) = s := by
  cases rooted with
  | true =>
    have hr : isRooted (s.render true) = true := by simp [CleanState.render, isRooted]
    refine ⟨hr, ?_⟩
    unfold pathState
    rw [hr]
    simp only [CleanState.render, if_true]
    by_cases hne : s.elems = []
    · have hout : s.out = [] := by
        unfold CleanState.elems at hne
        simpa using (List.append_eq_nil.1 hne).2
      have hz := hs.1 rfl
      rw [hne]
      cases s
      simp at hout hz
      subst hout hz
      rfl
    · have hsp : splitOn '/' ('/' :: joinSlash s.elems) = [] :: s.elems := by
        rw [show ('/' :: joinSlash s.elems) = [] ++ '/' :: joinSlash s.elems from rfl,
          splitOn_append, splitOn_joinSlash _ hne (elems_no_slash true s hs)]
        rfl
      rw [hsp]
      show cleanElems true (cleanStep true ⟨0, []⟩ []) s.elems = s
      have : cleanStep true ⟨0, []⟩ [] = ⟨0, []⟩ := by simp [cleanStep]
      rw [this]
      exact cleanElems_elems true s hs
  | false =>
    by_cases hne : s.elems = []
    · have hout : s.out = [] := by
        unfold CleanState.elems at hne
        simpa using (List.append_eq_nil.1 hne).2
      have hz : s.dotdot = 0 := by
        unfold CleanState.elems at hne
        simpa using (List.append_eq_nil.1 hne).1
      cases s
      simp at hout hz
      subst hout hz
      exact ⟨by decide, by decide⟩
    · have hr : isRooted (s.render false) = false := by
        simp only [CleanState.render, hne, if_false, Bool.false_eq_true]
        exact elems_head_ne_slash false s hs hne
      refine ⟨hr, ?_⟩
      unfold pathState
      rw [hr]
      simp only [CleanState.render, hne, if_false, Bool.false_eq_true]
      rw [splitOn_joinSlash _ hne (elems_no_slash false s hs)]
      exact cleanElems_elems false s hs

theorem cleanStep_from_cwd (A : List Str) (k : Nat) (N : List Str) (e : Str) :
    cleanStep true ⟨0, N ++ A.drop k⟩ e =
      ⟨0, (cleanStep false ⟨k, N⟩ e).out ++ A.drop (cleanStep false ⟨k, N⟩ e).dotdot⟩ := by
  unfold cleanStep
  by_cases hskip : e = [] ∨ e = ['.']
  · simp only [if_pos hskip]
  · simp only [if_neg hskip]
    by_cases hdd : e = ['.', '.']
    · simp only [if_pos hdd]
      cases N with
      | nil =>
        simp only [List.nil_append, Bool.false_eq_true, if_false]
        cases hA : A.drop k with
        | nil =>
          have : A.drop (k + 1) = [] := by
            rw [← List.drop_drop, hA]
            rfl
          simp [this]
        | cons y ys =>
          have : A.drop (k + 1) = ys := by
            rw [← List.drop_drop, hA]
            rfl
          simp [this]
      | cons x rest => simp
    · simp only [if_neg hdd]
      simp

theorem cleanElems_from_cwd (A : List Str) (X : List Str) : ∀ (k : Nat) (N : List Str),
    cleanElems true ⟨0, N ++ A.drop k⟩ X =
      ⟨0, (cleanElems false ⟨k, N⟩ X).out ++ A.drop (cleanElems false ⟨k, N⟩ X).dotdot⟩ := by
  induction X with
  | nil => intro k N; rfl
  | cons x xs ih =>
    intro k N
    show cleanElems true (cleanStep true ⟨0, N ++ A.drop k⟩ x) xs = _
    rw [cleanStep_from_cwd, ih]
    rfl

/-- A path leads where its cleaned form leads. -/
theorem resolve_eq_place (fs : FS) (p : Str) :
    fs.resolve p = fs.place (isRooted p) (pathState p) := by
  unfold FS.resolve FS.place pathState
  cases hr : isRooted p with
  | true => simp
  | false =>
    have := cleanElems_from_cwd fs.cwd.reverse (splitOn '/' p) 0 []
    simp only [List.nil_append, List.drop_zero] at this
    simp only [Bool.false_eq_true, if_false, this]

theorem resolve_Clean (fs : FS) (p : Str) : fs.resolve (Clean p) = fs.resolve p := by
  by_cases hp : p = []
  · subst hp
    simp [Clean, FS.resolve, isRooted, splitOn, cleanElems, cleanStep]
  · have h := pathState_render (isRooted p) (pathState p) (pathState_canonical p)
    rw [resolve_eq_place, resolve_eq_place fs p]
    simp only [Clean, hp, if_false]
    rw [h.1, h.2]

theorem isRooted_append (a b : Str) (h : a ≠ []) : isRooted (a ++ b) = isRooted a := by
  obtain ⟨c, cs, rfl⟩ := List.exists_cons_of_ne_nil h
  rfl

theorem pathState_push (a b : Str) (ha : a ≠ []) (hb : PlainName b) :
    pathState (a ++ '/' :: b) = ⟨(pathState a).dotdot, b :: (pathState a).out⟩ := by
  unfold pathState
  rw [isRooted_append a _ ha, splitOn_append, splitOn_of_not_mem _ b hb.2.1, cleanElems_append]
  show cleanStep _ _ b = _
  rw [cleanStep_plain _ _ b hb]

theorem pathState_trailing (a : Str) (ha : a ≠ []) : pathState (a ++ ['/']) = pathState a := by
  unfold pathState
  have hnil : splitOn '/' ([] : Str) = [[]] := rfl
  rw [isRooted_append a _ ha, splitOn_append, cleanElems_append, hnil]
  simp [cleanElems, cleanStep]

theorem resolve_push (fs : FS) (a b : Str) (ha : a ≠ []) (hb : PlainName b) :
    fs.resolve (a ++ '/' :: b) = fs.resolve a ++ [b] := by
  rw [resolve_eq_place, resolve_eq_place fs a, isRooted_append a _ ha, pathState_push a b ha hb]
  unfold FS.place
  cases isRooted a <;> simp

theorem render_ne_nil (rooted : Bool) (s : CleanState) (hs : s.Canonical rooted) :
    s.render rooted ≠ [] := by
  unfold CleanState.render
  cases rooted with
  | true => simp
  | false =>
    by_cases hne : s.elems = []
    · simp [hne]
    · simp only [Bool.false_eq_true, if_false, hne]
      have := elems_head_ne_slash false s hs hne
      intro h
      obtain ⟨x, xs, hx⟩ := List.exists_cons_of_ne_nil hne
      have hmem : x ∈ s.elems := by rw [hx]; simp
      have hxne : x ≠ [] := by
        rcases List.mem_append.1 hmem with h | h
        · rw [(List.mem_replicate.1 h).2]; simp
        · exact (hs.2 x (List.mem_reverse.1 h)).1
      rw [hx] at h
      cases xs with
      | nil => exact hxne h
      | cons y ys =>
        rw [joinSlash_cons x _ (by simp)] at h
        simp at h

theorem Clean_eq_render (p : Str) (hp : p ≠ []) :
    Clean p = (pathState p).render (isRooted p) := by
  simp [Clean, hp]

theorem Clean_ne_nil (p : Str) : Clean p ≠ [] := by
  unfold Clean
  by_cases hp : p = []
  · simp [hp]
  · rw [if_neg hp]
    exact render_ne_nil _ _ (pathState_canonical p)

theorem Join_pair (a b : Str) (ha : a ≠ []) : Join [a, b] = Clean (a ++ '/' :: b) := by
  simp [Join, List.dropWhile, ha, joinSlash]

theorem resolve_Join (fs : FS) (a b : Str) (ha : a ≠ []) (hb : PlainName b) :
    fs.resolve (Join [a, b]) = fs.resolve a ++ [b] := by
  rw [Join_pair a b ha, resolve_Clean, resolve_push fs a b ha hb]

/-- The path of the walk for an entry leads to that entry. -/
theorem resolve_walkPath (fs : FS) (rel : List Str) (hrel : ∀ n ∈ rel, PlainName n) :
    ∀ root : Str, root ≠ [] →
      walkPath root rel ≠ [] ∧ fs.resolve (walkPath root rel) = fs.resolve root ++ rel := by
  induction rel with
  | nil => intro root hroot; exact ⟨hroot, by simp [walkPath]⟩
  | cons n ns ih =>
    intro root hroot
    have hn := hrel n (by simp)
    have hns : ∀ n ∈ ns, PlainName n := fun x hx => hrel x (by simp [hx])
    have hj : Join [root, n] ≠ [] := by rw [Join_pair root n hroot]; exact Clean_ne_nil _
    obtain ⟨h1, h2⟩ := ih hns (Join [root, n]) hj
    refine ⟨h1, ?_⟩
    show fs.resolve (walkPath (Join [root, n]) ns) = _
    rw [h2, resolve_Join fs root n hroot hn]
    simp

theorem render_push (rooted : Bool) (s : CleanState) (b : Str) (hne : s.elems ≠ []) :
    (⟨s.dotdot, b :: s.out⟩ : CleanState).render rooted = s.render rooted ++ '/' :: b := by
  have helems : (⟨s.dotdot, b :: s.out⟩ : CleanState).elems = s.elems ++ [b] := by
    simp [CleanState.elems]
  have hne2 : s.elems ++ [b] ≠ [] := by simp
  unfold CleanState.render
  rw [helems, joinSlash_append_singleton _ b hne]
  cases rooted with
  | true => simp
  | false => simp [hne]

/-- Cleaning a path of two more plain names: the last name stays behind the
cleaned rest. -/
theorem Clean_push_two (a Y name : Str) (ha : a ≠ []) (hY : PlainName Y)
    (hname : PlainName name) :
    Clean (a ++ '/' :: (Y ++ '/' :: name)) = Clean (a ++ '/' :: Y) ++ '/' :: name := by
  have hassoc : a ++ '/' :: (Y ++ '/' :: name) = (a ++ '/' :: Y) ++ '/' :: name := by simp
  have hne1 : a ++ '/' :: Y ≠ [] := by simp
  have hne2 : (a ++ '/' :: Y) ++ '/' :: name ≠ [] := by simp
  rw [hassoc]
  unfold Clean
  rw [if_neg hne1, if_neg hne2, isRooted_append _ _ hne1, pathState_push _ name hne1 hname]
  apply render_push
  rw [pathState_push a Y ha hY]
  simp [CleanState.elems]

theorem dirPart_push (Z name : Str) (h : '/' ∉ name) : dirPart (Z ++ '/' :: name) = Z ++ ['/'] := by
  unfold dirPart
  have hrev : (Z ++ '/' :: name).reverse = name.reverse ++ '/' :: Z.reverse := by simp
  have hn : '/' ∉ name.reverse := fun hm => h (List.mem_reverse.1 hm)
  rw [hrev, dropWhile_ne_slash _ _ hn]
  simp

/-- The directory of a cleaned path with one more plain name is that cleaned
path. -/
theorem Dir_push (p name : Str) (h : '/' ∉ name) : Dir (Clean p ++ '/' :: name) = Clean p := by
  have hne := Clean_ne_nil p
  have hne2 : Clean p ++ ['/'] ≠ [] := by simp
  by_cases hp : p = []
  · subst hp
    rw [Dir, dirPart_push _ _ h]
    decide
  · have hr := pathState_render (isRooted p) (pathState p) (pathState_canonical p)
    have hc : Clean p = (pathState p).render (isRooted p) := by simp [Clean, hp]
    rw [Dir, dirPart_push _ _ h]
    show Clean (Clean p ++ ['/']) = Clean p
    rw [Clean_eq_render _ hne2, isRooted_append _ _ hne, pathState_trailing _ hne, hc, hr.1, hr.2]

/-! ## Where an image is moved -/

/-- The destination of an image lies in the directory of its year below the
destination root, and the directory made for it is that directory. -/
theorem destination_shape (dst p e : Str) (t : Time) (hdst : dst ≠ []) (he : '/' ∉ e) :
    Join [dst, (NewImage p e t).ToPath] =
        Join [dst, Sprintf02d t.year] ++
          '/' :: (SprintfStamp t.year t.month t.day t.hour t.min t.sec ++ e) ∧
      Dir (Join [dst, (NewImage p e t).ToPath]) = Join [dst, Sprintf02d t.year] := by
  have hY := Sprintf02d_plain t.year
  have hname := fileName_plain t.year t.month t.day t.hour t.min t.sec e he
  have h1 : Join [dst, (NewImage p e t).ToPath] =
      Join [dst, Sprintf02d t.year] ++
        '/' :: (SprintfStamp t.year t.month t.day t.hour t.min t.sec ++ e) := by
    rw [NewImage_ToPath p e t he, Join_pair dst _ hdst, Join_pair dst _ hdst,
      Clean_push_two dst _ _ hdst hY hname]
  refine ⟨h1, ?_⟩
  rw [h1, Join_pair dst _ hdst]
  exact Dir_push _ _ hname.2.1

theorem destination_resolve (fs : FS) (dst p e : Str) (t : Time) (hdst : dst ≠ [])
    (he : '/' ∉ e) :
    fs.resolve (Join [dst, (NewImage p e t).ToPath]) =
        fs.resolve dst ++
          [Sprintf02d t.year, SprintfStamp t.year t.month t.day t.hour t.min t.sec ++ e] ∧
      fs.resolve (Dir (Join [dst, (NewImage p e t).ToPath])) =
        fs.resolve dst ++ [Sprintf02d t.year] := by
  have hY := Sprintf02d_plain t.year
  have hname := fileName_plain t.year t.month t.day t.hour t.min t.sec e he
  obtain ⟨h1, h2⟩ := destination_shape dst p e t hdst he
  have hj : Join [dst, Sprintf02d t.year] ≠ [] := by
    rw [Join_pair dst _ hdst]; exact Clean_ne_nil _
  rw [h2, h1, resolve_push fs _ _ hj hname, resolve_Join fs dst _ hdst hY]
  simp

theorem Ext_jpg (w : Str) : Ext (w ++ ".jpg".toList) = ".jpg".toList := by
  simp [Ext, extLoop]

theorem Ext_jpeg (w : Str) : Ext (w ++ ".jpeg".toList) = ".jpeg".toList := by
  simp [Ext, extLoop]

theorem destination_extension (dst p e : Str) (t : Time)
    (he : e = ".jpg".toList ∨ e = ".jpeg".toList) :
    Ext (Join [dst, (NewImage p e t).ToPath]) = e ∧
      e <:+ Join [dst, (NewImage p e t).ToPath] := by
  have hsep : '/' ∉ e := by rcases he with rfl | rfl <;> decide
  have hsuffix : e <:+ Join [dst, (NewImage p e t).ToPath] := by
    by_cases hdst : dst = []
    · subst hdst
      have hT := NewImage_ToPath p e t hsep
      have hclean : Join [[], (NewImage p e t).ToPath] = (NewImage p e t).ToPath := by
        have hne : (NewImage p e t).ToPath ≠ [] := by rw [hT]; simp
        have hY := Sprintf02d_plain t.year
        have hname := fileName_plain t.year t.month t.day t.hour t.min t.sec e hsep
        have hj := Join_plain_pair _ _ hY hname
        rw [Join_pair _ _ hY.1] at hj
        simp only [Join, List.dropWhile, decide_True, hne, decide_False, joinSlash]
        rw [hT]
        exact hj
      rw [hclean, hT]
      exact ⟨Sprintf02d t.year ++ '/' :: SprintfStamp t.year t.month t.day t.hour t.min t.sec,
        by simp⟩
    · rw [(destination_shape dst p e t hdst hsep).1]
      exact ⟨Join [dst, Sprintf02d t.year] ++
        '/' :: SprintfStamp t.year t.month t.day t.hour t.min t.sec, by simp⟩
  refine ⟨?_, hsuffix⟩
  obtain ⟨w, hw⟩ := hsuffix
  rw [← hw]
  rcases he with rfl | rfl
  · exact Ext_jpg w
  · exact Ext_jpeg w

/-! ## The file system under the calls of a run -/

theorem filter_insertEntry (q : List Str × Node → Bool) (e : List Str × Node)
    (l : List (List Str × Node)) (h : q e = false) :
    (insertEntry e l).filter q = l.filter q := by
  induction l with
  | nil => simp [insertEntry, h]
  | cons x xs ih =>
    unfold insertEntry
    split
    · simp [List.filter_cons, h]
    · simp [List.filter_cons, ih]

theorem find?_insertEntry (e : List Str × Node) (l : List (List Str × Node)) (k : List Str)
    (hnew : ∀ x ∈ l, x.1 ≠ e.1) :
    (insertEntry e l).find? (fun x => decide (x.1 = k)) =
      if e.1 = k then some e else l.find? (fun x => decide (x.1 = k)) := by
  induction l with
  | nil => by_cases hek : e.1 = k <;> simp [insertEntry, List.find?, hek]
  | cons x xs ih =>
    have hx : x.1 ≠ e.1 := hnew x (by simp)
    have hxs : ∀ y ∈ xs, y.1 ≠ e.1 := fun y hy => hnew y (by simp [hy])
    unfold insertEntry
    split
    · by_cases hek : e.1 = k
      · simp [List.find?, hek]
      · simp [List.find?, hek]
    · by_cases hxk : x.1 = k
      · have hek : e.1 ≠ k := fun h => hx (hxk.trans h.symm)
        simp [List.find?, hxk, hek]
      · simp only [List.find?, hxk, decide_False]
        exact ih hxs

theorem find?_removeKey (k k2 : List Str) (l : List (List Str × Node)) (h : k ≠ k2) :
    (removeKey k2 l).find? (fun x => decide (x.1 = k)) =
      l.find? (fun x => decide (x.1 = k)) := by
  induction l with
  | nil => rfl
  | cons x xs ih =>
    by_cases hxk : x.1 = k
    · have : x.1 ≠ k2 := fun e => h (hxk.symm.trans e)
      simp [removeKey, List.filter_cons, this, List.find?, hxk, h]
    · by_cases hx2 : x.1 = k2
      · simp only [removeKey, List.filter_cons, hx2, ne_eq, not_true_eq_false, decide_False,
          Bool.false_eq_true, if_false, List.find?]
        have hk2 : ¬ k2 = k := fun e => h e.symm
        simp only [hk2, decide_False]
        exact ih
      · simp only [removeKey, List.filter_cons, ne_eq, hx2, not_false_eq_true, decide_True,
          if_true, List.find?, hxk, decide_False]
        exact ih

theorem removeKey_no_key (k : List Str) (l : List (List Str × Node)) :
    ∀ x ∈ removeKey k l, x.1 ≠ k := by
  intro x hx
  simpa [removeKey] using (List.mem_filter.1 hx).2

theorem node_eq_none (fs : FS) (k : List Str) (h : fs.node k = none) :
    k ≠ [] ∧ ∀ x ∈ fs.entries, x.1 ≠ k := by
  unfold FS.node at h
  by_cases hk : k = []
  · simp [hk] at h
  · refine ⟨hk, ?_⟩
    simp only [hk, if_false, Option.map_eq_none'] at h
    intro x hx
    have := List.find?_eq_none.1 h x hx
    simpa using this

/-- What `Mkdir` changes: nothing but the entry it makes. -/
theorem mkdir_node (fs : FS) (k k2 : List Str) :
    (fs.mkdir k).node k2 = if k2 = k then some ((fs.node k).getD Node.dir) else fs.node k2 := by
  unfold FS.mkdir
  cases hn : fs.node k with
  | some n =>
    by_cases hk : k2 = k
    · simp [hk, hn]
    · simp [hk]
  | none =>
    obtain ⟨hne, hnew⟩ := node_eq_none fs k hn
    by_cases hk2 : k2 = []
    · have : k2 ≠ k := fun e => hne (e ▸ hk2)
      simp [FS.node, hk2, this]
    · simp only [FS.node, hk2, if_false]
      rw [find?_insertEntry _ _ _ (fun x hx => hnew x hx)]
      by_cases hk : k2 = k
      · simp [hk]
      · have : ¬ k = k2 := fun e => hk e.symm
        simp [hk, this]

theorem mkdir_cwd (fs : FS) (k : List Str) : (fs.mkdir k).cwd = fs.cwd := by
  unfold FS.mkdir
  split <;> rfl

theorem mkdir_filter (fs : FS) (k : List Str) (q : List Str × Node → Bool)
    (h : q (k, Node.dir) = false) : (fs.mkdir k).entries.filter q = fs.entries.filter q := by
  unfold FS.mkdir
  split
  · rfl
  · exact filter_insertEntry q _ _ h

theorem mkdirs_cwd (ks : List (List Str)) : ∀ fs : FS, (ks.foldl FS.mkdir fs).cwd = fs.cwd := by
  induction ks with
  | nil => intro fs; rfl
  | cons k ks ih => intro fs; rw [List.foldl_cons, ih, mkdir_cwd]

theorem mkdirs_filter (q : List Str × Node → Bool) (ks : List (List Str))
    (h : ∀ k ∈ ks, q (k, Node.dir) = false) :
    ∀ fs : FS, (ks.foldl FS.mkdir fs).entries.filter q = fs.entries.filter q := by
  induction ks with
  | nil => intro fs; rfl
  | cons k ks ih =>
    intro fs
    rw [List.foldl_cons, ih (fun x hx => h x (by simp [hx])), mkdir_filter fs k q (h k (by simp))]

theorem mkdirs_dir (ks : List (List Str)) : ∀ (fs : FS) (k : List Str),
    fs.node k = some Node.dir → (ks.foldl FS.mkdir fs).node k = some Node.dir := by
  induction ks with
  | nil => intro fs k h; exact h
  | cons x xs ih =>
    intro fs k h
    rw [List.foldl_cons]
    apply ih
    rw [mkdir_node]
    by_cases hk : k = x
    · subst hk; simp [h]
    · simp [hk, h]

theorem mkdirs_made (ks : List (List Str)) : ∀ fs : FS,
    (∀ k ∈ ks, (fs.node k).any Node.isFile = false) →
      ∀ k ∈ ks, (ks.foldl FS.mkdir fs).node k = some Node.dir := by
  induction ks with
  | nil => intro fs _ k hk; simp at hk
  | cons x xs ih =>
    intro fs hfile k hk
    rw [List.foldl_cons]
    have hx : (fs.mkdir x).node x = some Node.dir := by
      rw [mkdir_node]
      have := hfile x (by simp)
      cases hn : fs.node x with
      | none => simp
      | some n =>
        cases n with
        | dir => simp
        | file r c => simp [hn, Node.isFile] at this
    rcases List.mem_cons.1 hk with rfl | hk
    · exact mkdirs_dir xs _ _ hx
    · apply ih _ _ k hk
      intro y hy
      rw [mkdir_node]
      by_cases hyx : y = x
      · subst hyx
        rw [mkdir_node] at hx
        simp only [if_true] at hx ⊢
        rw [hx]; rfl
      · simp only [hyx, if_false]
        exact hfile y (by simp [hy])

theorem mkdirs_node_some (ks : List (List Str)) : ∀ (fs : FS) (k : List Str) (n : Node),
    fs.node k = some n → (ks.foldl FS.mkdir fs).node k = some n := by
  induction ks with
  | nil => intro fs k n h; exact h
  | cons x xs ih =>
    intro fs k n h
    rw [List.foldl_cons]
    apply ih
    rw [mkdir_node]
    by_cases hk : k = x
    · subst hk; simp [h]
    · simp [hk, h]

theorem mkdirAll_cases (fs : FS) (path : Str) :
    ((fs.mkdirAll path).2 = none ∧
        (fs.mkdirAll path).1 = (ancestors (fs.resolve path)).foldl FS.mkdir fs ∧
        ∀ k ∈ ancestors (fs.resolve path), (fs.node k).any Node.isFile = false) ∨
      ∃ e, (fs.mkdirAll path).2 = some e ∧ IsExist e = false := by
  unfold FS.mkdirAll
  by_cases hp : path = []
  · exact Or.inr ⟨Errno.ENOENT, by simp [hp], rfl⟩
  · by_cases hf : (ancestors (fs.resolve path)).any (fun k => (fs.node k).any Node.isFile) = true
    · exact Or.inr ⟨Errno.ENOTDIR, by simp [hp, hf], rfl⟩
    · refine Or.inl ?_
      simp only [hp, if_false, hf]
      refine ⟨rfl, rfl, ?_⟩
      intro k hk
      by_contra hne
      exact hf (List.any_eq_true.2 ⟨k, hk, by simpa using hne⟩)

theorem find?_filter_imp {α : Type} (p q : α → Bool) (l : List α)
    (h : ∀ x, p x = true → q x = true) : (l.filter q).find? p = l.find? p := by
  induction l with
  | nil => rfl
  | cons x xs ih =>
    by_cases hq : q x = true
    · simp only [List.filter_cons, hq, if_true, List.find?, ih]
    · have hp : p x = false := by
        cases hpx : p x with
        | false => rfl
        | true => exact absurd (h x hpx) hq
      simp only [List.filter_cons, hq, Bool.false_eq_true, if_false, List.find?, hp, ih]

theorem below_ne (r k k2 : List Str) (h1 : below r k = true) (h2 : below r k2 = false) :
    k ≠ k2 := by
  intro e
  rw [e, h2] at h1
  cases h1

theorem below_ne_nil (r k : List Str) (h : below r k = true) : k ≠ [] := by
  intro e
  subst e
  simp [below] at h

theorem node_of_filter (fs : FS) (r k : List Str) (hk : below r k = true) :
    fs.node k =
      ((fs.entries.filter (fun e => below r e.1)).find? (fun e => decide (e.1 = k))).map
        (fun e => e.2) := by
  unfold FS.node
  rw [if_neg (below_ne_nil r k hk), find?_filter_imp]
  intro x hx
  have : x.1 = k := by simpa using hx
  rw [this]
  exact hk

/-- Below the source, what has not been moved is what it was. -/
theorem kept_node (r : List Str) (gone : List (List Str)) (fs cur : FS)
    (h : FS.Kept r gone fs cur) (k : List Str) (hk : below r k = true) (hg : k ∉ gone) :
    cur.node k = fs.node k := by
  rw [node_of_filter cur r k hk, node_of_filter fs r k hk, h.2.1, find?_filter_imp]
  intro x hx
  have : x.1 = k := by simpa using hx
  rw [this]
  simpa using hg

theorem resolve_congr (fs cur : FS) (h : cur.cwd = fs.cwd) (p : Str) :
    cur.resolve p = fs.resolve p := by
  unfold FS.resolve
  rw [h]

theorem kept_refl (r : List Str) (fs : FS) : FS.Kept r [] fs fs := by
  refine ⟨rfl, ?_, fun _ h => h⟩
  simp

theorem filter_removeKeys (r ka kb : List Str) (l : List (List Str × Node))
    (hb : below r kb = false) :
    (removeKey kb (removeKey ka l)).filter (fun e => below r e.1) =
      (l.filter (fun e => below r e.1)).filter (fun e => decide (e.1 ≠ ka)) := by
  unfold removeKey
  rw [List.filter_filter, List.filter_filter, List.filter_filter]
  apply List.filter_congr
  intro x _
  by_cases hx : below r x.1 = true
  · have hne : x.1 ≠ kb := below_ne r x.1 kb hx hb
    by_cases hxa : x.1 = ka <;> simp [hx, hne, hxa]
  · simp [hx]

/-- What a successful `Rename` of a file changes: nothing but the entries
under its two paths; directories stay. -/
theorem rename_file (fs : FS) (a b : Str) (rd : Bool) (c : FileContent)
    (hfile : fs.node (fs.resolve a) = some (Node.file rd c))
    (hok : (fs.rename a b).2 = none) :
    (fs.rename a b).1.cwd = fs.cwd ∧
      (∀ r, below r (fs.resolve b) = false →
        (fs.rename a b).1.entries.filter (fun e => below r e.1) =
          (fs.entries.filter (fun e => below r e.1)).filter
            (fun e => decide (e.1 ≠ fs.resolve a))) ∧
      ∀ k, fs.node k = some Node.dir → (fs.rename a b).1.node k = some Node.dir := by
  unfold FS.rename at hok ⊢
  by_cases hempty : a = [] ∨ b = []
  · simp [hempty] at hok
  · simp only [hempty, if_false, hfile] at hok ⊢
    cases hpar : fs.node (fs.resolve b).dropLast with
    | none => simp [hpar] at hok
    | some par =>
      cases par with
      | file r2 c2 => simp [hpar] at hok
      | dir =>
        simp only [hpar] at hok ⊢
        have hsame : ∀ r, below r (fs.resolve b) = false → fs.resolve a = fs.resolve b →
            fs.entries.filter (fun e => below r e.1) =
              (fs.entries.filter (fun e => below r e.1)).filter
                (fun e => decide (e.1 ≠ fs.resolve a)) := by
          intro r hb hab
          symm
          apply List.filter_eq_self.2
          intro x hx
          have hx2 := (List.mem_filter.1 hx).2
          have := below_ne r x.1 (fs.resolve b) hx2 hb
          rw [hab]
          simpa using this
        have hmoved : ∀ k, fs.node k = some Node.dir →
            fs.node (fs.resolve b) ≠ some Node.dir →
            FS.node ⟨fs.cwd, insertEntry (fs.resolve b, Node.file rd c)
              (removeKey (fs.resolve b) (removeKey (fs.resolve a) fs.entries))⟩ k =
              some Node.dir := by
          intro k hk hbdir
          have hka : k ≠ fs.resolve a := by
            intro e; rw [e, hfile] at hk; cases hk
          have hkb : k ≠ fs.resolve b := by
            intro e; rw [e] at hk; exact hbdir hk
          by_cases hnil : k = []
          · simp [FS.node, hnil]
          · have hkb2 : ¬ fs.resolve b = k := fun e => hkb e.symm
            unfold FS.node at hk ⊢
            simp only [hnil, if_false] at hk ⊢
            rw [find?_insertEntry _ _ _ (removeKey_no_key _ _)]
            simp only [hkb2, if_false]
            rw [find?_removeKey k _ _ hkb, find?_removeKey k _ _ hka]
            exact hk
        cases hnb : fs.node (fs.resolve b) with
        | none =>
          simp only [hnb] at hok ⊢
          by_cases hab : fs.resolve a = fs.resolve b
          · simp only [hab, if_true]
            exact ⟨trivial, fun r hb => by simpa [hab] using hsame r hb hab, fun k hk => hk⟩
          · simp only [hab, if_false]
            refine ⟨trivial, fun r hb => ?_, fun k hk => hmoved k hk (by rw [hnb]; simp)⟩
            show (insertEntry _ _).filter _ = _
            rw [filter_insertEntry _ _ _ (by simpa using hb)]
            exact filter_removeKeys r _ _ _ hb
        | some nb =>
          cases nb with
          | dir => simp [hnb] at hok
          | file r3 c3 =>
            simp only [hnb] at hok ⊢
            by_cases hab : fs.resolve a = fs.resolve b
            · simp only [hab, if_true]
              exact ⟨trivial, fun r hb => by simpa [hab] using hsame r hb hab, fun k hk => hk⟩
            · simp only [hab, if_false]
              refine ⟨trivial, fun r hb => ?_, fun k hk => hmoved k hk (by rw [hnb]; simp)⟩
              show (insertEntry _ _).filter _ = _
              rw [filter_insertEntry _ _ _ (by simpa using hb)]
              exact filter_removeKeys r _ _ _ hb

/-- What a successful `Rename` of a file leaves under its new path, and that
it leaves a file wherever there was one, its old path apart. -/
theorem rename_file_nodes (fs : FS) (a b : Str) (rd : Bool) (c : FileContent)
    (hfile : fs.node (fs.resolve a) = some (Node.file rd c))
    (hok : (fs.rename a b).2 = none) :
    (fs.rename a b).1.node (fs.resolve b) = some (Node.file rd c) ∧
      ∀ k, k ≠ fs.resolve a → (fs.node k).any Node.isFile = true →
        ((fs.rename a b).1.node k).any Node.isFile = true := by
  unfold FS.rename at hok ⊢
  by_cases hempty : a = [] ∨ b = []
  · simp [hempty] at hok
  · simp only [hempty, if_false, hfile] at hok ⊢
    cases hpar : fs.node (fs.resolve b).dropLast with
    | none => simp [hpar] at hok
    | some par =>
      cases par with
      | file r2 c2 => simp [hpar] at hok
      | dir =>
        simp only [hpar] at hok ⊢
        have hnew : fs.node (fs.resolve b) ≠ some Node.dir →
            FS.node ⟨fs.cwd, insertEntry (fs.resolve b, Node.file rd c)
              (removeKey (fs.resolve b) (removeKey (fs.resolve a) fs.entries))⟩
              (fs.resolve b) = some (Node.file rd c) ∧
            ∀ k, k ≠ fs.resolve a → (fs.node k).any Node.isFile = true →
              (FS.node ⟨fs.cwd, insertEntry (fs.resolve b, Node.file rd c)
                (removeKey (fs.resolve b) (removeKey (fs.resolve a) fs.entries))⟩ k).any
                Node.isFile = true := by
          intro hbdir
          have hbnil : fs.resolve b ≠ [] := by
            intro e
            apply hbdir
            simp [FS.node, e]
          have hb : FS.node ⟨fs.cwd, insertEntry (fs.resolve b, Node.file rd c)
              (removeKey (fs.resolve b) (removeKey (fs.resolve a) fs.entries))⟩
              (fs.resolve b) = some (Node.file rd c) := by
            unfold FS.node
            simp only [hbnil, if_false]
            rw [find?_insertEntry _ _ _ (removeKey_no_key _ _)]
            simp
          refine ⟨hb, ?_⟩
          intro k hka hk
          by_cases hkb : k = fs.resolve b
          · rw [hkb, hb]; rfl
          · have hnil : k ≠ [] := by
              intro e
              rw [e] at hk
              simp [FS.node, Node.isFile] at hk
            have hkb2 : ¬ fs.resolve b = k := fun e => hkb e.symm
            unfold FS.node at hk ⊢
            simp only [hnil, if_false] at hk ⊢
            rw [find?_insertEntry _ _ _ (removeKey_no_key _ _)]
            simp only [hkb2, if_false]
            rw [find?_removeKey k _ _ hkb, find?_removeKey k _ _ hka]
            exact hk
        cases hnb : fs.node (fs.resolve b) with
        | none =>
          simp only [hnb] at hok ⊢
          by_cases hab : fs.resolve a = fs.resolve b
          · rw [hab, hnb] at hfile
            cases hfile
          · simp only [hab, if_false]
            exact hnew (by rw [hnb]; simp)
        | some nb =>
          cases nb with
          | dir => simp [hnb] at hok
          | file r3 c3 =>
            simp only [hnb] at hok ⊢
            by_cases hab : fs.resolve a = fs.resolve b
            · simp only [hab, if_true]
              refine ⟨by rw [← hab]; exact hfile, fun k _ hk => hk⟩
            · simp only [hab, if_false]
              exact hnew (by rw [hnb]; simp)

/-- Below the source, nothing is left under the path of a file that was
moved. -/
theorem kept_gone (r : List Str) (gone : List (List Str)) (fs cur : FS)
    (h : FS.Kept r gone fs cur) (k : List Str) (hk : below r k = true) (hg : k ∈ gone) :
    cur.node k = none := by
  rw [node_of_filter cur r k hk, h.2.1]
  have : ((fs.entries.filter (fun e => below r e.1)).filter
      (fun e => decide (e.1 ∉ gone))).find? (fun e => decide (e.1 = k)) = none := by
    apply List.find?_eq_none.2
    intro x hx hxk
    have h1 := (List.mem_filter.1 hx).2
    have h2 : x.1 = k := by simpa using hxk
    rw [h2] at h1
    simp [hg] at h1
  rw [this]
  rfl

/-! ## The Relocator -/

theorem moveImagesLoop_cons_ok {σ : Type} (os : OS σ) (dest : Str) (n : Nat) (s : σ)
    (image : Image) (rest : List Image)
    (hmk : ∀ err, (os.mkdirAll s (Dir (Join [dest, image.ToPath]))).2 = some err →
      IsExist err = true)
    (hrn : (os.rename (os.mkdirAll s (Dir (Join [dest, image.ToPath]))).1 image.FromPath
      (Join [dest, image.ToPath])).2 = none) :
    moveImagesLoop os dest n s (image :: rest) =
      (moveImagesLoop os dest (n + 1)
        (os.rename (os.mkdirAll s (Dir (Join [dest, image.ToPath]))).1 image.FromPath
          (Join [dest, image.ToPath])).1 rest).after (callsFor dest image) := by
  have hfilter : Option.filter (fun err => !IsExist err)
      (os.mkdirAll s (Dir (Join [dest, image.ToPath]))).2 = none := by
    cases hm : (os.mkdirAll s (Dir (Join [dest, image.ToPath]))).2 with
    | none => rfl
    | some err => simp [Option.filter, hmk err hm]
  rw [moveImagesLoop]
  simp only [hfilter, hrn]
  rfl

theorem moveImagesLoop_cons_fatal {σ : Type} (os : OS σ) (dest : Str) (n : Nat) (s : σ)
    (image : Image) (rest : List Image)
    (h : ¬ ((∀ err, (os.mkdirAll s (Dir (Join [dest, image.ToPath]))).2 = some err →
        IsExist err = true) ∧
      (os.rename (os.mkdirAll s (Dir (Join [dest, image.ToPath]))).1 image.FromPath
        (Join [dest, image.ToPath])).2 = none)) :
    (moveImagesLoop os dest n s (image :: rest)).fatal ≠ none := by
  rw [moveImagesLoop]
  simp only
  cases hm : (os.mkdirAll s (Dir (Join [dest, image.ToPath]))).2 with
  | none =>
    simp only [Option.filter]
    cases hr : (os.rename (os.mkdirAll s (Dir (Join [dest, image.ToPath]))).1 image.FromPath
        (Join [dest, image.ToPath])).2 with
    | none => exact absurd ⟨(by intro err he; rw [hm] at he; cases he), hr⟩ h
    | some e => simp
  | some err =>
    by_cases hex : IsExist err = true
    · simp only [Option.filter, hex, Bool.not_true, Bool.false_eq_true, if_false]
      cases hr : (os.rename (os.mkdirAll s (Dir (Join [dest, image.ToPath]))).1 image.FromPath
          (Join [dest, image.ToPath])).2 with
      | none =>
        exact absurd ⟨(by intro e he; rw [hm] at he; cases he; exact hex), hr⟩ h
      | some e => simp
    · simp [Option.filter, hex]

theorem noMoveFails_cons {σ : Type} (os : OS σ) (dest : Str) (s : σ) (image : Image)
    (rest : List Image) :
    noMoveFails os dest s (image :: rest) = true ↔
      (∀ err, (os.mkdirAll s (Dir (Join [dest, image.ToPath]))).2 = some err →
        IsExist err = true) ∧
      (os.rename (os.mkdirAll s (Dir (Join [dest, image.ToPath]))).1 image.FromPath
        (Join [dest, image.ToPath])).2 = none ∧
      noMoveFails os dest
        (os.rename (os.mkdirAll s (Dir (Join [dest, image.ToPath]))).1 image.FromPath
          (Join [dest, image.ToPath])).1 rest = true := by
  rw [noMoveFails]
  simp only [Bool.and_eq_true, Option.isNone_iff_eq_none, and_assoc]
  constructor
  · rintro ⟨h1, h2, h3⟩
    refine ⟨?_, h2, h3⟩
    intro err he
    rw [he] at h1
    exact h1
  · rintro ⟨h1, h2, h3⟩
    refine ⟨?_, h2, h3⟩
    cases hm : (os.mkdirAll s (Dir (Join [dest, image.ToPath]))).2 with
    | none => rfl
    | some err => exact h1 err hm

theorem moveImagesLoop_ok {σ : Type} (os : OS σ) (dest : Str) (images : List Image) :
    ∀ (n : Nat) (s : σ), noMoveFails os dest s images = true →
      (moveImagesLoop os dest n s images).calls = images.flatMap (callsFor dest) ∧
        (moveImagesLoop os dest n s images).count = n + images.length ∧
        (moveImagesLoop os dest n s images).fatal = none ∧
        (moveImagesLoop os dest n s images).summary = some (n + images.length) := by
  induction images with
  | nil => intro n s _; exact ⟨rfl, rfl, rfl, rfl⟩
  | cons image rest ih =>
    intro n s h
    obtain ⟨hmk, hrn, hrest⟩ := (noMoveFails_cons os dest s image rest).1 h
    rw [moveImagesLoop_cons_ok os dest n s image rest hmk hrn]
    obtain ⟨h1, h2, h3, h4⟩ := ih (n + 1) _ hrest
    refine ⟨?_, ?_, ?_, ?_⟩
    · simp only [Moved.after, h1, List.flatMap_cons]
    · simp only [Moved.after, h2, List.length_cons]; omega
    · exact h3
    · simp only [Moved.after, h4, List.length_cons, Option.some.injEq]; omega

theorem moveImagesLoop_fatal {σ : Type} (os : OS σ) (dest : Str) (images : List Image) :
    ∀ (n : Nat) (s : σ), (moveImagesLoop os dest n s images).fatal = none →
      noMoveFails os dest s images = true := by
  induction images with
  | nil => intro n s _; rfl
  | cons image rest ih =>
    intro n s h
    by_cases hstep : (∀ err, (os.mkdirAll s (Dir (Join [dest, image.ToPath]))).2 = some err →
        IsExist err = true) ∧
      (os.rename (os.mkdirAll s (Dir (Join [dest, image.ToPath]))).1 image.FromPath
        (Join [dest, image.ToPath])).2 = none
    · rw [moveImagesLoop_cons_ok os dest n s image rest hstep.1 hstep.2] at h
      exact (noMoveFails_cons os dest s image rest).2 ⟨hstep.1, hstep.2, ih (n + 1) _ h⟩
    · exact absurd h (moveImagesLoop_cons_fatal os dest n s image rest hstep)

theorem moveImagesLoop_state {σ : Type} (os : OS σ) (dest : Str) (images : List Image) :
    ∀ (n : Nat) (s : σ), (moveImagesLoop os dest n s images).state =
      (moveImagesLoop os dest n s images).calls.foldl (Call.perform os) s := by
  induction images with
  | nil => intro n s; rfl
  | cons image rest ih =>
    intro n s
    by_cases hstep : (∀ err, (os.mkdirAll s (Dir (Join [dest, image.ToPath]))).2 = some err →
        IsExist err = true) ∧
      (os.rename (os.mkdirAll s (Dir (Join [dest, image.ToPath]))).1 image.FromPath
        (Join [dest, image.ToPath])).2 = none
    · rw [moveImagesLoop_cons_ok os dest n s image rest hstep.1 hstep.2]
      show (moveImagesLoop os dest (n + 1) _ rest).state = _
      rw [ih]
      rfl
    · rw [moveImagesLoop]
      simp only
      cases hm : (os.mkdirAll s (Dir (Join [dest, image.ToPath]))).2 with
      | none =>
        simp only [Option.filter]
        cases hr : (os.rename (os.mkdirAll s (Dir (Join [dest, image.ToPath]))).1
            image.FromPath (Join [dest, image.ToPath])).2 with
        | none => exact absurd ⟨(by intro err he; rw [hm] at he; cases he), hr⟩ hstep
        | some e => rfl
      | some err =>
        by_cases hex : IsExist err = true
        · simp only [Option.filter, hex, Bool.not_true, Bool.false_eq_true, if_false]
          cases hr : (os.rename (os.mkdirAll s (Dir (Join [dest, image.ToPath]))).1
              image.FromPath (Join [dest, image.ToPath])).2 with
          | none =>
            exact absurd ⟨(by intro e he; rw [hm] at he; cases he; exact hex), hr⟩ hstep
          | some e => rfl
        · simp only [Option.filter, hex, Bool.not_false, if_true]
          rfl

/-- C7: when no `MkdirAll` fails with an error other than one `os.IsExist`
accepts and no `Rename` fails, `moveImages` makes, for each Image in the order
received, the call `MkdirAll` on the parent of `D` and then the call `Rename`
from `FromPath` to `D`, `D` being the destination root joined with `ToPath`,
and nothing else; it does not halt, and `movedCount`, which its summary
prints, is the number of Images received.  It is only in that case that it
does not halt.  The state it leaves is the state its calls leave, made on the
operating system one after the other; and on the file system a `MkdirAll` that
succeeds leaves a directory at every step of the way to its path. -/
theorem moveImages_calls {σ : Type} (os : OS σ) (s : σ) (m : ImageMover) (images : List Image) :
    (noMoveFails os m.destinationDirectory s images = true ↔
        (m.moveImages os s images).fatal = none) ∧
      (noMoveFails os m.destinationDirectory s images = true →
        (m.moveImages os s images).calls =
            images.flatMap (fun image =>
              [Call.mkdirAll (Dir (Join [m.destinationDirectory, image.ToPath])),
                Call.rename image.FromPath (Join [m.destinationDirectory, image.ToPath])]) ∧
          (m.moveImages os s images).count = images.length ∧
          (m.moveImages os s images).summary = some images.length) ∧
      (m.moveImages os s images).state =
        (m.moveImages os s images).calls.foldl (Call.perform os) s ∧
      ∀ (fs : FS) (dir : Str), (unix.mkdirAll fs dir).2 = none →
        ∀ k ∈ ancestors (fs.resolve dir), (unix.mkdirAll fs dir).1.node k = some Node.dir := by
  refine ⟨⟨fun h => (moveImagesLoop_ok os _ images 0 s h).2.2.1,
    moveImagesLoop_fatal os _ images 0 s⟩, fun h => ?_, moveImagesLoop_state os _ images 0 s, ?_⟩
  · obtain ⟨h1, h2, _, h4⟩ := moveImagesLoop_ok os _ images 0 s h
    refine ⟨h1, ?_, ?_⟩
    · simpa [ImageMover.moveImages] using h2
    · simpa [ImageMover.moveImages] using h4
  · intro fs dir hok k hk
    rcases mkdirAll_cases fs dir with ⟨_, hstate, hnofile⟩ | ⟨err, herr, _⟩
    · show (fs.mkdirAll dir).1.node k = _
      rw [hstate]
      exact mkdirs_made _ _ hnofile k hk
    · have hok2 : (fs.mkdirAll dir).2 = none := hok
      rw [herr] at hok2
      cases hok2

/-- C7 on two images, the directory of the second answering that it exists
already: four calls in order, and two files moved. -/
theorem moveImages_calls_witness :
    noMoveFails sampleOS "out".toList []
        [NewImage "in/photo.JPG".toList ".jpg".toList capture2023,
          NewImage "in/z.jpeg".toList ".jpeg".toList captureYear5] = true ∧
      (sampleOS.mkdirAll [] "out/05".toList).2 = some Errno.EEXIST ∧
      ((NewImageMover "in".toList "out".toList).moveImages sampleOS []
        [NewImage "in/photo.JPG".toList ".jpg".toList capture2023,
          NewImage "in/z.jpeg".toList ".jpeg".toList captureYear5]).calls =
        [Call.mkdirAll "out/2023".toList,
          Call.rename "in/photo.JPG".toList "out/2023/2023.03.05_14.07.09.jpg".toList,
          Call.mkdirAll "out/05".toList,
          Call.rename "in/z.jpeg".toList "out/05/05.03.05_14.07.09.jpeg".toList] ∧
      ((NewImageMover "in".toList "out".toList).moveImages sampleOS []
        [NewImage "in/photo.JPG".toList ".jpg".toList capture2023,
          NewImage "in/z.jpeg".toList ".jpeg".toList captureYear5]).count = 2 ∧
      ((NewImageMover "in".toList "out".toList).moveImages sampleOS []
        [NewImage "in/photo.JPG".toList ".jpg".toList capture2023,
          NewImage "in/z.jpeg".toList ".jpeg".toList captureYear5]).state =
        [Call.mkdirAll "out/2023".toList,
          Call.rename "in/photo.JPG".toList "out/2023/2023.03.05_14.07.09.jpg".toList,
          Call.mkdirAll "out/05".toList,
          Call.rename "in/z.jpeg".toList "out/05/05.03.05_14.07.09.jpeg".toList] ∧
      unix.stat ((NewImageMover "in".toList "out".toList).moveImages unix photoFS
        [NewImage "in/photo.JPG".toList ".jpg".toList capture2023]).state
        "out/2023".toList = .ok ⟨true⟩ ∧
      unix.stat ((NewImageMover "in".toList "out".toList).moveImages unix photoFS
        [NewImage "in/photo.JPG".toList ".jpg".toList capture2023]).state
        "out/2023/2023.03.05_14.07.09.jpg".toList = .ok ⟨false⟩ := by
  have h := moveImages_calls sampleOS [] (NewImageMover "in".toList "out".toList)
    [NewImage "in/photo.JPG".toList ".jpg".toList capture2023,
      NewImage "in/z.jpeg".toList ".jpeg".toList captureYear5]
  have h2 := h.2.1 (by decide)
  exact ⟨by decide, by decide, h2.1.trans (by decide), h2.2.1, h.2.2.1.trans (by decide),
    by decide, by decide⟩

theorem prefix_of_below (r k : List Str) (h : below r k = true) : r <+: k := by
  have h2 : k.take r.length = r := by
    have := of_decide_eq_true h
    exact this.1
  exact List.prefix_iff_eq_take.2 h2.symm

/-- Nothing on the way to a destination lies below the source when neither of
the two directories contains the other. -/
theorem not_below_of_apart (rs rd k : List Str) (tail : List Str)
    (h1 : ¬ rd.take rs.length = rs) (h2 : ¬ rs.take rd.length = rd) (hk : k <+: rd ++ tail) :
    below rs k = false := by
  cases hb : below rs k with
  | false => rfl
  | true =>
    exfalso
    have hrs : rs <+: rd ++ tail := (prefix_of_below rs k hb).trans hk
    have hrd : rd <+: rd ++ tail := List.prefix_append rd tail
    rcases List.prefix_or_prefix_of_prefix hrs hrd with h | h
    · exact h1 (List.prefix_iff_eq_take.1 h).symm
    · exact h2 (List.prefix_iff_eq_take.1 h).symm

theorem mem_ancestors (k x : List Str) (h : x ∈ ancestors k) : x <+: k := by
  unfold ancestors at h
  exact (List.mem_inits x k).1 (List.mem_of_mem_tail h)

theorem prefix_mem_ancestors (k x : List Str) (h : x <+: k) (hne : x ≠ []) :
    x ∈ ancestors k := by
  have hm : x ∈ k.inits := (List.mem_inits x k).2 h
  unfold ancestors
  cases k with
  | nil =>
    simp at hm
    exact absurd hm hne
  | cons y ys =>
    rw [List.inits_cons] at hm ⊢
    rcases List.mem_cons.1 hm with h1 | h1
    · exact absurd h1 hne
    · exact h1

theorem kept_trans (r : List Str) (g1 g2 : List (List Str)) (a b c : FS)
    (h1 : FS.Kept r g1 a b) (h2 : FS.Kept r g2 b c) : FS.Kept r (g1 ++ g2) a c := by
  refine ⟨h2.1.trans h1.1, ?_, fun k hk => h2.2.2 k (h1.2.2 k hk)⟩
  rw [h2.2.1, h1.2.1, List.filter_filter, List.filter_filter, List.filter_filter]
  apply List.filter_congr
  intro x _
  by_cases hx : below r x.1 = true <;> by_cases hg1 : x.1 ∈ g1 <;> by_cases hg2 : x.1 ∈ g2 <;>
    simp [hx, hg1, hg2]

/-- One image moved: the directory of its year is made, the file leaves its
place below the source, and nothing else below the source changes. -/
theorem move_step (cur : FS) (rs rd : List Str) (dst p e : Str) (t : Time) (rdb : Bool)
    (c : FileContent) (hdst : dst ≠ []) (hrd : cur.resolve dst = rd)
    (h1 : ¬ rd.take rs.length = rs) (h2 : ¬ rs.take rd.length = rd) (he : '/' ∉ e)
    (hfile : cur.node (cur.resolve p) = some (Node.file rdb c))
    (hbelow : below rs (cur.resolve p) = true)
    (hmk : ∀ err, (cur.mkdirAll (Dir (Join [dst, (NewImage p e t).ToPath]))).2 = some err →
      IsExist err = true)
    (hrn : ((cur.mkdirAll (Dir (Join [dst, (NewImage p e t).ToPath]))).1.rename p
      (Join [dst, (NewImage p e t).ToPath])).2 = none) :
    FS.Kept rs [cur.resolve p] cur
        ((cur.mkdirAll (Dir (Join [dst, (NewImage p e t).ToPath]))).1.rename p
          (Join [dst, (NewImage p e t).ToPath])).1 ∧
      ((cur.mkdirAll (Dir (Join [dst, (NewImage p e t).ToPath]))).1.rename p
        (Join [dst, (NewImage p e t).ToPath])).1.node rd = some Node.dir ∧
      ((cur.mkdirAll (Dir (Join [dst, (NewImage p e t).ToPath]))).1.rename p
        (Join [dst, (NewImage p e t).ToPath])).1.node
          (cur.resolve (Join [dst, (NewImage p e t).ToPath])) = some (Node.file rdb c) ∧
      below rs (cur.resolve (Join [dst, (NewImage p e t).ToPath])) = false ∧
      ∀ k, below rs k = false → (cur.node k).any Node.isFile = true →
        (((cur.mkdirAll (Dir (Join [dst, (NewImage p e t).ToPath]))).1.rename p
          (Join [dst, (NewImage p e t).ToPath])).1.node k).any Node.isFile = true := by
  obtain ⟨hD, hdir⟩ := destination_resolve cur dst p e t hdst he
  rw [hrd] at hD hdir
  rcases mkdirAll_cases cur (Dir (Join [dst, (NewImage p e t).ToPath])) with
    ⟨_, hstate, hnofile⟩ | ⟨err, herr, hex⟩
  swap
  · have := hmk err herr
    rw [hex] at this
    cases this
  rw [hdir] at hstate hnofile
  have hcwd1 : (cur.mkdirAll (Dir (Join [dst, (NewImage p e t).ToPath]))).1.cwd = cur.cwd := by
    rw [hstate]; exact mkdirs_cwd _ _
  have hanc : ∀ k ∈ ancestors (rd ++ [Sprintf02d t.year]),
      (fun e : List Str × Node => below rs e.1) (k, Node.dir) = false := by
    intro k hk
    exact not_below_of_apart rs rd k _ h1 h2 (mem_ancestors _ k hk)
  have hkept1 : FS.Kept rs [] cur (cur.mkdirAll (Dir (Join [dst, (NewImage p e t).ToPath]))).1 := by
    refine ⟨hcwd1, ?_, ?_⟩
    · rw [hstate, mkdirs_filter _ _ hanc]
      simp
    · intro k hk
      rw [hstate]
      exact mkdirs_dir _ _ _ hk
  have hrd1 : (cur.mkdirAll (Dir (Join [dst, (NewImage p e t).ToPath]))).1.node rd =
      some Node.dir := by
    by_cases hnil : rd = []
    · simp [FS.node, hnil]
    · rw [hstate]
      exact mkdirs_made _ _ hnofile rd
        (prefix_mem_ancestors _ rd (List.prefix_append rd _) hnil)
  have hres1 := resolve_congr cur _ hcwd1
  have hfile1 : (cur.mkdirAll (Dir (Join [dst, (NewImage p e t).ToPath]))).1.node
      ((cur.mkdirAll (Dir (Join [dst, (NewImage p e t).ToPath]))).1.resolve p) =
      some (Node.file rdb c) := by
    rw [hres1 p, kept_node rs [] cur _ hkept1 _ hbelow (by simp), hfile]
  obtain ⟨hcwd2, hfilter2, hdirs2⟩ := rename_file _ p _ rdb c hfile1 hrn
  have hkb : below rs ((cur.mkdirAll (Dir (Join [dst, (NewImage p e t).ToPath]))).1.resolve
      (Join [dst, (NewImage p e t).ToPath])) = false := by
    rw [hres1, hD]
    exact not_below_of_apart rs rd _ _ h1 h2 (List.prefix_refl _)
  have hkept2 : FS.Kept rs [cur.resolve p]
      (cur.mkdirAll (Dir (Join [dst, (NewImage p e t).ToPath]))).1
      ((cur.mkdirAll (Dir (Join [dst, (NewImage p e t).ToPath]))).1.rename p
        (Join [dst, (NewImage p e t).ToPath])).1 := by
    refine ⟨hcwd2, ?_, hdirs2⟩
    rw [hfilter2 rs hkb, hres1 p]
    apply List.filter_congr
    intro x _
    simp
  obtain ⟨hnewfile, hfiles2⟩ := rename_file_nodes _ p _ rdb c hfile1 hrn
  refine ⟨kept_trans rs [] [cur.resolve p] _ _ _ hkept1 hkept2, hdirs2 rd hrd1, ?_, ?_, ?_⟩
  · rw [← hres1]
    exact hnewfile
  · rw [← hres1]
    exact hkb
  · intro k hk hkfile
    apply hfiles2 k
    · rw [hres1]
      intro e
      rw [e, hbelow] at hk
      cases hk
    · cases hn : cur.node k with
      | none => rw [hn] at hkfile; cases hkfile
      | some n =>
        rw [hstate, mkdirs_node_some _ _ _ _ hn]
        rw [hn] at hkfile
        exact hkfile

theorem moved_after_state {σ : Type} (cs : List Call) (r : Moved σ) :
    (r.after cs).state = r.state ∧ (r.after cs).fatal = r.fatal := ⟨rfl, rfl⟩

theorem unix_calls : unix.mkdirAll = FS.mkdirAll ∧ unix.rename = FS.rename ∧
    unix.stat = FS.stat ∧ unix.walk = FS.walk ∧ unix.readFile = FS.readFile :=
  ⟨rfl, rfl, rfl, rfl, rfl⟩

/-- All the images moved: below the source nothing changes but that the files
moved are gone, and the destination root is a directory. -/
theorem move_all (rs rd : List Str) (dst : Str) (hdst : dst ≠ [])
    (h1 : ¬ rd.take rs.length = rs) (h2 : ¬ rs.take rd.length = rd) (images : List Image) :
    ∀ (cur : FS) (n : Nat), cur.resolve dst = rd → (∀ im ∈ images, cur.Movable rs im) →
      (images.map (fun im => cur.resolve im.FromPath)).Nodup →
      (moveImagesLoop unix dst n cur images).fatal = none →
      FS.Kept rs (images.map (fun im => cur.resolve im.FromPath)) cur
          (moveImagesLoop unix dst n cur images).state ∧
        (images ≠ [] →
          (moveImagesLoop unix dst n cur images).state.node rd = some Node.dir) ∧
        (∀ k, below rs k = false → (cur.node k).any Node.isFile = true →
          ((moveImagesLoop unix dst n cur images).state.node k).any Node.isFile = true) ∧
        ∀ im ∈ images, ((moveImagesLoop unix dst n cur images).state.node
          (cur.resolve (Join [dst, im.ToPath]))).any Node.isFile = true := by
  induction images with
  | nil =>
    intro cur n _ _ _ _
    exact ⟨kept_refl rs cur, fun h => absurd rfl h, fun _ _ h => h,
      fun im him => absurd him (List.not_mem_nil im)⟩
  | cons im rest ih =>
    intro cur n hrd hmov hnodup hfatal
    obtain ⟨e, t, rdb, c, him, he, hbelow, hfile⟩ := hmov im (List.mem_cons_self _ _)
    obtain ⟨hmk, hrn, _⟩ := (noMoveFails_cons unix dst cur im rest).1
      (moveImagesLoop_fatal unix dst (im :: rest) n cur hfatal)
    rw [moveImagesLoop_cons_ok unix dst n cur im rest hmk hrn] at hfatal ⊢
    rw [(moved_after_state _ _).1]
    rw [(moved_after_state _ _).2] at hfatal
    have hstep := move_step cur rs rd dst im.FromPath e t rdb c hdst hrd h1 h2 he hfile hbelow
      (by rw [← him]; exact hmk) (by rw [← him]; exact hrn)
    rw [← him] at hstep
    rw [unix_calls.1, unix_calls.2.1] at hfatal ⊢
    generalize (FS.rename (FS.mkdirAll cur (Dir (Join [dst, im.ToPath]))).1 im.FromPath
      (Join [dst, im.ToPath])).1 = cur2 at hfatal hstep ⊢
    obtain ⟨hkept, hrdir, hnew, hnewb, hfiles⟩ := hstep
    have hres := resolve_congr cur cur2 hkept.1
    have hkeys : rest.map (fun x => cur2.resolve x.FromPath) =
        rest.map (fun x => cur.resolve x.FromPath) :=
      List.map_congr_left (fun x _ => hres x.FromPath)
    rw [List.map_cons, List.nodup_cons] at hnodup
    have hmov2 : ∀ x ∈ rest, cur2.Movable rs x := by
      intro x hx
      obtain ⟨e2, t2, rdb2, c2, hx1, hx2, hx3, hx4⟩ := hmov x (List.mem_cons_of_mem _ hx)
      have hne : cur.resolve x.FromPath ∉ [cur.resolve im.FromPath] := by
        intro hmem
        rw [List.mem_singleton] at hmem
        exact hnodup.1 (by rw [← hmem]; exact List.mem_map.2 ⟨x, hx, rfl⟩)
      refine ⟨e2, t2, rdb2, c2, hx1, hx2, by rw [hres]; exact hx3, ?_⟩
      rw [hres, kept_node rs _ cur cur2 hkept _ hx3 hne]
      exact hx4
    obtain ⟨hk2, hd2, hf2, hi2⟩ := ih cur2 (n + 1) (by rw [hres]; exact hrd) hmov2
      (by rw [hkeys]; exact hnodup.2) hfatal
    rw [hkeys] at hk2
    refine ⟨?_, fun _ => hk2.2.2 rd hrdir, fun k hk hkf => hf2 k hk (hfiles k hk hkf), ?_⟩
    · have := kept_trans rs _ _ cur cur2 _ hkept hk2
      simpa using this
    · intro x hx
      rcases List.mem_cons.1 hx with rfl | hx
      · apply hf2 _ hnewb
        rw [hnew]
        rfl
      · have := hi2 x hx
        rw [hres] at this
        exact this

/-! ## A run and the run after it -/

theorem scanLoop_entries (f : List Str × Node → Str) (l : List (List Str × Node)) :
    ∀ n, (scanLoop n (l.map (fun e => ⟨f e, e.2.isDir, none⟩))).fatal = none ∧
      (scanLoop n (l.map (fun e => ⟨f e, e.2.isDir, none⟩))).sent =
        (l.filter (fun e => !e.2.isDir)).map f := by
  induction l with
  | nil => intro n; exact ⟨rfl, rfl⟩
  | cons x xs ih =>
    intro n
    cases hd : x.2.isDir with
    | true =>
      have := ih n
      simpa [scanLoop, hd, List.filter_cons] using this
    | false =>
      have := ih (n + 1)
      simpa [scanLoop, hd, List.filter_cons, Stage.send] using this

/-- The scan of a directory sends the paths of the files below it. -/
theorem scan_fs (fs : FS) (m : ImageMover) (h : fs.stat m.sourceDirectory = .ok ⟨true⟩) :
    (m.scan unix fs).fatal = none ∧
      (m.scan unix fs).sent =
        ((fs.entries.filter (fun e => below (fs.resolve m.sourceDirectory) e.1)).filter
          (fun e => !e.2.isDir)).map
          (fun e => walkPath m.sourceDirectory (e.1.drop (fs.resolve m.sourceDirectory).length)) := by
  have hw : unix.walk fs m.sourceDirectory =
      ⟨m.sourceDirectory, true, none⟩ ::
        (fs.entries.filter (fun e => below (fs.resolve m.sourceDirectory) e.1)).map
          (fun e => ⟨walkPath m.sourceDirectory
            (e.1.drop (fs.resolve m.sourceDirectory).length), e.2.isDir, none⟩) := by
    show fs.walk m.sourceDirectory = _
    unfold FS.walk
    rw [h]
    rfl
  unfold ImageMover.scan
  rw [hw]
  have := scanLoop_entries
    (fun e => walkPath m.sourceDirectory (e.1.drop (fs.resolve m.sourceDirectory).length))
    (fs.entries.filter (fun e => below (fs.resolve m.sourceDirectory) e.1)) 0
  simpa [scanLoop] using this

theorem recognize_FromPath (tbl : CaseTable) (p : Str) (c : FileContent) (im : Image)
    (h : recognize tbl p c = some im) : im.FromPath = p := by
  obtain ⟨⟨t, _, rfl⟩, _⟩ := recognize_some tbl p c im h
  rfl

theorem makeImagesLoop_all (tbl : CaseTable) (readFile : Str → Except Errno FileContent)
    (files : List Str) : ∀ n, (makeImagesLoop tbl readFile n files).fatal = none →
      ∀ p ∈ files, ∃ c, readFile p = .ok c ∧ (recognize tbl p c = none ∨
        ∃ im, recognize tbl p c = some im ∧ im ∈ (makeImagesLoop tbl readFile n files).sent) := by
  induction files with
  | nil => intro n _ p hp; simp at hp
  | cons path rest ih =>
    intro n hfatal p hp
    rcases makeImagesLoop_cons tbl readFile n path rest with
      ⟨e, _, heq⟩ | ⟨c, hc, hr, heq⟩ | ⟨c, im, hc, hr, heq⟩
    · rw [heq] at hfatal; cases hfatal
    · rw [heq] at hfatal ⊢
      rcases List.mem_cons.1 hp with rfl | hp
      · exact ⟨c, hc, Or.inl hr⟩
      · exact ih n hfatal p hp
    · rw [heq] at hfatal ⊢
      rcases List.mem_cons.1 hp with rfl | hp
      · exact ⟨c, hc, Or.inr ⟨im, hr, List.mem_cons_self _ _⟩⟩
      · obtain ⟨c2, h1, h2⟩ := ih (n + 1) hfatal p hp
        refine ⟨c2, h1, ?_⟩
        rcases h2 with h2 | ⟨im2, h3, h4⟩
        · exact Or.inl h2
        · exact Or.inr ⟨im2, h3, List.mem_cons_of_mem _ h4⟩

theorem makeImagesLoop_sublist (tbl : CaseTable) (readFile : Str → Except Errno FileContent)
    (files : List Str) : ∀ n,
      ((makeImagesLoop tbl readFile n files).sent.map (fun im => im.FromPath)).Sublist files := by
  induction files with
  | nil => intro n; simp [makeImagesLoop]
  | cons path rest ih =>
    intro n
    rcases makeImagesLoop_cons tbl readFile n path rest with
      ⟨e, _, heq⟩ | ⟨c, hc, hr, heq⟩ | ⟨c, im, hc, hr, heq⟩
    · rw [heq]; simp
    · rw [heq]; exact (ih n).cons _
    · rw [heq]
      show (im.FromPath :: _).Sublist _
      rw [recognize_FromPath tbl path c im hr]
      exact (ih (n + 1)).cons₂ _

theorem makeImagesLoop_none (tbl : CaseTable) (readFile : Str → Except Errno FileContent)
    (files : List Str) (h : ∀ p ∈ files, ∃ c, readFile p = .ok c ∧ recognize tbl p c = none) :
    ∀ n, makeImagesLoop tbl readFile n files = ⟨[], n, none, some n⟩ := by
  induction files with
  | nil => intro n; rfl
  | cons path rest ih =>
    intro n
    obtain ⟨c, hc, hr⟩ := h path (List.mem_cons_self _ _)
    rw [makeImagesLoop_skip tbl readFile n path rest c hc hr]
    exact ih (fun p hp => h p (List.mem_cons_of_mem _ hp)) n

theorem validate_none_inv {σ : Type} (os : OS σ) (s : σ) (m : ImageMover)
    (h : m.validate os s = none) :
    m.sourceDirectory ≠ [] ∧ m.destinationDirectory ≠ [] ∧
      os.stat s m.sourceDirectory = .ok ⟨true⟩ ∧
      ∀ e, os.stat s m.destinationDirectory = .error e → IsNotExist e = true := by
  unfold ImageMover.validate at h
  by_cases h1 : m.sourceDirectory = []
  · simp [h1] at h
  · have h1l : ¬ m.sourceDirectory.length = 0 := by simpa using h1
    by_cases h2 : m.destinationDirectory = []
    · simp [h1, h2] at h
    · have h2l : ¬ m.destinationDirectory.length = 0 := by simpa using h2
      simp only [h1l, h2l, if_false] at h
      refine ⟨h1, h2, ?_⟩
      cases hs : os.stat s m.sourceDirectory with
      | error e => simp [hs] at h
      | ok info =>
        cases info with
        | mk d =>
          cases d with
          | false => simp [hs] at h
          | true =>
            refine ⟨rfl, ?_⟩
            intro e he
            simp only [hs, he] at h
            by_contra hne
            simp [hne] at h

theorem validate_none_of {σ : Type} (os : OS σ) (s : σ) (m : ImageMover)
    (h1 : m.sourceDirectory ≠ []) (h2 : m.destinationDirectory ≠ [])
    (h3 : os.stat s m.sourceDirectory = .ok ⟨true⟩)
    (h4 : ∀ e, os.stat s m.destinationDirectory = .error e → IsNotExist e = true) :
    m.validate os s = none := by
  have h1l : ¬ m.sourceDirectory.length = 0 := by simpa using h1
  have h2l : ¬ m.destinationDirectory.length = 0 := by simpa using h2
  unfold ImageMover.validate
  simp only [h1l, h2l, if_false, h3]
  cases hd : os.stat s m.destinationDirectory with
  | error e => simp [h4 e hd]
  | ok info => rfl

theorem Move_of_validated {σ : Type} (os : OS σ) (tbl : CaseTable) (s : σ) (m : ImageMover)
    (hv : m.validate os s = none) (hsc : (m.scan os s).fatal = none)
    (hrun : ∀ e, (m.Move os tbl s).exit ≠ Exit.halted e) :
    (ImageMover.makeImages tbl (os.readFile s) (m.scan os s).sent).fatal = none ∧
      (m.moveImages os s
        (ImageMover.makeImages tbl (os.readFile s) (m.scan os s).sent).sent).fatal = none ∧
      (m.Move os tbl s).exit = Exit.returned none ∧
      (m.Move os tbl s).state = (m.moveImages os s
        (ImageMover.makeImages tbl (os.readFile s) (m.scan os s).sent).sent).state ∧
      (m.Move os tbl s).classified =
        some (ImageMover.makeImages tbl (os.readFile s) (m.scan os s).sent) ∧
      (m.Move os tbl s).moved = some (m.moveImages os s
        (ImageMover.makeImages tbl (os.readFile s) (m.scan os s).sent).sent) := by
  unfold ImageMover.Move at hrun ⊢
  simp only [hv, hsc] at hrun ⊢
  cases hcl : (ImageMover.makeImages tbl (os.readFile s) (m.scan os s).sent).fatal with
  | some e =>
    simp only [hcl] at hrun
    exact absurd rfl (hrun e)
  | none =>
    simp only [hcl] at hrun ⊢
    cases hmv : (m.moveImages os s
        (ImageMover.makeImages tbl (os.readFile s) (m.scan os s).sent).sent).fatal with
    | some e =>
      simp only [hmv] at hrun
      exact absurd rfl (hrun e)
    | none => refine ⟨?_, ?_, ?_, ?_, ?_, ?_⟩ <;> first | rfl | trivial

theorem Move_quiet {σ : Type} (os : OS σ) (tbl : CaseTable) (s : σ) (m : ImageMover)
    (hv : m.validate os s = none) (hsc : (m.scan os s).fatal = none)
    (hcl : ImageMover.makeImages tbl (os.readFile s) (m.scan os s).sent = ⟨[], 0, none, some 0⟩) :
    (m.Move os tbl s).exit = Exit.returned none ∧ (m.Move os tbl s).state = s ∧
      (m.Move os tbl s).classified = some ⟨[], 0, none, some 0⟩ ∧
      (m.Move os tbl s).moved.map (fun mv => (mv.calls, mv.count)) = some ([], 0) := by
  unfold ImageMover.Move
  simp only [hv, hsc, hcl]
  exact ⟨rfl, rfl, rfl, rfl⟩

theorem stat_dir (fs : FS) (p : Str) (h : fs.stat p = .ok ⟨true⟩) :
    fs.node (fs.resolve p) = some Node.dir := by
  unfold FS.stat at h
  by_cases hp : p = []
  · simp [hp] at h
  · simp only [hp, if_false] at h
    cases hn : fs.node (fs.resolve p) with
    | none => simp [hn] at h
    | some n =>
      cases n with
      | dir => rfl
      | file r c => simp [hn, Node.isDir] at h

theorem stat_of_dir (fs : FS) (p : Str) (hp : p ≠ [])
    (h : fs.node (fs.resolve p) = some Node.dir) : fs.stat p = .ok ⟨true⟩ := by
  unfold FS.stat
  simp only [hp, if_false, h]
  rfl

theorem readFile_file (fs : FS) (p : Str) (c : FileContent) (h : fs.readFile p = .ok c)
    (hexif : c.exif ≠ none) : fs.node (fs.resolve p) = some (Node.file true c) := by
  unfold FS.readFile at h
  by_cases hp : p = []
  · simp [hp] at h
  · simp only [hp, if_false] at h
    cases hn : fs.node (fs.resolve p) with
    | none => simp [hn] at h
    | some n =>
      cases n with
      | dir =>
        simp only [hn, Except.ok.injEq] at h
        rw [← h] at hexif
        exact absurd rfl hexif
      | file r c2 =>
        cases r with
        | false => simp [hn] at h
        | true =>
          simp only [hn, if_true, Except.ok.injEq] at h
          rw [h]

theorem readFile_congr (fs cur : FS) (p : Str) (c : FileContent) (hcwd : cur.cwd = fs.cwd)
    (hnode : cur.node (fs.resolve p) = fs.node (fs.resolve p)) (h : fs.readFile p = .ok c) :
    cur.readFile p = .ok c := by
  unfold FS.readFile at h ⊢
  rw [resolve_congr fs cur hcwd, hnode]
  by_cases hp : p = []
  · simp [hp] at h
  · simp only [hp, if_false] at h ⊢
    cases hn : fs.node (fs.resolve p) with
    | none => simp [hn] at h
    | some n =>
      cases n with
      | dir => simpa [hn] using h
      | file r c2 => simpa [hn] using h

/-- The paths a scan sends lead to the entries they were made from. -/
theorem scanned_paths (fs : FS) (hwf : fs.WellFormed) (src : Str) (hsrc : src ≠ [])
    (e : List Str × Node) (he : e ∈ fs.entries)
    (hb : below (fs.resolve src) e.1 = true) :
    fs.resolve (walkPath src (e.1.drop (fs.resolve src).length)) = e.1 := by
  have hplain : ∀ n ∈ e.1.drop (fs.resolve src).length, PlainName n :=
    fun n hn => (hwf.2.1 e he).2 n (List.mem_of_mem_drop hn)
  rw [(resolve_walkPath fs _ hplain src hsrc).2]
  have htake : e.1.take (fs.resolve src).length = fs.resolve src := (of_decide_eq_true hb).1
  have := List.take_append_drop (fs.resolve src).length e.1
  rw [htake] at this
  exact this

/-- What a first run that is validated and does not halt leaves: below the
source, the entries it found but those of the images it sent; every
directory; and, when it sent an image, a directory at the destination root. -/
theorem first_run (tbl : CaseTable) (fs : FS) (m : ImageMover) (hwf : fs.WellFormed)
    (hapart : fs.Apart m.sourceDirectory m.destinationDirectory)
    (hv : m.validate unix fs = none)
    (hrun : ∀ e, (m.Move unix tbl fs).exit ≠ Exit.halted e) :
    (m.Move unix tbl fs).exit = Exit.returned none ∧
      (ImageMover.makeImages tbl fs.readFile (m.scan unix fs).sent).fatal = none ∧
      FS.Kept (fs.resolve m.sourceDirectory)
        ((ImageMover.makeImages tbl fs.readFile (m.scan unix fs).sent).sent.map
          (fun im => fs.resolve im.FromPath)) fs (m.Move unix tbl fs).state ∧
      ((ImageMover.makeImages tbl fs.readFile (m.scan unix fs).sent).sent = [] →
        (m.Move unix tbl fs).state = fs) ∧
      ((ImageMover.makeImages tbl fs.readFile (m.scan unix fs).sent).sent ≠ [] →
        (m.Move unix tbl fs).state.node (fs.resolve m.destinationDirectory) =
          some Node.dir) ∧
      (m.Move unix tbl fs).classified =
        some (ImageMover.makeImages tbl fs.readFile (m.scan unix fs).sent) ∧
      (∃ mv, (m.Move unix tbl fs).moved = some mv ∧
        mv.calls = (ImageMover.makeImages tbl fs.readFile (m.scan unix fs).sent).sent.flatMap
          (callsFor m.destinationDirectory)) ∧
      ∀ im ∈ (ImageMover.makeImages tbl fs.readFile (m.scan unix fs).sent).sent,
        (m.Move unix tbl fs).state.node (fs.resolve im.FromPath) = none ∧
          ((m.Move unix tbl fs).state.node
            (fs.resolve (Join [m.destinationDirectory, im.ToPath]))).any Node.isFile = true := by
  obtain ⟨hsrc, hdst, hstat, _⟩ := validate_none_inv unix fs m hv
  obtain ⟨hscf, hscs⟩ := scan_fs fs m hstat
  obtain ⟨hclf, hmvf, hexit, hstate, hclassified, hmoved⟩ :=
    Move_of_validated unix tbl fs m hv hscf hrun
  rw [unix_calls.2.2.2.2] at hclf hmvf hstate hclassified hmoved
  have hfiles : ∀ p ∈ (m.scan unix fs).sent, ∃ e ∈ fs.entries,
      below (fs.resolve m.sourceDirectory) e.1 = true ∧ fs.resolve p = e.1 := by
    intro p hp
    rw [hscs] at hp
    obtain ⟨e, he, rfl⟩ := List.mem_map.1 hp
    have he1 := (List.mem_filter.1 he).1
    have he2 := List.mem_filter.1 he1
    exact ⟨e, he2.1, he2.2, scanned_paths fs hwf _ hsrc e he2.1 he2.2⟩
  have hmovable : ∀ im ∈ (ImageMover.makeImages tbl fs.readFile (m.scan unix fs).sent).sent,
      fs.Movable (fs.resolve m.sourceDirectory) im := by
    intro im him
    obtain ⟨p, c, hp, hc, hr⟩ := makeImagesLoop_sent tbl fs.readFile _ 0 im him
    obtain ⟨⟨t, hexif, rfl⟩, hext⟩ := recognize_some tbl p c im hr
    obtain ⟨e, _, hb, hres⟩ := hfiles p hp
    have hsep : '/' ∉ Ext (ToLower tbl p) := by
      rcases hext with h | h <;> rw [h] <;> decide
    refine ⟨Ext (ToLower tbl p), t, true, c, rfl, hsep, ?_, ?_⟩
    · show below _ (fs.resolve p) = true
      rw [hres]; exact hb
    · exact readFile_file fs p c hc (by rw [hexif]; simp)
  have hnodup : ((ImageMover.makeImages tbl fs.readFile (m.scan unix fs).sent).sent.map
      (fun im => fs.resolve im.FromPath)).Nodup := by
    have hsub := makeImagesLoop_sublist tbl fs.readFile (m.scan unix fs).sent 0
    have hsub2 := hsub.map fs.resolve
    rw [List.map_map] at hsub2
    refine List.Nodup.sublist hsub2 ?_
    rw [hscs, List.map_map]
    have hcongr : List.map (fs.resolve ∘ fun e : List Str × Node =>
        walkPath m.sourceDirectory (e.1.drop (fs.resolve m.sourceDirectory).length))
        ((fs.entries.filter (fun e => below (fs.resolve m.sourceDirectory) e.1)).filter
          (fun e => !e.2.isDir)) =
        List.map Prod.fst
          ((fs.entries.filter (fun e => below (fs.resolve m.sourceDirectory) e.1)).filter
            (fun e => !e.2.isDir)) := by
      apply List.map_congr_left
      intro e he
      have he2 := List.mem_filter.1 (List.mem_filter.1 he).1
      exact scanned_paths fs hwf _ hsrc e he2.1 he2.2
    rw [hcongr]
    exact List.Nodup.sublist
      (((List.filter_sublist _).trans (List.filter_sublist _)).map Prod.fst) hwf.2.2.1
  obtain ⟨hkept, hrd, _, himages⟩ := move_all (fs.resolve m.sourceDirectory)
    (fs.resolve m.destinationDirectory) m.destinationDirectory hdst hapart.1 hapart.2
    _ fs 0 rfl hmovable hnodup hmvf
  have hst : (m.Move unix tbl fs).state =
      (moveImagesLoop unix m.destinationDirectory 0 fs
        (ImageMover.makeImages tbl fs.readFile (m.scan unix fs).sent).sent).state := hstate
  rw [hst]
  refine ⟨hexit, hclf, hkept, ?_, hrd, hclassified, ⟨_, hmoved, ?_⟩, ?_⟩
  · intro hnil
    rw [hnil]
    rfl
  · exact (moveImagesLoop_ok unix m.destinationDirectory _ 0 fs
      (moveImagesLoop_fatal unix m.destinationDirectory _ 0 fs hmvf)).1
  · intro im him
    obtain ⟨_, _, _, _, _, _, hb, _⟩ := hmovable im him
    exact ⟨kept_gone _ _ fs _ hkept _ hb (List.mem_map.2 ⟨im, him, rfl⟩), himages im him⟩

/-- C9, amended: on a well-formed file system whose source and destination
directories do not contain one another, when a first run of the pipeline
(scan, then classify, then relocate) does not halt, a second run with the
same directories ends as the first did, without a fatal error, leaves the
whole file system, the destination tree included, exactly as the first run
left it, and finds in the source directory no file that the Classifier
accepts: it sends no Image and moves nothing. -/
theorem rerun_changes_nothing (tbl : CaseTable) (fs : FS) (m : ImageMover)
    (hwf : fs.WellFormed) (hapart : fs.Apart m.sourceDirectory m.destinationDirectory)
    (hdone : (m.Move unix tbl fs).exit.completed = true) :
    (m.Move unix tbl (m.Move unix tbl fs).state).exit = (m.Move unix tbl fs).exit ∧
      (m.Move unix tbl (m.Move unix tbl fs).state).state = (m.Move unix tbl fs).state ∧
      (∀ cl, (m.Move unix tbl (m.Move unix tbl fs).state).classified = some cl →
        cl.sent = []) ∧
      ∀ mv, (m.Move unix tbl (m.Move unix tbl fs).state).moved = some mv →
        mv.calls = [] ∧ mv.count = 0 := by
  have hrun : ∀ e, (m.Move unix tbl fs).exit ≠ Exit.halted e := by
    intro e he
    rw [he] at hdone
    cases hdone
  cases hv : m.validate unix fs with
  | some err =>
    have h1 : m.Move unix tbl fs = ⟨Exit.returned (some err), fs, none, none, none⟩ := by
      unfold ImageMover.Move
      simp only [hv]
    rw [h1]
    simp only
    rw [h1]
    refine ⟨rfl, rfl, ?_, ?_⟩
    · intro cl h; cases h
    · intro mv h; cases h
  | none =>
    obtain ⟨hsrc, hdst, hstat, hdstat⟩ := validate_none_inv unix fs m hv
    obtain ⟨hscf, hscs⟩ := scan_fs fs m hstat
    obtain ⟨hexit, hclf, hkept, hsame, hrd, _, _, _⟩ := first_run tbl fs m hwf hapart hv hrun
    generalize (m.Move unix tbl fs).state = fs1 at hkept hsame hrd ⊢
    have hres := resolve_congr fs fs1 hkept.1
    have hstat1 : fs1.stat m.sourceDirectory = .ok ⟨true⟩ := by
      apply stat_of_dir fs1 _ hsrc
      rw [hres]
      exact hkept.2.2 _ (stat_dir fs _ hstat)
    have hv1 : m.validate unix fs1 = none := by
      apply validate_none_of unix fs1 m hsrc hdst hstat1
      intro e he
      by_cases hnil : (ImageMover.makeImages tbl fs.readFile (m.scan unix fs).sent).sent = []
      · rw [hsame hnil] at he
        exact hdstat e he
      · have hd := stat_of_dir fs1 _ hdst (by rw [hres]; exact hrd hnil)
        have he2 : fs1.stat m.destinationDirectory = .error e := he
        rw [hd] at he2
        cases he2
    obtain ⟨hscf1, hscs1⟩ := scan_fs fs1 m hstat1
    have hnone : ∀ p ∈ (m.scan unix fs1).sent,
        ∃ c, fs1.readFile p = .ok c ∧ recognize tbl p c = none := by
      intro p hp
      rw [hscs1, hres, hkept.2.1] at hp
      obtain ⟨e, he, rfl⟩ := List.mem_map.1 hp
      have he1 := List.mem_filter.1 he
      have he2 := List.mem_filter.1 he1.1
      have he3 := List.mem_filter.1 he2.1
      have hgone : e.1 ∉ (ImageMover.makeImages tbl fs.readFile (m.scan unix fs).sent).sent.map
          (fun im => fs.resolve im.FromPath) := by simpa using he2.2
      have hkey := scanned_paths fs hwf _ hsrc e he3.1 he3.2
      have hin : walkPath m.sourceDirectory (e.1.drop (fs.resolve m.sourceDirectory).length) ∈
          (m.scan unix fs).sent := by
        rw [hscs]
        exact List.mem_map.2 ⟨e, List.mem_filter.2 ⟨he2.1, he1.2⟩, rfl⟩
      obtain ⟨c, hc, hrec⟩ := makeImagesLoop_all tbl fs.readFile _ 0 hclf _ hin
      have hnode : fs1.node (fs.resolve (walkPath m.sourceDirectory
          (e.1.drop (fs.resolve m.sourceDirectory).length))) =
          fs.node (fs.resolve (walkPath m.sourceDirectory
            (e.1.drop (fs.resolve m.sourceDirectory).length))) := by
        rw [hkey]
        exact kept_node _ _ fs fs1 hkept e.1 he3.2 hgone
      refine ⟨c, readFile_congr fs fs1 _ c hkept.1 hnode hc, ?_⟩
      rcases hrec with hrec | ⟨im, hrec, him⟩
      · exact hrec
      · exfalso
        apply hgone
        have hfrom := recognize_FromPath tbl _ c im hrec
        exact List.mem_map.2 ⟨im, him, by rw [hfrom]; exact hkey⟩
    have hcl1 : ImageMover.makeImages tbl (unix.readFile fs1) (m.scan unix fs1).sent =
        ⟨[], 0, none, some 0⟩ :=
      makeImagesLoop_none tbl fs1.readFile _ hnone 0
    obtain ⟨hx1, hx2, hx3, hx4⟩ := Move_quiet unix tbl fs1 m hv1 hscf1 hcl1
    refine ⟨hx1.trans hexit.symm, hx2, ?_, ?_⟩
    · intro cl hcl
      rw [hx3] at hcl
      cases hcl
      rfl
    · intro mv hmv
      rw [hmv] at hx4
      simp only [Option.map_some', Option.some.injEq, Prod.mk.injEq] at hx4
      exact hx4

/-- C9, amended, on a folder that holds a text file and a photo: the second
run leaves what the first run left, and the text file is still in the source
directory. -/
theorem rerun_changes_nothing_witness :
    mixedFS.WellFormed ∧ mixedFS.Apart "in".toList "out".toList ∧
      ((NewImageMover "in".toList "out".toList).Move unix asciiTable mixedFS).exit.completed =
        true ∧
      ((NewImageMover "in".toList "out".toList).Move unix asciiTable
        ((NewImageMover "in".toList "out".toList).Move unix asciiTable mixedFS).state).state =
        ((NewImageMover "in".toList "out".toList).Move unix asciiTable mixedFS).state ∧
      unix.stat ((NewImageMover "in".toList "out".toList).Move unix asciiTable mixedFS).state
        "out/2023/2023.03.05_14.07.09.jpg".toList = .ok ⟨false⟩ :=
  ⟨by decide, by decide, by decide,
    (rerun_changes_nothing asciiTable mixedFS (NewImageMover "in".toList "out".toList)
      (by decide) (by decide) (by decide)).2.1,
    by decide⟩

/-- C9 as stated fails.  A text file is left where it was, so the second run
does not find the source directory empty of files; and when the destination
lies in the source directory, a photo that the first run has put in the place
of another one is moved again by the second run, which leaves another tree
than the first. -/
theorem rerun_finds_files :
    ((NewImageMover "in".toList "out".toList).Move unix asciiTable mixedFS).exit =
        Exit.returned none ∧
      ((NewImageMover "in".toList "out".toList).Move unix asciiTable
        ((NewImageMover "in".toList "out".toList).Move unix asciiTable mixedFS).state).scanned.map
          (fun sc => sc.sent) = some ["in/note.txt".toList] ∧
      nestedFS.WellFormed ∧
      ((NewImageMover "all".toList "all".toList).Move unix asciiTable nestedFS).exit =
        Exit.returned none ∧
      ((NewImageMover "all".toList "all".toList).Move unix asciiTable
        ((NewImageMover "all".toList "all".toList).Move unix asciiTable nestedFS).state).exit =
        Exit.returned none ∧
      ((NewImageMover "all".toList "all".toList).Move unix asciiTable
        ((NewImageMover "all".toList "all".toList).Move unix asciiTable nestedFS).state).state ≠
        ((NewImageMover "all".toList "all".toList).Move unix asciiTable nestedFS).state := by
  decide

/-! ## Where a run leaves the files it accepts -/

theorem stat_of_file (fs : FS) (p : Str) (hp : p ≠ [])
    (h : (fs.node (fs.resolve p)).any Node.isFile = true) : fs.stat p = .ok ⟨false⟩ := by
  unfold FS.stat
  simp only [hp, if_false]
  cases hn : fs.node (fs.resolve p) with
  | none => rw [hn] at h; cases h
  | some n =>
    cases n with
    | dir => rw [hn] at h; cases h
    | file r c => rfl

theorem stat_of_none (fs : FS) (p : Str) (h : fs.node (fs.resolve p) = none) :
    ∃ e, fs.stat p = .error e := by
  unfold FS.stat
  by_cases hp : p = []
  · exact ⟨Errno.ENOENT, by simp [hp]⟩
  · exact ⟨fs.missing (fs.resolve p), by simp [hp, h]⟩

/-- C3, amended: on a well-formed file system whose source and destination
directories do not contain one another, when the run does not halt, every
file that `makeImages` accepts is renamed to the destination root joined with
its `ToPath`, a name that ends with the lower-cased extension of the source
name, which is its extension; after the run a file is found under that name
and nothing under the source path. -/
theorem moved_name_extension (tbl : CaseTable) (fs : FS) (m : ImageMover)
    (hwf : fs.WellFormed) (hapart : fs.Apart m.sourceDirectory m.destinationDirectory)
    (hdone : (m.Move unix tbl fs).exit.completed = true) :
    ∀ cl, (m.Move unix tbl fs).classified = some cl → ∀ im ∈ cl.sent,
      ToLower tbl (Ext im.FromPath) <:+ Join [m.destinationDirectory, im.ToPath] ∧
        Ext (Join [m.destinationDirectory, im.ToPath]) = ToLower tbl (Ext im.FromPath) ∧
        (∃ mv, (m.Move unix tbl fs).moved = some mv ∧
          Call.rename im.FromPath (Join [m.destinationDirectory, im.ToPath]) ∈ mv.calls) ∧
        unix.stat (m.Move unix tbl fs).state (Join [m.destinationDirectory, im.ToPath]) =
          .ok ⟨false⟩ ∧
        ∃ e, unix.stat (m.Move unix tbl fs).state im.FromPath = .error e := by
  have hrun : ∀ e, (m.Move unix tbl fs).exit ≠ Exit.halted e := by
    intro e he
    rw [he] at hdone
    cases hdone
  intro cl hcl im him
  cases hv : m.validate unix fs with
  | some err =>
    have h1 : m.Move unix tbl fs = ⟨Exit.returned (some err), fs, none, none, none⟩ := by
      unfold ImageMover.Move
      simp only [hv]
    rw [h1] at hcl
    cases hcl
  | none =>
    obtain ⟨_, hdst, _, _⟩ := validate_none_inv unix fs m hv
    obtain ⟨_, _, hkept, _, _, hclassified, ⟨mv, hmoved, hcalls⟩, hnodes⟩ :=
      first_run tbl fs m hwf hapart hv hrun
    rw [hclassified] at hcl
    cases hcl
    obtain ⟨hgone, hplaced⟩ := hnodes im him
    obtain ⟨p, c, _, _, hr⟩ := makeImagesLoop_sent tbl fs.readFile _ 0 im him
    obtain ⟨⟨t, _, him2⟩, hext⟩ := recognize_some tbl p c im hr
    have hfrom : im.FromPath = p := recognize_FromPath tbl p c im hr
    have hlow : ToLower tbl (Ext im.FromPath) = Ext (ToLower tbl p) := by
      rw [hfrom]; exact (Ext_ToLower tbl p).symm
    have hshape := destination_extension m.destinationDirectory p (Ext (ToLower tbl p)) t hext
    rw [← him2] at hshape
    have hres := resolve_congr fs (m.Move unix tbl fs).state hkept.1
    have hD : Join [m.destinationDirectory, im.ToPath] ≠ [] := by
      rw [Join_pair _ _ hdst]; exact Clean_ne_nil _
    refine ⟨by rw [hlow]; exact hshape.2, by rw [hlow]; exact hshape.1, ⟨mv, hmoved, ?_⟩, ?_, ?_⟩
    · rw [hcalls]
      apply List.mem_flatMap.2
      exact ⟨im, him, by simp [callsFor]⟩
    · exact stat_of_file _ _ hD (by rw [hres]; exact hplaced)
    · exact stat_of_none _ _ (by rw [hres]; exact hgone)

/-- C3, amended, on a folder that holds `photo.JPG`, taken 2023-03-05 14:07:09:
it is found as `out/2023/2023.03.05_14.07.09.jpg` after the run, and nothing is
found under `in/photo.JPG`. -/
theorem moved_name_extension_witness :
    photoFS.WellFormed ∧ photoFS.Apart "in".toList "out".toList ∧
      Join ["out".toList, (NewImage "in/photo.JPG".toList ".jpg".toList capture2023).ToPath] =
        "out/2023/2023.03.05_14.07.09.jpg".toList ∧
      unix.stat ((NewImageMover "in".toList "out".toList).Move unix asciiTable photoFS).state
        (Join ["out".toList,
          (NewImage "in/photo.JPG".toList ".jpg".toList capture2023).ToPath]) = .ok ⟨false⟩ ∧
      ∃ e, unix.stat ((NewImageMover "in".toList "out".toList).Move unix asciiTable
        photoFS).state "in/photo.JPG".toList = .error e := by
  have h := moved_name_extension asciiTable photoFS (NewImageMover "in".toList "out".toList)
    (by decide) (by decide) (by decide)
    ⟨[NewImage "in/photo.JPG".toList ".jpg".toList capture2023], 1, none, some 1⟩ (by decide)
    (NewImage "in/photo.JPG".toList ".jpg".toList capture2023) (by decide)
  exact ⟨by decide, by decide, by decide, h.2.2.2.1, h.2.2.2.2⟩

/-- C3 as stated fails.  The file `photo.JPG` is not moved to a name that ends
in `.JPG`, the extension as the source name writes it: nothing is found under
`out/2023/2023.03.05_14.07.09.JPG` after the run.  And a photo that lies where
it belongs, in a folder that is source and destination at once, is accepted
and is still found under its source path after the run. -/
theorem moved_name_not_source_case :
    Ext "in/photo.JPG".toList = ".JPG".toList ∧
      ((NewImageMover "in".toList "out".toList).Move unix asciiTable photoFS).classified.map
          (fun cl => cl.sent.map (fun im => Join ["out".toList, im.ToPath])) =
        some ["out/2023/2023.03.05_14.07.09.jpg".toList] ∧
      unix.stat ((NewImageMover "in".toList "out".toList).Move unix asciiTable photoFS).state
          "out/2023/2023.03.05_14.07.09.JPG".toList = .error Errno.ENOENT ∧
      ¬ ".JPG".toList <:+ "out/2023/2023.03.05_14.07.09.jpg".toList ∧
      ((NewImageMover "all".toList "all".toList).Move unix asciiTable placedFS).exit =
        Exit.returned none ∧
      ((NewImageMover "all".toList "all".toList).Move unix asciiTable placedFS).classified.map
          (fun cl => cl.sent.map (fun im => im.FromPath)) =
        some ["all/2023/2023.03.05_14.07.09.jpg".toList] ∧
      unix.stat ((NewImageMover "all".toList "all".toList).Move unix asciiTable placedFS).state
          "all/2023/2023.03.05_14.07.09.jpg".toList = .ok ⟨false⟩ := by
  decide

end ImageRenamer
